import Mathlib

/-!
# Assignment-language interpreter (`Interpreter.cpp`)

A shallow embedding of the lexer, the recursive-descent parser/evaluator and
the top-level `execute` of `src/Interpreter.cpp`, followed by theorems about
them.

Modelling conventions.

* The source text is a `List Char`; each element stands for one C++ `char`.
  Character classes follow the "C" locale (`isspace`, `isalpha`, `isdigit`,
  `isalnum`): a code above 127 belongs to no class.
* `int` is a 32-bit two's complement integer.  Values are kept as `Int` and
  every arithmetic result is passed through `wrap`; theorems about values
  carry explicit no-overflow hypotheses.
* `std::unordered_map` is an association list with unique keys.  Its
  enumeration order (unspecified in C++) is the list order.
* C++ exceptions are the constructors of `Exn`.  A throwing call returns the
  exception together with the object state at the point of the throw.
* The mutually recursive parse functions take a recursion budget (`fuel`).
  `execute` supplies a budget that is proved sufficient for every source text
  (`run_ne_outOfFuel`), so `Res.outOfFuel` is never the result of its run.
-/

namespace Tokenizer

/-! ## Exceptions -/

/-- The exceptions the program can raise.  `SyntaxError` and
`UninitializedError` derive from `std::runtime_error`; `std::stoi` raises
`std::invalid_argument` or `std::out_of_range`, which derive from
`std::logic_error`. -/
inductive Exn where
  | SyntaxError
  | UninitializedError
  | InvalidArgument
  | OutOfRange
  deriving DecidableEq, Repr

/-- Whether the exception is caught by `catch (runtime_error& e)`. -/
def Exn.isRuntimeError : Exn → Bool
  | .SyntaxError => true
  | .UninitializedError => true
  | .InvalidArgument => false
  | .OutOfRange => false

/-- The text of `e.what()`: both exception classes pass the literal `"error"`
to `runtime_error` and drop their own message. -/
def Exn.what : Exn → String
  | .SyntaxError => "error"
  | .UninitializedError => "error"
  | .InvalidArgument => "stoi"
  | .OutOfRange => "stoi"

/-! ## Tokens -/

inductive TokenType where
  | ID | NUM | OP | ASSIGN | SEMICOLON | LPAREN | RPAREN | END
  deriving DecidableEq, Repr

structure Token where
  type : TokenType
  value : String
  deriving DecidableEq, Repr

/-! ## Character classes and machine integers -/

def isspace (c : Char) : Bool := c.toNat = 32 || (9 ≤ c.toNat && c.toNat ≤ 13)

def isdigit (c : Char) : Bool := 48 ≤ c.toNat && c.toNat ≤ 57

def isalpha (c : Char) : Bool :=
  (65 ≤ c.toNat && c.toNat ≤ 90) || (97 ≤ c.toNat && c.toNat ≤ 122)

def isalnum (c : Char) : Bool := isalpha c || isdigit c

def INT_MAX : Int := 2147483647

def INT_MIN : Int := -2147483648

/-- Reduction of a mathematical integer to the 32-bit two's complement range. -/
def wrap (x : Int) : Int := (x + 2147483648) % 4294967296 - 2147483648

/-- The value is representable as an `int`. -/
def InRange (x : Int) : Prop := INT_MIN ≤ x ∧ x ≤ INT_MAX

instance (x : Int) : Decidable (InRange x) := by unfold InRange; infer_instance

/-- Decimal value of a digit sequence, most significant digit first. -/
def decimal (ds : List Char) : Nat := ds.foldl (fun acc c => 10 * acc + (c.toNat - 48)) 0

/-- `std::stoi` on a string without leading whitespace or sign (the lexer
produces no other Number text): the longest digit prefix is converted; no
digit gives `invalid_argument`, a value above `INT_MAX` gives `out_of_range`. -/
def stoi (s : String) : Except Exn Int :=
  let ds := s.data.takeWhile isdigit
  if ds = [] then .error .InvalidArgument
  else if INT_MAX < (decimal ds : Int) then .error .OutOfRange
  else .ok (decimal ds : Int)

/-! ## Lexer -/

structure Lexer where
  input : List Char
  pos : Nat
  deriving DecidableEq, Repr

/-- `input[i]` of `std::string`: the character at `i`, and `'\0'` at
`i = size()`. -/
def charAt (input : List Char) (i : Nat) : Char := input.getD i (Char.ofNat 0)

/-- The loop `while (pos < input.size() && p(input[pos])) pos++;`.  The first
argument bounds the number of iterations; `input.length - pos` is never
exceeded. -/
def skipWhile (p : Char → Bool) (input : List Char) : Nat → Nat → Nat
  | 0, pos => pos
  | fuel + 1, pos =>
    if pos < input.length && p (charAt input pos) then skipWhile p input fuel (pos + 1)
    else pos

/-- The loop `while (pos < input.size() && p(input[pos])) acc += input[pos++];`. -/
def scanWhile (p : Char → Bool) (input : List Char) : Nat → String → Nat → String × Nat
  | 0, acc, pos => (acc, pos)
  | fuel + 1, acc, pos =>
    if pos < input.length && p (charAt input pos) then
      scanWhile p input fuel (acc.push (charAt input pos)) (pos + 1)
    else (acc, pos)

/-- `Lexer::nextToken`: the token or the exception, and the lexer afterwards. -/
def Lexer.nextToken (lx : Lexer) : Except Exn Token × Lexer :=
  let input := lx.input
  let pos := skipWhile isspace input (input.length - lx.pos) lx.pos
  if pos ≥ input.length then (.ok ⟨.END, ""⟩, ⟨input, pos⟩)
  else
    let ch := charAt input pos
    if isalpha ch || ch = '_' then
      let r := scanWhile (fun c => isalnum c || c = '_') input (input.length - pos) "" pos
      (.ok ⟨.ID, r.1⟩, ⟨input, r.2⟩)
    else if isdigit ch then
      if ch = '0' && isdigit (charAt input (pos + 1)) then
        (.error .SyntaxError, ⟨input, pos⟩)
      else if ch = '0' then
        (.ok ⟨.NUM, "0"⟩, ⟨input, pos + 1⟩)
      else
        let r := scanWhile isdigit input (input.length - pos) "" pos
        (.ok ⟨.NUM, r.1⟩, ⟨input, r.2⟩)
    else if ch = '+' || ch = '-' || ch = '*' then
      (.ok ⟨.OP, String.singleton ch⟩, ⟨input, pos + 1⟩)
    else if ch = '=' then (.ok ⟨.ASSIGN, "="⟩, ⟨input, pos + 1⟩)
    else if ch = ';' then (.ok ⟨.SEMICOLON, ";"⟩, ⟨input, pos + 1⟩)
    else if ch = '(' then (.ok ⟨.LPAREN, "("⟩, ⟨input, pos + 1⟩)
    else if ch = ')' then (.ok ⟨.RPAREN, ")"⟩, ⟨input, pos + 1⟩)
    else (.error .SyntaxError, ⟨input, pos⟩)

/-! ## Variable store -/

/-- `m.find(k)` on an association list. -/
def find {V : Type} : List (String × V) → String → Option V
  | [], _ => none
  | (k', v) :: m, k => if k' = k then some v else find m k

/-- `m[k] = v`: overwrite the binding of `k`, or add one. -/
def assign {V : Type} : List (String × V) → String → V → List (String × V)
  | [], k, v => [(k, v)]
  | (k', v') :: m, k, v => if k' = k then (k', v) :: m else (k', v') :: assign m k v

/-- `m[k]` read as a value: a missing key is first inserted with the
value-initialised default `d`. -/
def index {V : Type} (d : V) (m : List (String × V)) (k : String) : V × List (String × V) :=
  match find m k with
  | some v => (v, m)
  | none => (d, assign m k d)

/-! ## Interpreter -/

structure Interpreter where
  lexer : Lexer
  current : Token
  vars : List (String × Int)
  initialized : List (String × Bool)
  deriving DecidableEq, Repr

/-- Result of a member function: a value, or an exception, each with the
object state it leaves; or an exhausted recursion budget. -/
inductive Res (α : Type) where
  | ok (a : α) (s : Interpreter)
  | throw (e : Exn) (s : Interpreter)
  | outOfFuel
  deriving DecidableEq, Repr

def Res.bind {α β : Type} (r : Res α) (f : α → Interpreter → Res β) : Res β :=
  match r with
  | .ok a s => f a s
  | .throw e s => .throw e s
  | .outOfFuel => .outOfFuel

/-- `Interpreter::next`. -/
def next (s : Interpreter) : Res Unit :=
  match s.lexer.nextToken with
  | (.ok t, lx) => .ok () { s with lexer := lx, current := t }
  | (.error e, lx) => .throw e { s with lexer := lx }

/-- `Interpreter::expect`. -/
def expect (expected : TokenType) (s : Interpreter) : Res Unit :=
  if s.current.type ≠ expected then .throw .SyntaxError s else .ok () s

/-- The identifier branch of `parseFact`: `initialized[varName]` and
`vars[varName]` are `operator[]` reads, which insert a missing key. -/
def readVar (s : Interpreter) : Res Int :=
  let varName := s.current.value
  let i := index false s.initialized varName
  let s1 := { s with initialized := i.2 }
  if !i.1 then .throw .UninitializedError s1
  else
    let v := index (0 : Int) s1.vars varName
    (next { s1 with vars := v.2 }).bind fun _ s2 => .ok v.1 s2

mutual

/-- `Interpreter::parseFact`. -/
def parseFact : Nat → Interpreter → Res Int
  | 0, _ => .outOfFuel
  | fuel + 1, s =>
    if s.current.type = .OP ∧ (s.current.value = "+" ∨ s.current.value = "-") then
      let op := s.current.value
      (next s).bind fun _ s1 =>
      (parseFact fuel s1).bind fun value s2 =>
      .ok (if op = "+" then value else wrap (-value)) s2
    else if s.current.type = .NUM then
      match stoi s.current.value with
      | .error e => .throw e s
      | .ok value => (next s).bind fun _ s1 => .ok value s1
    else if s.current.type = .ID then
      readVar s
    else if s.current.type = .LPAREN then
      (next s).bind fun _ s1 =>
      (parseExp fuel s1).bind fun value s2 =>
      (expect .RPAREN s2).bind fun _ s3 =>
      (next s3).bind fun _ s4 => .ok value s4
    else .throw .SyntaxError s

/-- The `while` loop of `parseTerm`, entered with the running `result`. -/
def termLoop : Nat → Int → Interpreter → Res Int
  | 0, _, _ => .outOfFuel
  | fuel + 1, result, s =>
    if s.current.type = .OP ∧ s.current.value = "*" then
      (next s).bind fun _ s1 =>
      (parseFact fuel s1).bind fun f s2 =>
      termLoop fuel (wrap (result * f)) s2
    else .ok result s

/-- `Interpreter::parseTerm`. -/
def parseTerm : Nat → Interpreter → Res Int
  | 0, _ => .outOfFuel
  | fuel + 1, s => (parseFact fuel s).bind fun result s1 => termLoop fuel result s1

/-- The `while` loop of `parseExp`, entered with the running `result`. -/
def expLoop : Nat → Int → Interpreter → Res Int
  | 0, _, _ => .outOfFuel
  | fuel + 1, result, s =>
    if s.current.type = .OP ∧ (s.current.value = "+" ∨ s.current.value = "-") then
      let op := s.current.value
      (next s).bind fun _ s1 =>
      (parseTerm fuel s1).bind fun term s2 =>
      expLoop fuel (if op = "+" then wrap (result + term) else wrap (result - term)) s2
    else .ok result s

/-- `Interpreter::parseExp`. -/
def parseExp : Nat → Interpreter → Res Int
  | 0, _ => .outOfFuel
  | fuel + 1, s => (parseTerm fuel s).bind fun result s1 => expLoop fuel result s1

end

/-- `Interpreter::parseAssignment`. -/
def parseAssignment (fuel : Nat) (s : Interpreter) : Res Unit :=
  (expect .ID s).bind fun _ s1 =>
  let varName := s1.current.value
  (next s1).bind fun _ s2 =>
  (expect .ASSIGN s2).bind fun _ s3 =>
  (next s3).bind fun _ s4 =>
  (parseExp fuel s4).bind fun value s5 =>
  (expect .SEMICOLON s5).bind fun _ s6 =>
  (next s6).bind fun _ s7 =>
  .ok () { s7 with vars := assign s7.vars varName value,
                   initialized := assign s7.initialized varName true }

/-- The loop `while (current.type != END) parseAssignment();`. -/
def stmtLoop : Nat → Interpreter → Res Unit
  | 0, _ => .outOfFuel
  | fuel + 1, s =>
    if s.current.type ≠ .END then
      (parseAssignment fuel s).bind fun _ s1 => stmtLoop fuel s1
    else .ok () s

/-- The interpreter object built by `Interpreter(const string& input)`.  The
`current` member starts default-initialised; it is overwritten by the first
`next()` before any read. -/
def Interpreter.new (input : List Char) : Interpreter :=
  { lexer := ⟨input, 0⟩, current := ⟨.END, ""⟩, vars := [], initialized := [] }

/-- The body of the `try` block of `execute` up to the report loop. -/
def run (fuel : Nat) (s : Interpreter) : Res Unit :=
  (next s).bind fun _ s1 => stmtLoop fuel s1

/-- One line of the report: `pair.first << " = " << pair.second`. -/
def reportLine (p : String × Int) : String := p.1 ++ " = " ++ toString p.2

/-- What a call of `execute` does, as seen by its caller. -/
inductive Outcome where
  /-- The call returns, having printed these lines. -/
  | returned (lines : List String)
  /-- An exception leaves `execute`; nothing was printed. -/
  | escaped (e : Exn)
  /-- The recursion budget was exhausted. -/
  | outOfFuel
  deriving DecidableEq, Repr

/-- Recursion budget given by `execute` to the statement loop. -/
def fuelFor (input : List Char) : Nat := 3 * input.length + 7

/-- `Interpreter::execute` on a fresh interpreter over `input`. -/
def execute (input : List Char) : Outcome :=
  match run (fuelFor input) (Interpreter.new input) with
  | .ok _ s => .returned (s.vars.map reportLine)
  | .throw e _ => if e.isRuntimeError then .returned [e.what] else .escaped e
  | .outOfFuel => .outOfFuel

/-! ## Auxiliary definitions for the proofs -/

/-- The current token is a unary sign. -/
@[reducible] def Token.isSign (t : Token) : Prop := t.type = .OP ∧ (t.value = "+" ∨ t.value = "-")

instance (t : Token) : Decidable t.isSign := by unfold Token.isSign; infer_instance

/-- The result `r'` agrees with `r` wherever `r` is a result at all. -/
def Res.Le {α : Type} (r r' : Res α) : Prop := r ≠ .outOfFuel → r' = r

/-- Number of characters not yet read, plus one while the current token is
not `END`. -/
def remaining (s : Interpreter) : Nat :=
  s.lexer.input.length - s.lexer.pos + (if s.current.type = .END then 0 else 1)

/-! ## Parse trees and the reference evaluator -/

/-- Parse trees of the grammar
`Expression := Term { ('+' | '-') Term }`, `Term := Factor { '*' Factor }`,
`Factor := ('+' | '-') Factor | Number | Identifier | '(' Expression ')'`,
with the repetitions nested to the left. -/
inductive Tree where
  | num (lit : String)
  | var (name : String)
  | pos (f : Tree)
  | neg (f : Tree)
  | paren (e : Tree)
  | mul (t f : Tree)
  | add (e t : Tree)
  | sub (e t : Tree)
  deriving DecidableEq, Repr

/-- The root is a production of `Factor`. -/
def Tree.isFactor : Tree → Bool
  | .num _ | .var _ | .pos _ | .neg _ | .paren _ => true
  | _ => false

/-- The root is a production of `Term`. -/
def Tree.isTerm : Tree → Bool
  | .mul _ _ => true
  | t => t.isFactor

/-- Every subtree stands where the grammar allows it: a sign applies to a
factor, `*` joins a term and a factor, `+`/`-` join an expression and a term. -/
def Tree.grammatical : Tree → Bool
  | .num _ => true
  | .var _ => true
  | .pos f => f.grammatical && f.isFactor
  | .neg f => f.grammatical && f.isFactor
  | .paren e => e.grammatical
  | .mul t f => t.grammatical && t.isTerm && f.grammatical && f.isFactor
  | .add e t => e.grammatical && t.grammatical && t.isTerm
  | .sub e t => e.grammatical && t.grammatical && t.isTerm

/-- The token sequence a tree derives. -/
def Tree.toks : Tree → List Token
  | .num lit => [⟨.NUM, lit⟩]
  | .var name => [⟨.ID, name⟩]
  | .pos f => ⟨.OP, "+"⟩ :: f.toks
  | .neg f => ⟨.OP, "-"⟩ :: f.toks
  | .paren e => ⟨.LPAREN, "("⟩ :: (e.toks ++ [⟨.RPAREN, ")"⟩])
  | .mul t f => t.toks ++ ⟨.OP, "*"⟩ :: f.toks
  | .add e t => e.toks ++ ⟨.OP, "+"⟩ :: t.toks
  | .sub e t => e.toks ++ ⟨.OP, "-"⟩ :: t.toks

/-- Reference evaluator: the value of a tree over the mathematical integers,
variables read from `ρ`. -/
def Tree.eval (ρ : String → Int) : Tree → Int
  | .num lit => decimal lit.data
  | .var name => ρ name
  | .pos f => f.eval ρ
  | .neg f => - f.eval ρ
  | .paren e => e.eval ρ
  | .mul t f => t.eval ρ * f.eval ρ
  | .add e t => e.eval ρ + t.eval ρ
  | .sub e t => e.eval ρ - t.eval ρ

/-- The variables a tree refers to. -/
def Tree.vars : Tree → List String
  | .num _ => []
  | .var name => [name]
  | .pos f => f.vars
  | .neg f => f.vars
  | .paren e => e.vars
  | .mul t f => t.vars ++ f.vars
  | .add e t => e.vars ++ t.vars
  | .sub e t => e.vars ++ t.vars

/-- Every variable reference names a member of `D`. -/
def Tree.Scoped (D : List String) (t : Tree) : Prop := ∀ x ∈ t.vars, x ∈ D

instance (D : List String) (t : Tree) : Decidable (t.Scoped D) := by
  unfold Tree.Scoped; infer_instance

/-- No literal and no intermediate result leaves the range of `int`. -/
def Tree.NoOverflow (ρ : String → Int) : Tree → Prop
  | .num lit => (decimal lit.data : Int) ≤ INT_MAX
  | .var _ => True
  | .pos f => f.NoOverflow ρ
  | .neg f => f.NoOverflow ρ ∧ InRange (- f.eval ρ)
  | .paren e => e.NoOverflow ρ
  | .mul t f => t.NoOverflow ρ ∧ f.NoOverflow ρ ∧ InRange (t.eval ρ * f.eval ρ)
  | .add e t => e.NoOverflow ρ ∧ t.NoOverflow ρ ∧ InRange (e.eval ρ + t.eval ρ)
  | .sub e t => e.NoOverflow ρ ∧ t.NoOverflow ρ ∧ InRange (e.eval ρ - t.eval ρ)

instance Tree.decNoOverflow (ρ : String → Int) : (t : Tree) → Decidable (t.NoOverflow ρ)
  | .num _ => by unfold Tree.NoOverflow; infer_instance
  | .var _ => by unfold Tree.NoOverflow; infer_instance
  | .pos f => by unfold Tree.NoOverflow; exact Tree.decNoOverflow ρ f
  | .neg f => by
    unfold Tree.NoOverflow
    exact @instDecidableAnd _ _ (Tree.decNoOverflow ρ f) _
  | .paren e => by unfold Tree.NoOverflow; exact Tree.decNoOverflow ρ e
  | .mul t f => by
    unfold Tree.NoOverflow
    exact @instDecidableAnd _ _ (Tree.decNoOverflow ρ t) (@instDecidableAnd _ _ (Tree.decNoOverflow ρ f) _)
  | .add t f => by
    unfold Tree.NoOverflow
    exact @instDecidableAnd _ _ (Tree.decNoOverflow ρ t) (@instDecidableAnd _ _ (Tree.decNoOverflow ρ f) _)
  | .sub t f => by
    unfold Tree.NoOverflow
    exact @instDecidableAnd _ _ (Tree.decNoOverflow ρ t) (@instDecidableAnd _ _ (Tree.decNoOverflow ρ f) _)

/-- An assignment statement `name = rhs ;`. -/
structure Stmt where
  name : String
  rhs : Tree
  deriving DecidableEq, Repr

def Stmt.toks (st : Stmt) : List Token :=
  ⟨.ID, st.name⟩ :: ⟨.ASSIGN, "="⟩ :: (st.rhs.toks ++ [⟨.SEMICOLON, ";"⟩])

/-- The token sequence of a program, without the closing `END`. -/
def progToks : List Stmt → List Token
  | [] => []
  | st :: rest => st.toks ++ progToks rest

/-- Reference semantics of a statement list: each statement evaluates its
right-hand side in the environment of that moment and rebinds its name. -/
def refRun : List Stmt → (String → Int) → (String → Int)
  | [], ρ => ρ
  | st :: rest, ρ => refRun rest (Function.update ρ st.name (st.rhs.eval ρ))

/-- Every right-hand side is grammatical. -/
def Grammatical (prog : List Stmt) : Prop := ∀ st ∈ prog, st.rhs.grammatical = true

instance (prog : List Stmt) : Decidable (Grammatical prog) := by
  unfold Grammatical; infer_instance

/-- Every variable reference names a variable assigned by an earlier statement
(or a member of `D`). -/
def WellScoped : List String → List Stmt → Prop
  | _, [] => True
  | D, st :: rest => st.rhs.Scoped D ∧ WellScoped (st.name :: D) rest

instance decWellScoped : (D : List String) → (prog : List Stmt) → Decidable (WellScoped D prog)
  | _, [] => by unfold WellScoped; infer_instance
  | D, st :: rest => by
    unfold WellScoped
    exact @instDecidableAnd _ _ _ (decWellScoped (st.name :: D) rest)

/-- No literal and no intermediate result of the run overflows. -/
def NoOverflow : (String → Int) → List Stmt → Prop
  | _, [] => True
  | ρ, st :: rest =>
    st.rhs.NoOverflow ρ ∧ NoOverflow (Function.update ρ st.name (st.rhs.eval ρ)) rest

instance decNoOverflow : (ρ : String → Int) → (prog : List Stmt) → Decidable (NoOverflow ρ prog)
  | _, [] => by unfold NoOverflow; infer_instance
  | ρ, st :: rest => by
    unfold NoOverflow
    exact @instDecidableAnd _ _ _ (decNoOverflow _ rest)

/-- Successive calls of `nextToken` from `lx` return exactly the tokens `ts`;
the result is the lexer after the last call. -/
def lexes : Lexer → List Token → Option Lexer
  | lx, [] => some lx
  | lx, t :: ts =>
    match lx.nextToken with
    | (.ok t', lx') => if t' = t then lexes lx' ts else none
    | (.error _, _) => none

/-- Starting with the current token of `s`, the parser meets exactly the tokens
`ts`, calling `next` after each; `s'` is the state after the last call, so the
current token of `s'` is the one that follows `ts`. -/
def Feeds : Interpreter → List Token → Interpreter → Prop
  | s, [], s' => s' = s
  | s, t :: ts, s' => s.current = t ∧ ∃ s1, next s = .ok () s1 ∧ Feeds s1 ts s'

/-- A non-empty string of decimal digits. -/
def IsNumeral (v : String) : Prop := v.data ≠ [] ∧ ∀ c ∈ v.data, isdigit c = true

/-- The text of a current Number token is a numeral. -/
def CurOk (s : Interpreter) : Prop := s.current.type = .NUM → IsNumeral s.current.value

/-- The store holds, for every name in `D`, an initialized binding with the
value `ρ` gives. -/
def Agree (s : Interpreter) (ρ : String → Int) (D : List String) : Prop :=
  ∀ x ∈ D, find s.initialized x = some true ∧ find s.vars x = some (ρ x)

/-- The token is the operator `*`. -/
@[reducible] def Token.isStar (t : Token) : Prop := t.type = .OP ∧ t.value = "*"

/-- Correctness of `parseFact` on the tokens of `t`. -/
def FactL (ρ : String → Int) (D : List String) (t : Tree) : Prop :=
  ∀ s s', Feeds s t.toks s' → CurOk s → Agree s ρ D →
    ∃ n, parseFact n s = .ok (t.eval ρ) s'

/-- Correctness of `parseTerm` on the tokens of `t`: it behaves as its loop
entered with the value of `t` after the tokens of `t`. -/
def TermL (ρ : String → Int) (D : List String) (t : Tree) : Prop :=
  ∀ s s', Feeds s t.toks s' → CurOk s → Agree s ρ D →
    ∀ R : Res Int, R ≠ .outOfFuel → (∃ n, termLoop n (t.eval ρ) s' = R) →
      ∃ n, parseTerm n s = R

/-- Correctness of `parseExp` on the tokens of `t`, when they are not
followed by `*`. -/
def ExpL (ρ : String → Int) (D : List String) (t : Tree) : Prop :=
  ∀ s s', Feeds s t.toks s' → CurOk s → Agree s ρ D → ¬ s'.current.isStar →
    ∀ R : Res Int, R ≠ .outOfFuel → (∃ n, expLoop n (t.eval ρ) s' = R) →
      ∃ n, parseExp n s = R

/-- The state `s` with the two maps replaced. -/
def withStore (s : Interpreter) (v : List (String × Int)) (i : List (String × Bool)) :
    Interpreter :=
  { s with vars := v, initialized := i }

/-- The names a statement list assigns, latest first, in front of `D`. -/
def assigned : List String → List Stmt → List String
  | D, [] => D
  | D, st :: rest => assigned (st.name :: D) rest

/-- The environment in which nothing is assigned yet; unassigned names are
never read by a well-scoped program. -/
def emptyEnv : String → Int := fun _ => 0

/-- A two-statement sample program, as text. -/
def sampleText : List Char := "x = 2 + 3 * 4; y = -(x - 20) * 2;".data

/-- The parse of `sampleText`. -/
def sampleProg : List Stmt :=
  [⟨"x", .add (.num "2") (.mul (.num "3") (.num "4"))⟩,
   ⟨"y", .mul (.neg (.paren (.sub (.var "x") (.num "20")))) (.num "2")⟩]

/-- The characters that continue an identifier. -/
def isIdChar (c : Char) : Bool := isalnum c || c = '_'

/-- `nextToken` as a function of the text not yet read: the token or the
exception, and the text left after it. -/
def lexList (cs : List Char) : Except Exn Token × List Char :=
  match cs.dropWhile isspace with
  | [] => (.ok ⟨.END, ""⟩, [])
  | ch :: rest =>
    if isalpha ch || ch = '_' then
      (.ok ⟨.ID, ⟨(ch :: rest).takeWhile isIdChar⟩⟩, (ch :: rest).dropWhile isIdChar)
    else if isdigit ch then
      if ch = '0' && isdigit (rest.headD (Char.ofNat 0)) then (.error .SyntaxError, ch :: rest)
      else if ch = '0' then (.ok ⟨.NUM, "0"⟩, rest)
      else (.ok ⟨.NUM, ⟨(ch :: rest).takeWhile isdigit⟩⟩, (ch :: rest).dropWhile isdigit)
    else if ch = '+' || ch = '-' || ch = '*' then (.ok ⟨.OP, String.singleton ch⟩, rest)
    else if ch = '=' then (.ok ⟨.ASSIGN, "="⟩, rest)
    else if ch = ';' then (.ok ⟨.SEMICOLON, ";"⟩, rest)
    else if ch = '(' then (.ok ⟨.LPAREN, "("⟩, rest)
    else if ch = ')' then (.ok ⟨.RPAREN, ")"⟩, rest)
    else (.error .SyntaxError, ch :: rest)

/-- The two maps after the statements of `prog` have been executed from the
maps `m`, values computed by the reference evaluator. -/
def storeAfter : List Stmt → (String → Int) → List (String × Int) × List (String × Bool) →
    List (String × Int) × List (String × Bool)
  | [], _, m => m
  | st :: rest, ρ, m =>
    storeAfter rest (Function.update ρ st.name (st.rhs.eval ρ))
      (assign m.1 st.name (st.rhs.eval ρ), assign m.2 st.name true)

/-- Successive tokens of the unread text `cs` are exactly `ts`; the result is
the text left. -/
def lexesList : List Char → List Token → Option (List Char)
  | cs, [] => some cs
  | cs, t :: ts =>
    match lexList cs with
    | (.ok t', rest) => if t' = t then lexesList rest ts else none
    | (.error _, _) => none

/-- A number literal written without leading zeros. -/
def IsLiteral (v : String) : Prop :=
  IsNumeral v ∧ (v.data.head? = some '0' → v.data = ['0'])

instance (v : String) : Decidable (IsNumeral v) :=
  inferInstanceAs (Decidable (v.data ≠ [] ∧ ∀ c ∈ v.data, isdigit c = true))

instance (v : String) : Decidable (IsLiteral v) :=
  inferInstanceAs (Decidable (IsNumeral v ∧ (v.data.head? = some '0' → v.data = ['0'])))

/-- The text of the program `x = a + b * c;`. -/
def sumProductText (a b c : String) : List Char :=
  "x = ".data ++ a.data ++ " + ".data ++ b.data ++ " * ".data ++ c.data ++ ";".data

/-- The parse of `x = a + b * c;`. -/
def sumProductStmt (a b c : String) : Stmt :=
  ⟨"x", .add (.num a) (.mul (.num b) (.num c))⟩

/-- The state a result carries (a fresh interpreter when there is none). -/
def Res.state {α : Type} : Res α → Interpreter
  | .ok _ s => s
  | .throw _ s => s
  | .outOfFuel => Interpreter.new []

/-- The interpreter at the start of the factor `-(3 - 5)` of `x = -(3 - 5);`. -/
def signState : Interpreter :=
  { (Interpreter.new "-(3 - 5);".data) with
    lexer := ⟨"-(3 - 5);".data, 1⟩, current := ⟨.OP, "-"⟩ }

/-- The parse of `x = -(3 - 5);`. -/
def negParenProg : List Stmt := [⟨"x", .neg (.paren (.sub (.num "3") (.num "5")))⟩]

/-- The keys of an association list, in enumeration order. -/
def keys {V : Type} (m : List (String × V)) : List String := m.map Prod.fst

/-- Invariant of the two maps: `vars` has one binding per name, and the names
whose `initialized` flag is true are exactly the names bound in `vars`. -/
def StoreInv (s : Interpreter) : Prop :=
  (keys s.vars).Nodup ∧ ∀ x, find s.initialized x = some true ↔ x ∈ keys s.vars

/-- The parse of `x = 1; x = x + 1;`. -/
def incrProg : List Stmt := [⟨"x", .num "1"⟩, ⟨"x", .add (.var "x") (.num "1")⟩]

/-- A state in which `x` holds 1, about to execute `x = x + 1;`. -/
def incrState : Interpreter :=
  { lexer := ⟨"x = x + 1;".data, 1⟩, current := ⟨.ID, "x"⟩, vars := [("x", 1)],
    initialized := [("x", true)] }

/-- What the parser has read of an expression when `parseFact` is entered at
one of its factors: the signs and opening parentheses around that factor and
the complete operands to its left, outermost first. -/
inductive Path where
  | hole
  | sign (minus : Bool) (p : Path)
  | paren (p : Path)
  | mulR (t : Tree) (p : Path)
  | addR (e : Tree) (minus : Bool) (p : Path)
  deriving DecidableEq, Repr

/-- The path starts inside a `Factor`. -/
def Path.isFactor : Path → Bool
  | .hole | .sign _ _ | .paren _ => true
  | _ => false

/-- The path starts inside a `Term`. -/
def Path.isTerm : Path → Bool
  | .mulR _ _ => true
  | p => p.isFactor

/-- Every operand and every step of the path stands where the grammar allows. -/
def Path.grammatical : Path → Bool
  | .hole => true
  | .sign _ p => p.grammatical && p.isFactor
  | .paren p => p.grammatical
  | .mulR t p => t.grammatical && t.isTerm && p.grammatical && p.isFactor
  | .addR e _ p => e.grammatical && p.grammatical && p.isTerm

/-- The sign operator token. -/
def signTok (minus : Bool) : Token := ⟨.OP, if minus then "-" else "+"⟩

/-- The tokens read before the factor is entered. -/
def Path.toks : Path → List Token
  | .hole => []
  | .sign m p => signTok m :: p.toks
  | .paren p => ⟨.LPAREN, "("⟩ :: p.toks
  | .mulR t p => t.toks ++ ⟨.OP, "*"⟩ :: p.toks
  | .addR e m p => e.toks ++ signTok m :: p.toks

/-- Every variable of the operands on the path names a member of `D`. -/
def Path.Scoped (D : List String) : Path → Prop
  | .hole => True
  | .sign _ p => p.Scoped D
  | .paren p => p.Scoped D
  | .mulR t p => t.Scoped D ∧ p.Scoped D
  | .addR e _ p => e.Scoped D ∧ p.Scoped D

/-- No operand on the path overflows. -/
def Path.NoOverflow (ρ : String → Int) : Path → Prop
  | .hole => True
  | .sign _ p => p.NoOverflow ρ
  | .paren p => p.NoOverflow ρ
  | .mulR t p => t.NoOverflow ρ ∧ p.NoOverflow ρ
  | .addR e _ p => e.NoOverflow ρ ∧ p.NoOverflow ρ

instance Path.decScoped (D : List String) : (p : Path) → Decidable (p.Scoped D)
  | .hole => isTrue trivial
  | .sign _ p => Path.decScoped D p
  | .paren p => Path.decScoped D p
  | .mulR t p => @instDecidableAnd _ _ (inferInstanceAs (Decidable (t.Scoped D))) (Path.decScoped D p)
  | .addR e _ p => @instDecidableAnd _ _ (inferInstanceAs (Decidable (e.Scoped D))) (Path.decScoped D p)

instance Path.decNoOverflow (ρ : String → Int) : (p : Path) → Decidable (p.NoOverflow ρ)
  | .hole => isTrue trivial
  | .sign _ p => Path.decNoOverflow ρ p
  | .paren p => Path.decNoOverflow ρ p
  | .mulR t p => @instDecidableAnd _ _ (Tree.decNoOverflow ρ t) (Path.decNoOverflow ρ p)
  | .addR e _ p => @instDecidableAnd _ _ (Tree.decNoOverflow ρ e) (Path.decNoOverflow ρ p)

/-- The program `a = 1; y = x;`: its valid part and the path to the failing
factor. -/
def uninitPre : List Stmt := [⟨"a", .num "1"⟩]

/-- What the program reads of the name `x`: the value `vars[x]` yields and the
flag `initialized[x]` yields, which are 0 and false for a missing name. -/
def lookup (s : Interpreter) (x : String) : Int × Bool :=
  ((index 0 s.vars x).1, (index false s.initialized x).1)

/-- Every name reads the same in `s'` as in `s`, and the value map itself is
the same when `s` satisfies the store invariant. -/
def SameStore (s' s : Interpreter) : Prop :=
  (∀ x, lookup s' x = lookup s x) ∧ (StoreInv s → s'.vars = s.vars)

/-- The state a result carries reads like `s`. -/
def Res.Keeps {α : Type} (s : Interpreter) : Res α → Prop
  | .ok _ s' => SameStore s' s
  | .throw _ s' => SameStore s' s
  | .outOfFuel => True

/-- A state whose maps hold `a = 4`, about to evaluate `a * (b + 1)`. -/
def frameState : Interpreter :=
  { lexer := ⟨"a * (b + 1);".data, 1⟩, current := ⟨.ID, "a"⟩, vars := [("a", 4)],
    initialized := [("a", true)] }

/-- The interpreter at the start of `(1 2`, a parenthesis that is not closed. -/
def openParenState : Interpreter :=
  { (Interpreter.new "(1 2".data) with lexer := ⟨"(1 2".data, 1⟩, current := ⟨.LPAREN, "("⟩ }

/-- The lexer after `k` further calls of `nextToken`. -/
def callsAfter : Nat → Lexer → Lexer
  | 0, lx => lx
  | k + 1, lx => callsAfter k lx.nextToken.2

/-- The text of the program `x = a - b - c;`. -/
def subSubText (a b c : String) : List Char :=
  "x = ".data ++ a.data ++ " - ".data ++ b.data ++ " - ".data ++ c.data ++ ";".data

/-- The parse of `x = a - b - c;`. -/
def subSubStmt (a b c : String) : Stmt :=
  ⟨"x", .sub (.sub (.num a) (.num b)) (.num c)⟩

/-- The text of the program `x = a - b + c;`. -/
def subAddText (a b c : String) : List Char :=
  "x = ".data ++ a.data ++ " - ".data ++ b.data ++ " + ".data ++ c.data ++ ";".data

/-- The parse of `x = a - b + c;`. -/
def subAddStmt (a b c : String) : Stmt :=
  ⟨"x", .add (.sub (.num a) (.num b)) (.num c)⟩

/-- Number of tokens other than `END` that successive calls of `nextToken`
return from `lx` before `END` or an exception; the first argument bounds the
number of calls. -/
def tokensFrom : Nat → Lexer → Nat
  | 0, _ => 0
  | k + 1, lx =>
    match lx.nextToken with
    | (.ok t, lx') => if t.type = .END then 0 else tokensFrom k lx' + 1
    | (.error _, _) => 0

/-- Number of tokens in a source text. -/
def tokenCount (input : List Char) : Nat := tokensFrom input.length ⟨input, 0⟩

/-- Number of tokens not yet read, plus one while the current token is not
`END`. -/
def tokensLeft (s : Interpreter) : Nat :=
  tokensFrom (s.lexer.input.length - s.lexer.pos) s.lexer +
    (if s.current.type = .END then 0 else 1)

/-- A measure that `next` never increases, decreases when the current token is
not `END`, and that does not depend on the two maps. -/
def Consumes (μ : Interpreter → Nat) : Prop :=
  (∀ s s' u, next s = .ok u s' → μ s' ≤ μ s ∧ (s.current.type ≠ .END → μ s' < μ s)) ∧
  (∀ s v i, μ { s with vars := v, initialized := i } = μ s)

/-! # Theorems -/

/-! ## Unfolding equations -/

@[simp] theorem Res.bind_ok {α β : Type} (a : α) (s : Interpreter)
    (f : α → Interpreter → Res β) : (Res.ok a s).bind f = f a s := rfl

@[simp] theorem Res.bind_throw {α β : Type} (e : Exn) (s : Interpreter)
    (f : α → Interpreter → Res β) : (Res.throw e s : Res α).bind f = .throw e s := rfl

@[simp] theorem Res.bind_outOfFuel {α β : Type}
    (f : α → Interpreter → Res β) : (Res.outOfFuel : Res α).bind f = .outOfFuel := rfl

theorem parseFact_zero (s : Interpreter) : parseFact 0 s = .outOfFuel := by
  simp only [parseFact]

theorem parseFact_succ (fuel : Nat) (s : Interpreter) :
    parseFact (fuel + 1) s =
      if s.current.type = .OP ∧ (s.current.value = "+" ∨ s.current.value = "-") then
        (next s).bind fun _ s1 =>
        (parseFact fuel s1).bind fun value s2 =>
        .ok (if s.current.value = "+" then value else wrap (-value)) s2
      else if s.current.type = .NUM then
        match stoi s.current.value with
        | .error e => .throw e s
        | .ok value => (next s).bind fun _ s1 => .ok value s1
      else if s.current.type = .ID then
        readVar s
      else if s.current.type = .LPAREN then
        (next s).bind fun _ s1 =>
        (parseExp fuel s1).bind fun value s2 =>
        (expect .RPAREN s2).bind fun _ s3 =>
        (next s3).bind fun _ s4 => .ok value s4
      else .throw .SyntaxError s := by
  simp only [parseFact]

theorem termLoop_zero (r : Int) (s : Interpreter) : termLoop 0 r s = .outOfFuel := by
  simp only [termLoop]

theorem termLoop_succ (fuel : Nat) (result : Int) (s : Interpreter) :
    termLoop (fuel + 1) result s =
      if s.current.type = .OP ∧ s.current.value = "*" then
        (next s).bind fun _ s1 =>
        (parseFact fuel s1).bind fun f s2 =>
        termLoop fuel (wrap (result * f)) s2
      else .ok result s := by
  simp only [termLoop]

theorem parseTerm_zero (s : Interpreter) : parseTerm 0 s = .outOfFuel := by
  simp only [parseTerm]

theorem parseTerm_succ (fuel : Nat) (s : Interpreter) :
    parseTerm (fuel + 1) s =
      (parseFact fuel s).bind fun result s1 => termLoop fuel result s1 := by
  simp only [parseTerm]

theorem expLoop_zero (r : Int) (s : Interpreter) : expLoop 0 r s = .outOfFuel := by
  simp only [expLoop]

theorem expLoop_succ (fuel : Nat) (result : Int) (s : Interpreter) :
    expLoop (fuel + 1) result s =
      if s.current.type = .OP ∧ (s.current.value = "+" ∨ s.current.value = "-") then
        (next s).bind fun _ s1 =>
        (parseTerm fuel s1).bind fun term s2 =>
        expLoop fuel
          (if s.current.value = "+" then wrap (result + term) else wrap (result - term)) s2
      else .ok result s := by
  simp only [expLoop]

theorem parseExp_zero (s : Interpreter) : parseExp 0 s = .outOfFuel := by
  simp only [parseExp]

theorem parseExp_succ (fuel : Nat) (s : Interpreter) :
    parseExp (fuel + 1) s =
      (parseTerm fuel s).bind fun result s1 => expLoop fuel result s1 := by
  simp only [parseExp]

theorem stmtLoop_zero (s : Interpreter) : stmtLoop 0 s = .outOfFuel := rfl

theorem stmtLoop_succ (fuel : Nat) (s : Interpreter) :
    stmtLoop (fuel + 1) s =
      if s.current.type ≠ .END then
        (parseAssignment fuel s).bind fun _ s1 => stmtLoop fuel s1
      else .ok () s := rfl

theorem parseFact_sign (fuel : Nat) (s : Interpreter) (h : s.current.isSign) :
    parseFact (fuel + 1) s =
      (next s).bind fun _ s1 =>
      (parseFact fuel s1).bind fun value s2 =>
      .ok (if s.current.value = "+" then value else wrap (-value)) s2 := by
  rw [parseFact_succ]; exact if_pos h

theorem parseFact_num (fuel : Nat) (s : Interpreter) (h : s.current.type = .NUM) :
    parseFact (fuel + 1) s =
      match stoi s.current.value with
      | .error e => .throw e s
      | .ok value => (next s).bind fun _ s1 => .ok value s1 := by
  rw [parseFact_succ, if_neg (by rw [h]; exact fun c => absurd c.1 (by decide)), if_pos h]

theorem parseFact_id (fuel : Nat) (s : Interpreter) (h : s.current.type = .ID) :
    parseFact (fuel + 1) s = readVar s := by
  rw [parseFact_succ, if_neg (by rw [h]; exact fun c => absurd c.1 (by decide)),
    if_neg (by rw [h]; decide), if_pos h]

theorem parseFact_lparen (fuel : Nat) (s : Interpreter) (h : s.current.type = .LPAREN) :
    parseFact (fuel + 1) s =
      (next s).bind fun _ s1 =>
      (parseExp fuel s1).bind fun value s2 =>
      (expect .RPAREN s2).bind fun _ s3 =>
      (next s3).bind fun _ s4 => .ok value s4 := by
  rw [parseFact_succ, if_neg (by rw [h]; exact fun c => absurd c.1 (by decide)),
    if_neg (by rw [h]; decide), if_neg (by rw [h]; decide), if_pos h]

theorem parseFact_other (fuel : Nat) (s : Interpreter) (h1 : ¬ s.current.isSign)
    (h2 : s.current.type ≠ .NUM) (h3 : s.current.type ≠ .ID)
    (h4 : s.current.type ≠ .LPAREN) :
    parseFact (fuel + 1) s = .throw .SyntaxError s := by
  rw [parseFact_succ]; rw [if_neg (show ¬ (s.current.type = .OP ∧ (s.current.value = "+" ∨ s.current.value = "-")) from h1), if_neg h2, if_neg h3, if_neg h4]

/-- The five branches of `parseFact`. -/
theorem parseFact_branches (s : Interpreter) :
    s.current.isSign ∨ s.current.type = .NUM ∨ s.current.type = .ID ∨
      s.current.type = .LPAREN ∨
      (¬ s.current.isSign ∧ s.current.type ≠ .NUM ∧ s.current.type ≠ .ID ∧
        s.current.type ≠ .LPAREN) := by
  by_cases h1 : s.current.isSign
  · exact Or.inl h1
  by_cases h2 : s.current.type = .NUM
  · exact Or.inr (Or.inl h2)
  by_cases h3 : s.current.type = .ID
  · exact Or.inr (Or.inr (Or.inl h3))
  by_cases h4 : s.current.type = .LPAREN
  · exact Or.inr (Or.inr (Or.inr (Or.inl h4)))
  exact Or.inr (Or.inr (Or.inr (Or.inr ⟨h1, h2, h3, h4⟩)))

theorem termLoop_star (fuel : Nat) (result : Int) (s : Interpreter)
    (h : s.current.type = .OP ∧ s.current.value = "*") :
    termLoop (fuel + 1) result s =
      (next s).bind fun _ s1 =>
      (parseFact fuel s1).bind fun f s2 =>
      termLoop fuel (wrap (result * f)) s2 := by
  rw [termLoop_succ, if_pos h]

theorem termLoop_exit (fuel : Nat) (result : Int) (s : Interpreter)
    (h : ¬ (s.current.type = .OP ∧ s.current.value = "*")) :
    termLoop (fuel + 1) result s = .ok result s := by
  rw [termLoop_succ, if_neg h]

theorem expLoop_sign (fuel : Nat) (result : Int) (s : Interpreter) (h : s.current.isSign) :
    expLoop (fuel + 1) result s =
      (next s).bind fun _ s1 =>
      (parseTerm fuel s1).bind fun term s2 =>
      expLoop fuel
        (if s.current.value = "+" then wrap (result + term) else wrap (result - term)) s2 := by
  rw [expLoop_succ]; exact if_pos h

theorem expLoop_exit (fuel : Nat) (result : Int) (s : Interpreter) (h : ¬ s.current.isSign) :
    expLoop (fuel + 1) result s = .ok result s := by
  rw [expLoop_succ]; exact if_neg h

/-! ## The recursion budget is monotone -/

theorem Res.Le.refl {α : Type} (r : Res α) : Res.Le r r := fun _ => rfl

theorem Res.Le.bind {α β : Type} {A A' : Res α} {f f' : α → Interpreter → Res β}
    (hA : Res.Le A A') (hf : ∀ a s, Res.Le (f a s) (f' a s)) :
    Res.Le (A.bind f) (A'.bind f') := by
  intro h
  cases A with
  | ok a s => rw [hA (by simp)]; exact hf a s h
  | throw e s => rw [hA (by simp)]; rfl
  | outOfFuel => exact absurd rfl h

theorem fuel_step (n : Nat) :
    (∀ s, Res.Le (parseFact n s) (parseFact (n + 1) s)) ∧
    (∀ r s, Res.Le (termLoop n r s) (termLoop (n + 1) r s)) ∧
    (∀ s, Res.Le (parseTerm n s) (parseTerm (n + 1) s)) ∧
    (∀ r s, Res.Le (expLoop n r s) (expLoop (n + 1) r s)) ∧
    (∀ s, Res.Le (parseExp n s) (parseExp (n + 1) s)) := by
  induction n with
  | zero =>
    refine ⟨?_, ?_, ?_, ?_, ?_⟩ <;> intros <;> intro h
    · exact absurd (parseFact_zero _) h
    · exact absurd (termLoop_zero _ _) h
    · exact absurd (parseTerm_zero _) h
    · exact absurd (expLoop_zero _ _) h
    · exact absurd (parseExp_zero _) h
  | succ n ih =>
    obtain ⟨hF, hTL, hT, hEL, hE⟩ := ih
    refine ⟨?_, ?_, ?_, ?_, ?_⟩
    · intro s
      rw [parseFact_succ (n + 1) s, parseFact_succ n s]
      split_ifs
      all_goals first
        | exact Res.Le.refl _
        | exact Res.Le.bind (Res.Le.refl _) fun _ s1 =>
            Res.Le.bind (hF s1) fun _ _ => Res.Le.refl _
        | exact Res.Le.bind (Res.Le.refl _) fun _ s1 =>
            Res.Le.bind (hE s1) fun _ _ => Res.Le.refl _
    · intro r s
      rw [termLoop_succ (n + 1) r s, termLoop_succ n r s]
      split_ifs
      · exact Res.Le.bind (Res.Le.refl _) fun _ s1 =>
          Res.Le.bind (hF s1) fun _ s2 => hTL _ s2
      · exact Res.Le.refl _
    · intro s
      rw [parseTerm_succ (n + 1) s, parseTerm_succ n s]
      exact Res.Le.bind (hF s) fun _ s1 => hTL _ s1
    · intro r s
      rw [expLoop_succ (n + 1) r s, expLoop_succ n r s]
      split_ifs
      all_goals first
        | exact Res.Le.refl _
        | exact Res.Le.bind (Res.Le.refl _) fun _ s1 =>
            Res.Le.bind (hT s1) fun _ s2 => hEL _ s2
    · intro s
      rw [parseExp_succ (n + 1) s, parseExp_succ n s]
      exact Res.Le.bind (hT s) fun _ s1 => hEL _ s1

theorem Res.Le.trans {α : Type} {a b c : Res α} (h1 : Res.Le a b) (h2 : Res.Le b c) :
    Res.Le a c := by
  intro h
  have hb := h1 h
  rw [h2 (by rw [hb]; exact h), hb]

theorem le_of_step {α : Type} (f : Nat → Res α) (h : ∀ n, Res.Le (f n) (f (n + 1)))
    {n m : Nat} (hnm : n ≤ m) : Res.Le (f n) (f m) := by
  induction hnm with
  | refl => exact Res.Le.refl _
  | step _ ih => exact Res.Le.trans ih (h _)

theorem parseFact_mono {n m : Nat} (h : n ≤ m) (s : Interpreter) :
    Res.Le (parseFact n s) (parseFact m s) :=
  le_of_step (fun k => parseFact k s) (fun k => (fuel_step k).1 s) h

theorem termLoop_mono {n m : Nat} (h : n ≤ m) (r : Int) (s : Interpreter) :
    Res.Le (termLoop n r s) (termLoop m r s) :=
  le_of_step (fun k => termLoop k r s) (fun k => (fuel_step k).2.1 r s) h

theorem parseTerm_mono {n m : Nat} (h : n ≤ m) (s : Interpreter) :
    Res.Le (parseTerm n s) (parseTerm m s) :=
  le_of_step (fun k => parseTerm k s) (fun k => (fuel_step k).2.2.1 s) h

theorem expLoop_mono {n m : Nat} (h : n ≤ m) (r : Int) (s : Interpreter) :
    Res.Le (expLoop n r s) (expLoop m r s) :=
  le_of_step (fun k => expLoop k r s) (fun k => (fuel_step k).2.2.2.1 r s) h

theorem parseExp_mono {n m : Nat} (h : n ≤ m) (s : Interpreter) :
    Res.Le (parseExp n s) (parseExp m s) :=
  le_of_step (fun k => parseExp k s) (fun k => (fuel_step k).2.2.2.2 s) h

theorem parseAssignment_mono {n m : Nat} (h : n ≤ m) (s : Interpreter) :
    Res.Le (parseAssignment n s) (parseAssignment m s) := by
  unfold parseAssignment
  exact Res.Le.bind (Res.Le.refl _) fun _ _ => Res.Le.bind (Res.Le.refl _) fun _ _ =>
    Res.Le.bind (Res.Le.refl _) fun _ _ => Res.Le.bind (Res.Le.refl _) fun _ s4 =>
    Res.Le.bind (parseExp_mono h s4) fun _ _ => Res.Le.refl _

theorem stmtLoop_step (n : Nat) : ∀ s, Res.Le (stmtLoop n s) (stmtLoop (n + 1) s) := by
  induction n with
  | zero => intro s h; exact absurd (stmtLoop_zero s) h
  | succ n ih =>
    intro s
    rw [stmtLoop_succ (n + 1) s, stmtLoop_succ n s]
    split_ifs
    · exact Res.Le.bind (parseAssignment_mono (Nat.le_succ n) s) fun _ s1 => ih s1
    · exact Res.Le.refl _

theorem stmtLoop_mono {n m : Nat} (h : n ≤ m) (s : Interpreter) :
    Res.Le (stmtLoop n s) (stmtLoop m s) :=
  le_of_step (fun k => stmtLoop k s) (fun k => stmtLoop_step k s) h

theorem run_mono {n m : Nat} (h : n ≤ m) (s : Interpreter) :
    Res.Le (run n s) (run m s) := by
  unfold run
  exact Res.Le.bind (Res.Le.refl _) fun _ s1 => stmtLoop_mono h s1

/-! ## The lexer advances -/

theorem skipWhile_ge (p : Char → Bool) (input : List Char) (fuel pos : Nat) :
    pos ≤ skipWhile p input fuel pos := by
  induction fuel generalizing pos with
  | zero => simp [skipWhile]
  | succ n ih =>
    simp only [skipWhile]
    split_ifs
    · exact Nat.le_trans (Nat.le_succ pos) (ih (pos + 1))
    · exact Nat.le_refl pos

theorem scanWhile_ge (p : Char → Bool) (input : List Char) (fuel : Nat) (acc : String)
    (pos : Nat) : pos ≤ (scanWhile p input fuel acc pos).2 := by
  induction fuel generalizing pos acc with
  | zero => simp [scanWhile]
  | succ n ih =>
    simp only [scanWhile]
    split_ifs
    · exact Nat.le_trans (Nat.le_succ pos) (ih _ (pos + 1))
    · exact Nat.le_refl pos

theorem scanWhile_gt (p : Char → Bool) (input : List Char) (fuel : Nat) (acc : String)
    (pos : Nat) (hf : 0 < fuel) (hlt : pos < input.length) (hp : p (charAt input pos) = true) :
    pos < (scanWhile p input fuel acc pos).2 := by
  cases fuel with
  | zero => exact absurd hf (Nat.lt_irrefl 0)
  | succ n =>
    simp only [scanWhile, hlt, hp, decide_True, Bool.and_self, if_true]
    exact scanWhile_ge p input n _ (pos + 1)

theorem nextToken_input (lx : Lexer) : lx.nextToken.2.input = lx.input := by
  unfold Lexer.nextToken
  simp only []
  split_ifs <;> rfl

theorem nextToken_pos_ge (lx : Lexer) : lx.pos ≤ lx.nextToken.2.pos := by
  have h0 := skipWhile_ge isspace lx.input (lx.input.length - lx.pos) lx.pos
  unfold Lexer.nextToken
  simp only []
  split_ifs
  all_goals first
    | exact h0
    | exact Nat.le_trans h0 (Nat.le_succ _)
    | exact Nat.le_trans h0 (scanWhile_ge _ _ _ _ _)

/-- A token other than `END` is made of at least one character, and there was
a character left to read. -/
theorem nextToken_progress (lx : Lexer) (t : Token) (h : lx.nextToken.1 = .ok t)
    (hne : t.type ≠ .END) :
    lx.pos < lx.nextToken.2.pos ∧ lx.pos < lx.input.length := by
  have h0 := skipWhile_ge isspace lx.input (lx.input.length - lx.pos) lx.pos
  revert h
  unfold Lexer.nextToken
  simp only []
  split_ifs with h1
  all_goals intro h
  all_goals simp only [Except.ok.injEq, reduceCtorEq] at h
  all_goals first
    | (subst h; exact absurd rfl hne)
    | (have hlt := Nat.lt_of_not_le h1
       first
        | exact ⟨Nat.lt_of_le_of_lt h0 (Nat.lt_succ_self _), Nat.lt_of_le_of_lt h0 hlt⟩
        | exact ⟨Nat.lt_of_le_of_lt h0 (scanWhile_gt _ _ _ _ _ (Nat.sub_pos_of_lt hlt) hlt
            (by simp_all [isalnum] <;> tauto)), Nat.lt_of_le_of_lt h0 hlt⟩)

/-! ## The parser consumes tokens -/

theorem Res.bind_eq_ok {α β : Type} {A : Res α} {f : α → Interpreter → Res β} {b : β}
    {s' : Interpreter} (h : A.bind f = .ok b s') :
    ∃ a s1, A = .ok a s1 ∧ f a s1 = .ok b s' := by
  cases A with
  | ok a s => exact ⟨a, s, rfl, h⟩
  | throw e s => simp at h
  | outOfFuel => simp at h

theorem next_eq_ok {s s' : Interpreter} {u : Unit} (h : next s = .ok u s') :
    ∃ t, s.lexer.nextToken.1 = .ok t ∧
      s' = { s with lexer := s.lexer.nextToken.2, current := t } := by
  unfold next at h
  split at h
  · rename_i t lx heq
    simp only [Res.ok.injEq, true_and] at h
    refine ⟨t, by rw [heq], ?_⟩
    rw [← h, heq]
  · simp at h

theorem next_remaining_le {s s' : Interpreter} {u : Unit} (h : next s = .ok u s') :
    remaining s' ≤ remaining s ∧ (s.current.type ≠ .END → remaining s' < remaining s) := by
  obtain ⟨t, ht, rfl⟩ := next_eq_ok h
  have hin := nextToken_input s.lexer
  have hge := nextToken_pos_ge s.lexer
  have hpr := nextToken_progress s.lexer t ht
  unfold remaining
  simp only [hin]
  by_cases hte : t.type = .END
  · simp only [hte, if_true]
    constructor
    · split_ifs <;> omega
    · intro hc; simp only [hc, if_false]; omega
  · have := hpr hte
    simp only [hte, if_false]
    constructor
    · split_ifs <;> omega
    · intro hc; simp only [hc, if_false]; omega

theorem expect_eq_ok {ty : TokenType} {s s' : Interpreter} {u : Unit}
    (h : expect ty s = .ok u s') : s' = s ∧ s.current.type = ty := by
  unfold expect at h
  split_ifs at h with hc
  · simp only [Res.ok.injEq, true_and] at h
    exact ⟨h.symm, not_not.mp hc⟩

theorem readVar_remaining {s s' : Interpreter} {v : Int} (h : readVar s = .ok v s')
    (hne : s.current.type ≠ .END) : remaining s' < remaining s := by
  unfold readVar at h
  simp only [] at h
  split_ifs at h
  obtain ⟨_, s1, h1, h2⟩ := Res.bind_eq_ok h
  simp only [Res.ok.injEq] at h2
  rw [← h2.2]
  exact (next_remaining_le h1).2 hne

theorem progress (n : Nat) :
    (∀ s v s', parseFact n s = .ok v s' → remaining s' < remaining s) ∧
    (∀ r s v s', termLoop n r s = .ok v s' → remaining s' ≤ remaining s) ∧
    (∀ s v s', parseTerm n s = .ok v s' → remaining s' < remaining s) ∧
    (∀ r s v s', expLoop n r s = .ok v s' → remaining s' ≤ remaining s) ∧
    (∀ s v s', parseExp n s = .ok v s' → remaining s' < remaining s) := by
  induction n with
  | zero =>
    refine ⟨?_, ?_, ?_, ?_, ?_⟩ <;> intros
    · simp_all [parseFact_zero]
    · simp_all [termLoop_zero]
    · simp_all [parseTerm_zero]
    · simp_all [expLoop_zero]
    · simp_all [parseExp_zero]
  | succ n ih =>
    obtain ⟨hF, hTL, hT, hEL, hE⟩ := ih
    refine ⟨?_, ?_, ?_, ?_, ?_⟩
    · intro s v s' h
      rcases parseFact_branches s with c | c | c | c | ⟨c1, c2, c3, c4⟩
      · rw [parseFact_sign n s c] at h
        obtain ⟨_, s1, h1, h2⟩ := Res.bind_eq_ok h
        obtain ⟨_, s2, h3, h4⟩ := Res.bind_eq_ok h2
        simp only [Res.ok.injEq] at h4
        have := (next_remaining_le h1).1
        have := hF _ _ _ h3
        rw [← h4.2]; omega
      · rw [parseFact_num n s c] at h
        split at h
        · simp at h
        · obtain ⟨_, s1, h1, h2⟩ := Res.bind_eq_ok h
          simp only [Res.ok.injEq] at h2
          rw [← h2.2]
          exact (next_remaining_le h1).2 (by rw [c]; decide)
      · rw [parseFact_id n s c] at h
        exact readVar_remaining h (by rw [c]; decide)
      · rw [parseFact_lparen n s c] at h
        obtain ⟨_, s1, h1, h2⟩ := Res.bind_eq_ok h
        obtain ⟨_, s2, h3, h4⟩ := Res.bind_eq_ok h2
        obtain ⟨_, s3, h5, h6⟩ := Res.bind_eq_ok h4
        obtain ⟨_, s4, h7, h8⟩ := Res.bind_eq_ok h6
        simp only [Res.ok.injEq] at h8
        have := (next_remaining_le h1).1
        have := hE _ _ _ h3
        have h9 := (expect_eq_ok h5).1
        have := (next_remaining_le h7).1
        rw [h9] at this
        rw [← h8.2]; omega
      · rw [parseFact_other n s c1 c2 c3 c4] at h
        simp at h
    · intro r s v s' h
      by_cases c : s.current.type = .OP ∧ s.current.value = "*"
      · rw [termLoop_star n r s c] at h
        obtain ⟨_, s1, h1, h2⟩ := Res.bind_eq_ok h
        obtain ⟨_, s2, h3, h4⟩ := Res.bind_eq_ok h2
        have := (next_remaining_le h1).1
        have := hF _ _ _ h3
        have := hTL _ _ _ _ h4
        omega
      · rw [termLoop_exit n r s c] at h
        simp only [Res.ok.injEq] at h
        rw [← h.2]
    · intro s v s' h
      rw [parseTerm_succ] at h
      obtain ⟨_, s1, h1, h2⟩ := Res.bind_eq_ok h
      have := hF _ _ _ h1
      have := hTL _ _ _ _ h2
      omega
    · intro r s v s' h
      by_cases c : s.current.isSign
      · rw [expLoop_sign n r s c] at h
        obtain ⟨_, s1, h1, h2⟩ := Res.bind_eq_ok h
        obtain ⟨_, s2, h3, h4⟩ := Res.bind_eq_ok h2
        have := (next_remaining_le h1).1
        have := hT _ _ _ h3
        have := hEL _ _ _ _ h4
        omega
      · rw [expLoop_exit n r s c] at h
        simp only [Res.ok.injEq] at h
        rw [← h.2]
    · intro s v s' h
      rw [parseExp_succ] at h
      obtain ⟨_, s1, h1, h2⟩ := Res.bind_eq_ok h
      have := hT _ _ _ h1
      have := hEL _ _ _ _ h2
      omega

/-! ## The recursion budget of `execute` is sufficient -/

theorem Res.bind_ne_outOfFuel {α β : Type} {A : Res α} {f : α → Interpreter → Res β}
    (hA : A ≠ .outOfFuel) (hf : ∀ a s1, A = .ok a s1 → f a s1 ≠ .outOfFuel) :
    A.bind f ≠ .outOfFuel := by
  cases A with
  | ok a s => exact hf a s rfl
  | throw e s => simp
  | outOfFuel => exact absurd rfl hA

theorem next_ne_outOfFuel (s : Interpreter) : next s ≠ .outOfFuel := by
  unfold next
  split <;> simp

theorem expect_ne_outOfFuel (ty : TokenType) (s : Interpreter) :
    expect ty s ≠ .outOfFuel := by
  unfold expect
  split_ifs <;> simp

theorem readVar_ne_outOfFuel (s : Interpreter) : readVar s ≠ .outOfFuel := by
  unfold readVar
  simp only []
  split_ifs
  · simp
  · exact Res.bind_ne_outOfFuel (next_ne_outOfFuel _) (fun _ _ _ => by simp)

theorem remaining_pos {s : Interpreter} (h : s.current.type ≠ .END) : 0 < remaining s := by
  unfold remaining
  rw [if_neg h]
  omega

theorem enough (n : Nat) :
    (∀ s, 3 * remaining s + 1 ≤ n → parseFact n s ≠ .outOfFuel) ∧
    (∀ r s, 3 * remaining s + 1 ≤ n → termLoop n r s ≠ .outOfFuel) ∧
    (∀ s, 3 * remaining s + 2 ≤ n → parseTerm n s ≠ .outOfFuel) ∧
    (∀ r s, 3 * remaining s + 1 ≤ n → expLoop n r s ≠ .outOfFuel) ∧
    (∀ s, 3 * remaining s + 3 ≤ n → parseExp n s ≠ .outOfFuel) := by
  induction n with
  | zero => refine ⟨?_, ?_, ?_, ?_, ?_⟩ <;> intros <;> omega
  | succ n ih =>
    obtain ⟨hF, hTL, hT, hEL, hE⟩ := ih
    refine ⟨?_, ?_, ?_, ?_, ?_⟩
    · intro s hn
      rcases parseFact_branches s with c | c | c | c | ⟨c1, c2, c3, c4⟩
      · rw [parseFact_sign n s c]
        have hpos : s.current.type ≠ .END := by rw [c.1]; decide
        refine Res.bind_ne_outOfFuel (next_ne_outOfFuel _) (fun _ s1 h1 => ?_)
        have := (next_remaining_le h1).2 hpos
        exact Res.bind_ne_outOfFuel (hF s1 (by omega)) (fun _ _ _ => by simp)
      · rw [parseFact_num n s c]
        split
        · simp
        · exact Res.bind_ne_outOfFuel (next_ne_outOfFuel _) (fun _ _ _ => by simp)
      · rw [parseFact_id n s c]
        exact readVar_ne_outOfFuel s
      · rw [parseFact_lparen n s c]
        have hpos : s.current.type ≠ .END := by rw [c]; decide
        refine Res.bind_ne_outOfFuel (next_ne_outOfFuel _) (fun _ s1 h1 => ?_)
        have := (next_remaining_le h1).2 hpos
        refine Res.bind_ne_outOfFuel (hE s1 (by omega)) (fun _ s2 _ => ?_)
        refine Res.bind_ne_outOfFuel (expect_ne_outOfFuel _ _) (fun _ s3 _ => ?_)
        exact Res.bind_ne_outOfFuel (next_ne_outOfFuel _) (fun _ _ _ => by simp)
      · rw [parseFact_other n s c1 c2 c3 c4]
        simp
    · intro r s hn
      by_cases c : s.current.type = .OP ∧ s.current.value = "*"
      · rw [termLoop_star n r s c]
        have hpos : s.current.type ≠ .END := by rw [c.1]; decide
        refine Res.bind_ne_outOfFuel (next_ne_outOfFuel _) (fun _ s1 h1 => ?_)
        have := (next_remaining_le h1).2 hpos
        refine Res.bind_ne_outOfFuel (hF s1 (by omega)) (fun _ s2 h2 => ?_)
        have := (progress n).1 _ _ _ h2
        exact hTL _ s2 (by omega)
      · rw [termLoop_exit n r s c]
        simp
    · intro s hn
      rw [parseTerm_succ]
      refine Res.bind_ne_outOfFuel (hF s (by omega)) (fun _ s1 h1 => ?_)
      have := (progress n).1 _ _ _ h1
      exact hTL _ s1 (by omega)
    · intro r s hn
      by_cases c : s.current.isSign
      · rw [expLoop_sign n r s c]
        have hpos : s.current.type ≠ .END := by rw [c.1]; decide
        refine Res.bind_ne_outOfFuel (next_ne_outOfFuel _) (fun _ s1 h1 => ?_)
        have := (next_remaining_le h1).2 hpos
        refine Res.bind_ne_outOfFuel (hT s1 (by omega)) (fun _ s2 h2 => ?_)
        have := (progress n).2.2.1 _ _ _ h2
        exact hEL _ s2 (by omega)
      · rw [expLoop_exit n r s c]
        simp
    · intro s hn
      rw [parseExp_succ]
      refine Res.bind_ne_outOfFuel (hT s (by omega)) (fun _ s1 h1 => ?_)
      have := (progress n).2.2.1 _ _ _ h1
      exact hEL _ s1 (by omega)

theorem parseAssignment_ne_outOfFuel (n : Nat) (s : Interpreter)
    (hn : 3 * remaining s ≤ n + 3) : parseAssignment n s ≠ .outOfFuel := by
  unfold parseAssignment
  refine Res.bind_ne_outOfFuel (expect_ne_outOfFuel _ _) (fun _ s1 h1 => ?_)
  obtain ⟨rfl, hid⟩ := expect_eq_ok h1
  refine Res.bind_ne_outOfFuel (next_ne_outOfFuel _) (fun _ s2 h2 => ?_)
  have := (next_remaining_le h2).2 (by rw [hid]; decide)
  refine Res.bind_ne_outOfFuel (expect_ne_outOfFuel _ _) (fun _ s3 h3 => ?_)
  obtain ⟨rfl, has⟩ := expect_eq_ok h3
  refine Res.bind_ne_outOfFuel (next_ne_outOfFuel _) (fun _ s4 h4 => ?_)
  have := (next_remaining_le h4).2 (by rw [has]; decide)
  refine Res.bind_ne_outOfFuel ((enough n).2.2.2.2 s4 (by omega)) (fun _ s5 _ => ?_)
  refine Res.bind_ne_outOfFuel (expect_ne_outOfFuel _ _) (fun _ s6 _ => ?_)
  exact Res.bind_ne_outOfFuel (next_ne_outOfFuel _) (fun _ _ _ => by simp)

/-- Anatomy of a successful `parseAssignment`. -/
theorem parseAssignment_eq_ok {n : Nat} {s s' : Interpreter} {u : Unit}
    (h : parseAssignment n s = .ok u s') :
    ∃ s2 s4 v s5 s7, s.current.type = .ID ∧ next s = .ok () s2 ∧
      s2.current.type = .ASSIGN ∧ next s2 = .ok () s4 ∧ parseExp n s4 = .ok v s5 ∧
      s5.current.type = .SEMICOLON ∧ next s5 = .ok () s7 ∧
      s' = { s7 with vars := assign s7.vars s.current.value v,
                     initialized := assign s7.initialized s.current.value true } := by
  unfold parseAssignment at h
  obtain ⟨_, s1, h1, k1⟩ := Res.bind_eq_ok h
  obtain ⟨e1, hid⟩ := expect_eq_ok h1
  rw [e1] at k1
  dsimp only at k1
  obtain ⟨_, s2, h2, k2⟩ := Res.bind_eq_ok k1
  obtain ⟨_, s3, h3, k3⟩ := Res.bind_eq_ok k2
  obtain ⟨e3, has⟩ := expect_eq_ok h3
  rw [e3] at k3
  obtain ⟨_, s4, h4, k4⟩ := Res.bind_eq_ok k3
  obtain ⟨v, s5, h5, k5⟩ := Res.bind_eq_ok k4
  obtain ⟨_, s6, h6, k6⟩ := Res.bind_eq_ok k5
  obtain ⟨e6, hsc⟩ := expect_eq_ok h6
  rw [e6] at k6
  obtain ⟨_, s7, h7, k7⟩ := Res.bind_eq_ok k6
  simp only [Res.ok.injEq, true_and] at k7
  exact ⟨s2, s4, v, s5, s7, hid, h2, has, h4, h5, hsc, h7, k7.symm⟩

theorem parseAssignment_remaining {n : Nat} {s s' : Interpreter} {u : Unit}
    (h : parseAssignment n s = .ok u s') : remaining s' < remaining s := by
  obtain ⟨s2, s4, v, s5, s7, _, h2, _, h4, h5, _, h7, hs⟩ := parseAssignment_eq_ok h
  have := (next_remaining_le h2).1
  have := (next_remaining_le h4).1
  have := (progress n).2.2.2.2 _ _ _ h5
  have := (next_remaining_le h7).1
  have e : remaining s' = remaining s7 := by rw [hs]; rfl
  omega

theorem stmtLoop_ne_outOfFuel (n : Nat) :
    ∀ s, 3 * remaining s + 1 ≤ n → stmtLoop n s ≠ .outOfFuel := by
  induction n with
  | zero => intros; omega
  | succ n ih =>
    intro s hn
    rw [stmtLoop_succ]
    split_ifs with c
    · refine Res.bind_ne_outOfFuel (parseAssignment_ne_outOfFuel n s (by omega))
        (fun _ s1 h1 => ?_)
      have := parseAssignment_remaining h1
      exact ih s1 (by omega)
    · simp

/-- The budget `execute` gives to `run` is never exhausted. -/
theorem run_ne_outOfFuel (input : List Char) :
    run (fuelFor input) (Interpreter.new input) ≠ .outOfFuel := by
  unfold run
  refine Res.bind_ne_outOfFuel (next_ne_outOfFuel _) (fun _ s1 h1 => ?_)
  have h := (next_remaining_le h1).1
  have e : remaining (Interpreter.new input) = input.length := by
    simp [remaining, Interpreter.new]
  apply stmtLoop_ne_outOfFuel
  unfold fuelFor
  omega

/-- A result obtained with any budget is the result `execute` works with. -/
theorem run_eq_of_fuel {input : List Char} {k : Nat} {r : Res Unit}
    (h : run k (Interpreter.new input) = r) (hr : r ≠ .outOfFuel) :
    run (fuelFor input) (Interpreter.new input) = r := by
  rcases Nat.le_total k (fuelFor input) with hk | hk
  · rw [← h]
    exact run_mono hk _ (by rw [h]; exact hr)
  · rw [← h]
    exact (run_mono hk _ (run_ne_outOfFuel input)).symm

/-! ## Numerals -/

theorem wrap_eq {x : Int} (h : InRange x) : wrap x = x := by
  unfold InRange INT_MIN INT_MAX at h
  unfold wrap
  omega

theorem scanWhile_data (p : Char → Bool) (input : List Char) (fuel : Nat) (acc : String)
    (pos : Nat) :
    ∃ l, (scanWhile p input fuel acc pos).1.data = acc.data ++ l ∧ ∀ c ∈ l, p c = true := by
  induction fuel generalizing acc pos with
  | zero => exact ⟨[], by simp [scanWhile], by simp⟩
  | succ n ih =>
    simp only [scanWhile]
    split_ifs with h
    · obtain ⟨l, hl, hp⟩ := ih (acc.push (charAt input pos)) (pos + 1)
      refine ⟨charAt input pos :: l, ?_, ?_⟩
      · rw [hl]; simp [String.push]
      · intro c hc
        simp only [Bool.and_eq_true, decide_eq_true_eq] at h
        rcases List.mem_cons.mp hc with rfl | hc
        · exact h.2
        · exact hp c hc
    · exact ⟨[], by simp, by simp⟩

theorem scanWhile_data_ne (p : Char → Bool) (input : List Char) (fuel : Nat)
    (pos : Nat) (hf : 0 < fuel) (hlt : pos < input.length) (hp : p (charAt input pos) = true) :
    (scanWhile p input fuel "" pos).1.data ≠ [] := by
  cases fuel with
  | zero => exact absurd hf (Nat.lt_irrefl 0)
  | succ n =>
    simp only [scanWhile, hlt, hp, decide_True, Bool.and_self, if_true]
    obtain ⟨l, hl, _⟩ := scanWhile_data p input n ("".push (charAt input pos)) (pos + 1)
    rw [hl]
    simp [String.push]

/-- The text of a Number token is a numeral. -/
theorem nextToken_numeral (lx : Lexer) (t : Token) (h : lx.nextToken.1 = .ok t)
    (hty : t.type = .NUM) : IsNumeral t.value := by
  revert h
  unfold Lexer.nextToken
  simp only []
  split_ifs with h1
  all_goals intro h
  all_goals simp only [Except.ok.injEq, reduceCtorEq] at h
  all_goals subst h
  all_goals first
    | (simp only [reduceCtorEq] at hty; done)
    | exact ⟨by decide, by decide⟩
    | (have hlt := Nat.lt_of_not_le h1
       refine ⟨scanWhile_data_ne _ _ _ _ (Nat.sub_pos_of_lt hlt) hlt (by assumption), ?_⟩
       obtain ⟨l, hl, hp⟩ := scanWhile_data isdigit lx.input
         (lx.input.length - skipWhile isspace lx.input (lx.input.length - lx.pos) lx.pos) ""
         (skipWhile isspace lx.input (lx.input.length - lx.pos) lx.pos)
       intro c hc
       rw [hl] at hc
       exact hp c (by simpa using hc))

theorem stoi_numeral {v : String} (h : IsNumeral v) (hr : (decimal v.data : Int) ≤ INT_MAX) :
    stoi v = .ok (decimal v.data : Int) := by
  have e : v.data.takeWhile isdigit = v.data := by
    rw [List.takeWhile_eq_self_iff]
    exact h.2
  unfold stoi
  simp only [e]
  rw [if_neg h.1, if_neg (not_lt.mpr hr)]

/-! ## Reading a token sequence -/

theorem next_curOk {s s' : Interpreter} {u : Unit} (h : next s = .ok u s') : CurOk s' := by
  obtain ⟨t, ht, rfl⟩ := next_eq_ok h
  exact fun hty => nextToken_numeral s.lexer t ht hty

theorem next_store {s s' : Interpreter} {u : Unit} (h : next s = .ok u s') :
    s'.vars = s.vars ∧ s'.initialized = s.initialized := by
  obtain ⟨t, _, rfl⟩ := next_eq_ok h
  exact ⟨rfl, rfl⟩

theorem Feeds.store {ts : List Token} : ∀ {s s' : Interpreter}, Feeds s ts s' →
    s'.vars = s.vars ∧ s'.initialized = s.initialized := by
  induction ts with
  | nil => intro s s' h; rw [show s' = s from h]; exact ⟨rfl, rfl⟩
  | cons t ts ih =>
    intro s s' h
    obtain ⟨_, s1, h1, h2⟩ := h
    have a := next_store h1
    have b := ih h2
    exact ⟨b.1.trans a.1, b.2.trans a.2⟩

theorem Feeds.curOk {ts : List Token} : ∀ {s s' : Interpreter}, Feeds s ts s' →
    CurOk s → CurOk s' := by
  induction ts with
  | nil => intro s s' h hc; rw [show s' = s from h]; exact hc
  | cons t ts ih =>
    intro s s' h _
    obtain ⟨_, s1, h1, h2⟩ := h
    exact ih h2 (next_curOk h1)

theorem Feeds.append {ts us : List Token} : ∀ {s s' : Interpreter},
    Feeds s (ts ++ us) s' → ∃ s1, Feeds s ts s1 ∧ Feeds s1 us s' := by
  induction ts with
  | nil => intro s s' h; exact ⟨s, rfl, h⟩
  | cons t ts ih =>
    intro s s' h
    obtain ⟨hc, s1, h1, h2⟩ := h
    obtain ⟨s2, h3, h4⟩ := ih h2
    exact ⟨s2, ⟨hc, s1, h1, h3⟩, h4⟩

theorem Agree.of_store {s s' : Interpreter} {ρ : String → Int} {D : List String}
    (h : Agree s ρ D) (hv : s'.vars = s.vars) (hi : s'.initialized = s.initialized) :
    Agree s' ρ D := by
  intro x hx
  rw [hv, hi]
  exact h x hx

theorem readVar_agree {s s' : Interpreter} {ρ : String → Int} {D : List String}
    (h : Agree s ρ D) (hx : s.current.value ∈ D) (hn : next s = .ok () s') :
    readVar s = .ok (ρ s.current.value) s' := by
  obtain ⟨hi, hv⟩ := h _ hx
  unfold readVar index
  simp only [hi, hv, Bool.not_true, Bool.false_eq_true, if_false]
  rw [show ({ s with initialized := s.initialized, vars := s.vars } : Interpreter) = s from rfl,
    hn]
  rfl

/-! ## The parser computes the reference value -/

theorem Res.ok_ne_outOfFuel {α : Type} (a : α) (s : Interpreter) :
    (Res.ok a s : Res α) ≠ .outOfFuel := by simp

theorem term_of_fact {s s' : Interpreter} {v : Int} {R : Res Int}
    (hF : ∃ n, parseFact n s = .ok v s') (hR : R ≠ .outOfFuel)
    (hL : ∃ n, termLoop n v s' = R) : ∃ n, parseTerm n s = R := by
  obtain ⟨n1, h1⟩ := hF
  obtain ⟨n2, h2⟩ := hL
  refine ⟨max n1 n2 + 1, ?_⟩
  rw [parseTerm_succ,
    (parseFact_mono (Nat.le_max_left n1 n2) s (by rw [h1]; simp)).trans h1, Res.bind_ok,
    (termLoop_mono (Nat.le_max_right n1 n2) v s' (by rw [h2]; exact hR)).trans h2]

theorem exp_of_term {s s' : Interpreter} {v : Int} {R : Res Int}
    (hT : ∃ n, parseTerm n s = .ok v s') (hR : R ≠ .outOfFuel)
    (hL : ∃ n, expLoop n v s' = R) : ∃ n, parseExp n s = R := by
  obtain ⟨n1, h1⟩ := hT
  obtain ⟨n2, h2⟩ := hL
  refine ⟨max n1 n2 + 1, ?_⟩
  rw [parseExp_succ,
    (parseTerm_mono (Nat.le_max_left n1 n2) s (by rw [h1]; simp)).trans h1, Res.bind_ok,
    (expLoop_mono (Nat.le_max_right n1 n2) v s' (by rw [h2]; exact hR)).trans h2]

theorem termLoop_step {s1 s2 s' : Interpreter} {v vf : Int} {R : Res Int}
    (hc : s1.current.isStar) (hn : next s1 = .ok () s2)
    (hF : ∃ n, parseFact n s2 = .ok vf s') (hR : R ≠ .outOfFuel)
    (hL : ∃ n, termLoop n (wrap (v * vf)) s' = R) : ∃ n, termLoop n v s1 = R := by
  obtain ⟨n1, h1⟩ := hF
  obtain ⟨n2, h2⟩ := hL
  refine ⟨max n1 n2 + 1, ?_⟩
  rw [termLoop_star _ _ _ hc, hn, Res.bind_ok,
    (parseFact_mono (Nat.le_max_left n1 n2) s2 (by rw [h1]; simp)).trans h1, Res.bind_ok,
    (termLoop_mono (Nat.le_max_right n1 n2) _ s' (by rw [h2]; exact hR)).trans h2]

theorem expLoop_step {s1 s2 s' : Interpreter} {v vt : Int} {R : Res Int}
    (hc : s1.current.isSign) (hn : next s1 = .ok () s2)
    (hT : ∃ n, parseTerm n s2 = .ok vt s') (hR : R ≠ .outOfFuel)
    (hL : ∃ n, expLoop n
      (if s1.current.value = "+" then wrap (v + vt) else wrap (v - vt)) s' = R) :
    ∃ n, expLoop n v s1 = R := by
  obtain ⟨n1, h1⟩ := hT
  obtain ⟨n2, h2⟩ := hL
  refine ⟨max n1 n2 + 1, ?_⟩
  rw [expLoop_sign _ _ _ hc, hn, Res.bind_ok,
    (parseTerm_mono (Nat.le_max_left n1 n2) s2 (by rw [h1]; simp)).trans h1, Res.bind_ok,
    (expLoop_mono (Nat.le_max_right n1 n2) _ s' (by rw [h2]; exact hR)).trans h2]

theorem TermL.of_factL {ρ : String → Int} {D : List String} {t : Tree}
    (h : FactL ρ D t) : TermL ρ D t :=
  fun s s' hf hc ha _ hR hL => term_of_fact (h s s' hf hc ha) hR hL

theorem TermL.parse_term {ρ : String → Int} {D : List String} {t : Tree}
    (h : TermL ρ D t) {s s' : Interpreter} (hf : Feeds s t.toks s') (hc : CurOk s)
    (ha : Agree s ρ D) (hstar : ¬ s'.current.isStar) :
    ∃ n, parseTerm n s = .ok (t.eval ρ) s' :=
  h s s' hf hc ha _ (Res.ok_ne_outOfFuel _ _) ⟨1, termLoop_exit 0 _ _ hstar⟩

theorem ExpL.of_termL {ρ : String → Int} {D : List String} {t : Tree}
    (h : TermL ρ D t) : ExpL ρ D t :=
  fun _ _ hf hc ha hstar _ hR hL => exp_of_term (h.parse_term hf hc ha hstar) hR hL

theorem ExpL.parse_exp {ρ : String → Int} {D : List String} {t : Tree}
    (h : ExpL ρ D t) {s s' : Interpreter} (hf : Feeds s t.toks s') (hc : CurOk s)
    (ha : Agree s ρ D) (hstar : ¬ s'.current.isStar) (hsign : ¬ s'.current.isSign) :
    ∃ n, parseExp n s = .ok (t.eval ρ) s' :=
  h s s' hf hc ha hstar _ (Res.ok_ne_outOfFuel _ _) ⟨1, expLoop_exit 0 _ _ hsign⟩

theorem Tree.scoped_append {D : List String} {a b : List String}
    (h : ∀ x ∈ a ++ b, x ∈ D) : (∀ x ∈ a, x ∈ D) ∧ (∀ x ∈ b, x ∈ D) :=
  ⟨fun x hx => h x (List.mem_append_left b hx), fun x hx => h x (List.mem_append_right a hx)⟩

theorem parse_sound (ρ : String → Int) (D : List String) (t : Tree) :
    t.grammatical = true → t.Scoped D → t.NoOverflow ρ →
    (t.isFactor = true → FactL ρ D t) ∧ (t.isTerm = true → TermL ρ D t) ∧ ExpL ρ D t := by
  induction t with
  | num lit =>
    intro _ _ ho
    have hF : FactL ρ D (.num lit) := by
      intro s s' hf hc _
      obtain ⟨hcur, s1, h1, h2⟩ := hf
      have h2 : s' = s1 := h2
      subst h2
      have hty : s.current.type = .NUM := by rw [hcur]
      have hnum : IsNumeral lit := by have := hc hty; rwa [hcur] at this
      refine ⟨1, ?_⟩
      rw [parseFact_num 0 s hty, hcur]
      simp only [stoi_numeral hnum ho, h1, Res.bind_ok]
      rfl
    exact ⟨fun _ => hF, fun _ => TermL.of_factL hF, ExpL.of_termL (TermL.of_factL hF)⟩
  | var name =>
    intro _ hs _
    have hF : FactL ρ D (.var name) := by
      intro s s' hf _ ha
      obtain ⟨hcur, s1, h1, h2⟩ := hf
      have h2 : s' = s1 := h2
      subst h2
      have hty : s.current.type = .ID := by rw [hcur]
      refine ⟨1, ?_⟩
      rw [parseFact_id 0 s hty, readVar_agree ha (by rw [hcur]; exact hs name (by simp [Tree.vars])) h1,
        hcur]
      rfl
    exact ⟨fun _ => hF, fun _ => TermL.of_factL hF, ExpL.of_termL (TermL.of_factL hF)⟩
  | pos f ih =>
    intro hg hs ho
    simp only [Tree.grammatical, Bool.and_eq_true] at hg
    have hF : FactL ρ D (.pos f) := by
      intro s s' hf _ ha
      obtain ⟨hcur, s1, h1, h2⟩ := hf
      have hsign : s.current.isSign := by rw [hcur]; exact ⟨rfl, Or.inl rfl⟩
      obtain ⟨n, hn⟩ := (ih hg.1 hs ho).1 hg.2 s1 s' h2 (next_curOk h1)
        (ha.of_store (next_store h1).1 (next_store h1).2)
      refine ⟨n + 1, ?_⟩
      rw [parseFact_sign n s hsign, h1, Res.bind_ok, hn, Res.bind_ok, hcur]
      rfl
    exact ⟨fun _ => hF, fun _ => TermL.of_factL hF, ExpL.of_termL (TermL.of_factL hF)⟩
  | neg f ih =>
    intro hg hs ho
    simp only [Tree.grammatical, Bool.and_eq_true] at hg
    have hF : FactL ρ D (.neg f) := by
      intro s s' hf _ ha
      obtain ⟨hcur, s1, h1, h2⟩ := hf
      have hsign : s.current.isSign := by rw [hcur]; exact ⟨rfl, Or.inr rfl⟩
      obtain ⟨n, hn⟩ := (ih hg.1 hs ho.1).1 hg.2 s1 s' h2 (next_curOk h1)
        (ha.of_store (next_store h1).1 (next_store h1).2)
      refine ⟨n + 1, ?_⟩
      rw [parseFact_sign n s hsign, h1, Res.bind_ok, hn, Res.bind_ok, hcur]
      simp only [Tree.eval, wrap_eq ho.2]
      rfl
    exact ⟨fun _ => hF, fun _ => TermL.of_factL hF, ExpL.of_termL (TermL.of_factL hF)⟩
  | paren e ih =>
    intro hg hs ho
    have hF : FactL ρ D (.paren e) := by
      intro s s' hf _ ha
      obtain ⟨hcur, s1, h1, h2⟩ := hf
      obtain ⟨s2, h3, h4⟩ := Feeds.append h2
      obtain ⟨hcur2, s3, h5, h6⟩ := h4
      have h6 : s' = s3 := h6
      subst h6
      have hty : s.current.type = .LPAREN := by rw [hcur]
      obtain ⟨n, hn⟩ := (ih hg hs ho).2.2.parse_exp h3 (next_curOk h1)
        (ha.of_store (next_store h1).1 (next_store h1).2)
        (by rw [hcur2]; exact fun c => absurd c.1 (by decide))
        (by rw [hcur2]; exact fun c => absurd c.1 (by decide))
      refine ⟨n + 1, ?_⟩
      rw [parseFact_lparen n s hty, h1, Res.bind_ok, hn, Res.bind_ok]
      have hexp : expect .RPAREN s2 = .ok () s2 := by
        unfold expect; rw [hcur2]; rfl
      rw [hexp, Res.bind_ok, h5, Res.bind_ok]
      rfl
    exact ⟨fun _ => hF, fun _ => TermL.of_factL hF, ExpL.of_termL (TermL.of_factL hF)⟩
  | mul t f iht ihf =>
    intro hg hs ho
    simp only [Tree.grammatical, Bool.and_eq_true] at hg
    obtain ⟨hst, hsf⟩ := Tree.scoped_append hs
    have hT : TermL ρ D (.mul t f) := by
      intro s s' hf hc ha R hR hL
      obtain ⟨s1, h1, h2⟩ := Feeds.append hf
      obtain ⟨hcur, s2, h3, h4⟩ := h2
      have ha1 : Agree s1 ρ D := ha.of_store h1.store.1 h1.store.2
      refine (iht hg.1.1.1 hst ho.1).2.1 hg.1.1.2 s s1 h1 hc ha R hR ?_
      refine termLoop_step (by rw [hcur]; exact ⟨rfl, rfl⟩) h3
        ((ihf hg.1.2 hsf ho.2.1).1 hg.2 s2 s' h4 (next_curOk h3)
          (ha1.of_store (next_store h3).1 (next_store h3).2)) hR ?_
      rw [wrap_eq ho.2.2]
      exact hL
    exact ⟨fun h => absurd h (by simp [Tree.isFactor]), fun _ => hT, ExpL.of_termL hT⟩
  | add e t ihe iht =>
    intro hg hs ho
    simp only [Tree.grammatical, Bool.and_eq_true] at hg
    obtain ⟨hse, hst⟩ := Tree.scoped_append hs
    have hE : ExpL ρ D (.add e t) := by
      intro s s' hf hc ha hstar R hR hL
      obtain ⟨s1, h1, h2⟩ := Feeds.append hf
      obtain ⟨hcur, s2, h3, h4⟩ := h2
      have ha1 : Agree s1 ρ D := ha.of_store h1.store.1 h1.store.2
      refine (ihe hg.1.1 hse ho.1).2.2 s s1 h1 hc ha
        (by rw [hcur]; exact fun c => absurd c.2 (by decide)) R hR ?_
      refine expLoop_step (by rw [hcur]; exact ⟨rfl, Or.inl rfl⟩) h3
        (((iht hg.1.2 hst ho.2.1).2.1 hg.2).parse_term h4 (next_curOk h3)
          (ha1.of_store (next_store h3).1 (next_store h3).2) hstar) hR ?_
      rw [hcur, if_pos rfl, wrap_eq ho.2.2]
      exact hL
    exact ⟨fun h => absurd h (by simp [Tree.isFactor]),
      fun h => absurd h (by simp [Tree.isTerm, Tree.isFactor]), hE⟩
  | sub e t ihe iht =>
    intro hg hs ho
    simp only [Tree.grammatical, Bool.and_eq_true] at hg
    obtain ⟨hse, hst⟩ := Tree.scoped_append hs
    have hE : ExpL ρ D (.sub e t) := by
      intro s s' hf hc ha hstar R hR hL
      obtain ⟨s1, h1, h2⟩ := Feeds.append hf
      obtain ⟨hcur, s2, h3, h4⟩ := h2
      have ha1 : Agree s1 ρ D := ha.of_store h1.store.1 h1.store.2
      refine (ihe hg.1.1 hse ho.1).2.2 s s1 h1 hc ha
        (by rw [hcur]; exact fun c => absurd c.2 (by decide)) R hR ?_
      refine expLoop_step (by rw [hcur]; exact ⟨rfl, Or.inr rfl⟩) h3
        (((iht hg.1.2 hst ho.2.1).2.1 hg.2).parse_term h4 (next_curOk h3)
          (ha1.of_store (next_store h3).1 (next_store h3).2) hstar) hR ?_
      rw [hcur, if_neg (by decide), wrap_eq ho.2.2]
      exact hL
    exact ⟨fun h => absurd h (by simp [Tree.isFactor]),
      fun h => absurd h (by simp [Tree.isTerm, Tree.isFactor]), hE⟩

/-! ## Statements and programs -/

theorem find_assign {V : Type} (m : List (String × V)) (k : String) (v : V) (x : String) :
    find (assign m k v) x = if k = x then some v else find m x := by
  induction m with
  | nil => simp [assign, find]
  | cons p m ih =>
    obtain ⟨k', v'⟩ := p
    simp only [assign]
    by_cases h : k' = k
    · subst h
      simp only [if_true, find]
      split_ifs <;> rfl
    · simp only [if_neg h, find, ih]
      by_cases hx : k' = x
      · subst hx
        simp only [if_true]
        rw [if_neg (fun c => h c.symm)]
      · simp only [if_neg hx]

theorem next_withStore {s s1 : Interpreter} {u : Unit} (h : next s = .ok u s1)
    (v : List (String × Int)) (i : List (String × Bool)) :
    next (withStore s v i) = .ok () (withStore s1 v i) := by
  obtain ⟨t, ht, rfl⟩ := next_eq_ok h
  unfold next withStore
  simp only []
  generalize hr : s.lexer.nextToken = r at ht
  obtain ⟨r1, r2⟩ := r
  simp only at ht
  subst ht
  rfl

theorem Feeds.with_store {ts : List Token} (v : List (String × Int))
    (i : List (String × Bool)) : ∀ {s s' : Interpreter}, Feeds s ts s' →
    Feeds (withStore s v i) ts (withStore s' v i) := by
  induction ts with
  | nil => intro s s' h; rw [show s' = s from h]; rfl
  | cons t ts ih =>
    intro s s' h
    obtain ⟨hc, s1, h1, h2⟩ := h
    exact ⟨hc, withStore s1 v i, next_withStore h1 v i, ih h2⟩

theorem expect_ok {ty : TokenType} {s : Interpreter} (h : s.current.type = ty) :
    expect ty s = .ok () s := by
  unfold expect
  rw [if_neg (not_not.mpr h)]

/-- One grammatical, well-scoped, overflow-free assignment statement is
executed as the reference semantics says. -/
theorem stmt_sound {ρ : String → Int} {D : List String} {st : Stmt} {s s' : Interpreter}
    (hf : Feeds s st.toks s') (ha : Agree s ρ D)
    (hg : st.rhs.grammatical = true) (hs : st.rhs.Scoped D) (ho : st.rhs.NoOverflow ρ) :
    ∃ n, parseAssignment n s = .ok ()
      (withStore s' (assign s'.vars st.name (st.rhs.eval ρ))
        (assign s'.initialized st.name true)) := by
  obtain ⟨hcur, sa, h1, h2⟩ := hf
  obtain ⟨hcura, sb, h3, h4⟩ := h2
  obtain ⟨sc, h5, h6⟩ := Feeds.append h4
  obtain ⟨hcurc, sd, h7, h8⟩ := h6
  have h8 : s' = sd := h8
  subst h8
  have hab : Agree sb ρ D :=
    (ha.of_store (next_store h1).1 (next_store h1).2).of_store (next_store h3).1
      (next_store h3).2
  obtain ⟨n, hn⟩ := (parse_sound ρ D st.rhs hg hs ho).2.2.parse_exp h5 (next_curOk h3) hab
    (by rw [hcurc]; exact fun c => absurd c.1 (by decide))
    (by rw [hcurc]; exact fun c => absurd c.1 (by decide))
  refine ⟨n, ?_⟩
  unfold parseAssignment
  rw [expect_ok (by rw [hcur]), Res.bind_ok]
  simp only [h1, Res.bind_ok]
  rw [expect_ok (by rw [hcura]), Res.bind_ok, h3, Res.bind_ok, hn, Res.bind_ok,
    expect_ok (by rw [hcurc]), Res.bind_ok, h7, Res.bind_ok, hcur]
  rfl

theorem Agree.after_assign {s : Interpreter} {ρ : String → Int} {D : List String}
    (h : Agree s ρ D) (x : String) (v : Int) :
    Agree (withStore s (assign s.vars x v) (assign s.initialized x true))
      (Function.update ρ x v) (x :: D) := by
  intro y hy
  simp only [withStore, find_assign]
  by_cases hxy : x = y
  · subst hxy
    simp
  · have hyD : y ∈ D := by
      rcases List.mem_cons.mp hy with e | e
      · exact absurd e.symm hxy
      · exact e
    rw [if_neg hxy, if_neg hxy, Function.update_noteq (fun c => hxy c.symm)]
    exact h y hyD

/-- A grammatical, well-scoped, overflow-free statement list is executed by
the statement loop as the reference semantics says. -/
theorem stmts_sound : ∀ (prog : List Stmt) (ρ : String → Int) (D : List String)
    (s s' : Interpreter), Feeds s (progToks prog) s' → s'.current.type = .END →
    Agree s ρ D → Grammatical prog → WellScoped D prog → NoOverflow ρ prog →
    ∃ n sF, stmtLoop n s = .ok () sF ∧
      sF = withStore s' (storeAfter prog ρ (s.vars, s.initialized)).1
        (storeAfter prog ρ (s.vars, s.initialized)).2 ∧
      Agree sF (refRun prog ρ) (assigned D prog) := by
  intro prog
  induction prog with
  | nil =>
    intro ρ D s s' hf hend ha _ _ _
    have hf : s' = s := hf
    subst hf
    refine ⟨1, s', ?_, rfl, ha⟩
    rw [stmtLoop_succ, if_neg (not_not.mpr hend)]
  | cons st rest ih =>
    intro ρ D s s' hf hend ha hg hs ho
    obtain ⟨s1, h1, h2⟩ := Feeds.append hf
    obtain ⟨n1, hn1⟩ := stmt_sound h1 ha (hg st (List.mem_cons_self _ _)) hs.1 ho.1
    have hst := h1.store
    have ha1 := (ha.of_store hst.1 hst.2).after_assign st.name (st.rhs.eval ρ)
    obtain ⟨n2, sF, hn2, hsF, haF⟩ := ih _ _ _ _
      (h2.with_store (assign s1.vars st.name (st.rhs.eval ρ))
        (assign s1.initialized st.name true)) hend ha1
      (fun x hx => hg x (List.mem_cons_of_mem _ hx)) hs.2 ho.2
    refine ⟨max n1 n2 + 1, sF, ?_, ?_, haF⟩
    · have hne : s.current.type ≠ .END := by rw [h1.1]; simp
      rw [stmtLoop_succ, if_pos hne,
        (parseAssignment_mono (Nat.le_max_left n1 n2) s (by rw [hn1]; simp)).trans hn1,
        Res.bind_ok,
        (stmtLoop_mono (Nat.le_max_right n1 n2) _ (by rw [hn2]; simp)).trans hn2]
    · rw [hsF, storeAfter, ← hst.1, ← hst.2]
      rfl

theorem lexes_feeds : ∀ (ts : List Token) (t' : Token) (s : Interpreter) (lx' : Lexer),
    lexes s.lexer (ts ++ [t']) = some lx' →
    ∃ s1 s', next s = .ok () s1 ∧ Feeds s1 ts s' ∧ s'.current = t' := by
  intro ts
  induction ts with
  | nil =>
    intro t' s lx' h
    simp only [List.nil_append, lexes] at h
    split at h
    · rename_i t lx1 heq
      split_ifs at h with ht
      have hn : next s = .ok () { s with lexer := lx1, current := t } := by
        unfold next; rw [heq]
      exact ⟨_, _, hn, rfl, ht⟩
    · simp at h
  | cons t ts ih =>
    intro t' s lx' h
    simp only [List.cons_append, lexes] at h
    split at h
    · rename_i t1 lx1 heq
      split_ifs at h with ht
      obtain ⟨s2, s', h2, h3, h4⟩ := ih t' { s with lexer := lx1, current := t1 } lx' h
      have hn : next s = .ok () { s with lexer := lx1, current := t1 } := by
        unfold next; rw [heq]
      exact ⟨{ s with lexer := lx1, current := t1 }, s', hn, ⟨ht, s2, h2, h3⟩, h4⟩
    · simp at h

theorem refRun_append (a b : List Stmt) (ρ : String → Int) :
    refRun (a ++ b) ρ = refRun b (refRun a ρ) := by
  induction a generalizing ρ with
  | nil => rfl
  | cons st a ih => exact ih _

theorem refRun_not_assigned (post : List Stmt) (ρ : String → Int) (x : String)
    (h : ∀ st ∈ post, st.name ≠ x) : refRun post ρ x = ρ x := by
  induction post generalizing ρ with
  | nil => rfl
  | cons st post ih =>
    simp only [refRun]
    rw [ih _ (fun st' hst' => h st' (List.mem_cons_of_mem _ hst')),
      Function.update_noteq (fun c => h st (List.mem_cons_self _ _) c.symm)]

theorem mem_assigned_of_mem (prog : List Stmt) (D : List String) (x : String) (h : x ∈ D) :
    x ∈ assigned D prog := by
  induction prog generalizing D with
  | nil => exact h
  | cons st rest ih => exact ih _ (List.mem_cons_of_mem _ h)

theorem mem_assigned (prog : List Stmt) (D : List String) (st : Stmt) (h : st ∈ prog) :
    st.name ∈ assigned D prog := by
  induction prog generalizing D with
  | nil => simp at h
  | cons st' rest ih =>
    rcases List.mem_cons.mp h with e | e
    · subst e
      exact mem_assigned_of_mem rest _ _ (List.mem_cons_self _ _)
    · exact ih _ e

theorem execute_of_run_ok {input : List Char} {k : Nat} {u : Unit} {s : Interpreter}
    (h : run k (Interpreter.new input) = .ok u s) :
    execute input = .returned (s.vars.map reportLine) := by
  unfold execute
  rw [run_eq_of_fuel h (by simp)]

theorem execute_of_run_throw {input : List Char} {k : Nat} {e : Exn} {s : Interpreter}
    (h : run k (Interpreter.new input) = .throw e s) :
    execute input = if e.isRuntimeError then .returned [e.what] else .escaped e := by
  unfold execute
  rw [run_eq_of_fuel h (by simp)]

/-! ## The lexer as a function of the unread text -/

theorem charAt_append (pre suf : List Char) :
    charAt (pre ++ suf) pre.length = suf.headD (Char.ofNat 0) := by
  unfold charAt
  rw [List.getD_eq_getElem?_getD, List.getElem?_append_right (Nat.le_refl _)]
  cases suf <;> simp

theorem charAt_append_succ (pre : List Char) (c : Char) (cs : List Char) :
    charAt (pre ++ c :: cs) (pre.length + 1) = cs.headD (Char.ofNat 0) := by
  have := charAt_append (pre ++ [c]) cs
  simpa using this

theorem skipWhile_append (p : Char → Bool) : ∀ (fuel : Nat) (pre suf : List Char),
    suf.length ≤ fuel →
    skipWhile p (pre ++ suf) fuel pre.length = pre.length + (suf.takeWhile p).length := by
  intro fuel
  induction fuel with
  | zero =>
    intro pre suf h
    have : suf = [] := List.length_eq_zero.mp (Nat.le_zero.mp h)
    subst this
    simp [skipWhile]
  | succ n ih =>
    intro pre suf h
    cases suf with
    | nil => simp [skipWhile]
    | cons c cs =>
      simp only [skipWhile, charAt_append, List.headD_cons, List.length_append,
        List.length_cons, List.takeWhile_cons]
      by_cases hp : p c = true
      · have := ih (pre ++ [c]) cs (by simpa using h)
        simp only [List.append_assoc, List.singleton_append, List.length_append,
          List.length_singleton] at this
        simp only [hp, Bool.and_true, if_true, List.length_cons]
        rw [if_pos (by simp), this]
        omega
      · simp [hp]

theorem scanWhile_append (p : Char → Bool) : ∀ (fuel : Nat) (pre suf : List Char)
    (acc : String), suf.length ≤ fuel →
    scanWhile p (pre ++ suf) fuel acc pre.length =
      (⟨acc.data ++ suf.takeWhile p⟩, pre.length + (suf.takeWhile p).length) := by
  intro fuel
  induction fuel with
  | zero =>
    intro pre suf acc h
    have : suf = [] := List.length_eq_zero.mp (Nat.le_zero.mp h)
    subst this
    simp [scanWhile]
  | succ n ih =>
    intro pre suf acc h
    cases suf with
    | nil => simp [scanWhile]
    | cons c cs =>
      simp only [scanWhile, charAt_append, List.headD_cons, List.length_append,
        List.length_cons, List.takeWhile_cons]
      by_cases hp : p c = true
      · have := ih (pre ++ [c]) cs (acc.push c) (by simpa using h)
        simp only [List.append_assoc, List.singleton_append, List.length_append,
          List.length_singleton] at this
        simp only [hp, Bool.and_true, if_true, List.length_cons]
        rw [if_pos (by simp), this]
        simp [String.push]
        omega
      · simp [hp]



theorem takeWhile_length_add (p : Char → Bool) (l : List Char) :
    (l.takeWhile p).length + (l.dropWhile p).length = l.length := by
  rw [← List.length_append, List.takeWhile_append_dropWhile]

theorem lexList_dropWhile (cs : List Char) : lexList (cs.dropWhile isspace) = lexList cs := by
  unfold lexList
  rw [List.dropWhile_idempotent]

theorem nextToken_core (P rest : List Char) (pos0 : Nat)
    (hskip : skipWhile isspace (P ++ rest) ((P ++ rest).length - pos0) pos0 = P.length)
    (hrest : rest.dropWhile isspace = rest) :
    Lexer.nextToken ⟨P ++ rest, pos0⟩ =
      ((lexList rest).1, ⟨P ++ rest, (P ++ rest).length - (lexList rest).2.length⟩) := by
  unfold Lexer.nextToken
  simp only [hskip]
  cases rest with
  | nil => simp [lexList]
  | cons ch r =>
    have hfuel : (ch :: r).length ≤ (P ++ ch :: r).length - P.length := by simp
    have hlt : ¬ (P.length ≥ (P ++ ch :: r).length) := by simp
    have e1 : (P ++ ch :: r).length - r.length = P.length + 1 := by simp; omega
    have e2 : ∀ p : Char → Bool, P.length + ((ch :: r).takeWhile p).length =
        (P ++ ch :: r).length - ((ch :: r).dropWhile p).length := by
      intro p
      have := takeWhile_length_add p (ch :: r)
      simp only [List.length_append]
      omega
    have e3 : (P ++ ch :: r).length - (ch :: r).length = P.length := by simp
    unfold lexList
    rw [hrest]
    simp only [if_neg hlt, charAt_append, charAt_append_succ, List.headD_cons,
      scanWhile_append _ _ P (ch :: r) "" hfuel]
    split_ifs <;> simp only [e1, e2, e3, isIdChar] <;> rfl

theorem nextToken_append (pre suf : List Char) :
    Lexer.nextToken ⟨pre ++ suf, pre.length⟩ =
      ((lexList suf).1, ⟨pre ++ suf, (pre ++ suf).length - (lexList suf).2.length⟩) := by
  have hsplit := List.takeWhile_append_dropWhile isspace suf
  have hskip : skipWhile isspace (pre ++ suf) ((pre ++ suf).length - pre.length) pre.length
      = (pre ++ suf.takeWhile isspace).length := by
    rw [skipWhile_append isspace _ pre suf (by simp), List.length_append]
  have := nextToken_core (pre ++ suf.takeWhile isspace) (suf.dropWhile isspace) pre.length
    (by rw [List.append_assoc, hsplit]; exact hskip) (List.dropWhile_idempotent _ _)
  rw [List.append_assoc, hsplit, lexList_dropWhile] at this
  exact this

theorem lexList_suffix (cs : List Char) : ∃ mid, cs = mid ++ (lexList cs).2 := by
  have hsplit := List.takeWhile_append_dropWhile isspace cs
  unfold lexList
  cases h : cs.dropWhile isspace with
  | nil => exact ⟨cs, by simp⟩
  | cons ch r =>
    rw [h] at hsplit
    simp only []
    split_ifs
    all_goals first
      | exact ⟨cs.takeWhile isspace, hsplit.symm⟩
      | (refine ⟨cs.takeWhile isspace ++ (ch :: r).takeWhile isIdChar, ?_⟩
         rw [List.append_assoc, List.takeWhile_append_dropWhile, hsplit])
      | (refine ⟨cs.takeWhile isspace ++ (ch :: r).takeWhile isdigit, ?_⟩
         rw [List.append_assoc, List.takeWhile_append_dropWhile, hsplit])
      | (refine ⟨cs.takeWhile isspace ++ [ch], ?_⟩
         rw [List.append_assoc]
         exact hsplit.symm)

theorem lexes_of_lexesList : ∀ (ts : List Token) (pre suf rest : List Char),
    lexesList suf ts = some rest →
    (lexes ⟨pre ++ suf, pre.length⟩ ts).isSome = true := by
  intro ts
  induction ts with
  | nil => intro pre suf rest _; rfl
  | cons t ts ih =>
    intro pre suf rest h
    obtain ⟨mid, hmid⟩ := lexList_suffix suf
    have hlen := congrArg List.length hmid
    simp only [List.length_append] at hlen
    have hpos : (pre ++ suf).length - (lexList suf).2.length = (pre ++ mid).length := by
      simp only [List.length_append]
      omega
    have hin : pre ++ suf = (pre ++ mid) ++ (lexList suf).2 := by
      rw [List.append_assoc, ← hmid]
    simp only [lexesList] at h
    simp only [lexes, nextToken_append, hpos]
    generalize hr : lexList suf = r at h hin
    obtain ⟨r1, r2⟩ := r
    cases r1 with
    | error e => simp at h
    | ok t' =>
      simp only at h hin ⊢
      split_ifs at h with ht
      rw [if_pos ht, hin]
      exact ih _ _ _ h

theorem lexList_space (c : Char) (cs : List Char) (h : isspace c = true) :
    lexList (c :: cs) = lexList cs := by
  unfold lexList
  rw [List.dropWhile_cons, if_pos h]

theorem isdigit_not_isspace {c : Char} (h : isdigit c = true) : isspace c = false := by
  unfold isdigit at h
  unfold isspace
  simp only [Bool.and_eq_true, decide_eq_true_eq] at h
  simp only [Bool.or_eq_false_iff, decide_eq_false_iff_not, Bool.and_eq_false_iff]
  omega

theorem isdigit_not_isalpha {c : Char} (h : isdigit c = true) :
    (isalpha c || decide (c = '_')) = false := by
  have hu : c = '_' → c.toNat = 95 := fun e => by rw [e]; rfl
  unfold isdigit at h
  unfold isalpha
  simp only [Bool.and_eq_true, decide_eq_true_eq] at h
  simp only [Bool.or_eq_false_iff, decide_eq_false_iff_not, Bool.and_eq_false_iff]
  refine ⟨⟨?_, ?_⟩, fun e => ?_⟩
  · omega
  · omega
  · have := hu e; omega

/-- A literal followed by a character that is not a digit is one Number
token. -/
theorem lexList_literal (v : String) (rest : List Char) (hv : IsLiteral v)
    (hrest : isdigit (rest.headD (Char.ofNat 0)) = false) :
    lexList (v.data ++ rest) = (.ok ⟨.NUM, v⟩, rest) := by
  obtain ⟨⟨hne, hdig⟩, hzero⟩ := hv
  obtain ⟨vd⟩ := v
  cases vd with
  | nil => exact absurd rfl hne
  | cons ch r =>
    have hch : isdigit ch = true := hdig ch (List.mem_cons_self _ _)
    have htw : (ch :: (r ++ rest)).takeWhile isdigit = ch :: r := by
      have := @List.takeWhile_append_of_pos _ isdigit (ch :: r) rest hdig
      rw [List.cons_append] at this
      rw [this]
      cases rest with
      | nil => simp
      | cons c cs =>
        simp only [List.headD_cons] at hrest
        simp [List.takeWhile_cons, hrest]
    have hdw : (ch :: (r ++ rest)).dropWhile isdigit = rest := by
      have := @List.dropWhile_append_of_pos _ isdigit (ch :: r) rest hdig
      rw [List.cons_append] at this
      rw [this]
      cases rest with
      | nil => simp
      | cons c cs =>
        simp only [List.headD_cons] at hrest
        simp [List.dropWhile_cons, hrest]
    have hsp : ({ data := ch :: r } : String).data ++ rest = ch :: (r ++ rest) := rfl
    have hds : (ch :: (r ++ rest)).dropWhile isspace = ch :: (r ++ rest) := by
      rw [List.dropWhile_cons, if_neg (by rw [isdigit_not_isspace hch]; simp)]
    unfold lexList
    rw [hsp, hds]
    simp only [isdigit_not_isalpha hch, Bool.false_eq_true, if_false, hch, if_true]
    by_cases h0 : ch = '0'
    · subst h0
      have hr : r = [] := by
        have := hzero rfl
        simpa using this
      subst hr
      simp only [decide_True, Bool.true_and, List.nil_append, hrest, Bool.false_eq_true,
        if_false, if_true]
    · simp only [h0, decide_False, Bool.false_and, Bool.false_eq_true, if_false, htw, hdw]



theorem lexList_x (rest : List Char) :
    lexList ('x' :: ' ' :: rest) = (.ok ⟨.ID, "x"⟩, ' ' :: rest) := by
  have h1 : isspace 'x' = false := by decide
  have h2 : (isalpha 'x' || decide ('x' = '_')) = true := by decide
  have h3 : isIdChar 'x' = true := by decide
  have h4 : isIdChar ' ' = false := by decide
  unfold lexList
  simp only [List.dropWhile_cons, List.takeWhile_cons, h1, h2, h3, h4, Bool.false_eq_true,
    if_false, if_true]

theorem lexList_assign (rest : List Char) :
    lexList ('=' :: rest) = (.ok ⟨.ASSIGN, "="⟩, rest) := by
  have h1 : isspace '=' = false := by decide
  have h2 : (isalpha '=' || decide ('=' = '_')) = false := by decide
  have h3 : isdigit '=' = false := by decide
  unfold lexList
  simp only [List.dropWhile_cons, h1, h2, h3, Bool.false_eq_true, if_false]
  rfl

theorem lexList_semicolon (rest : List Char) :
    lexList (';' :: rest) = (.ok ⟨.SEMICOLON, ";"⟩, rest) := by
  have h1 : isspace ';' = false := by decide
  have h2 : (isalpha ';' || decide (';' = '_')) = false := by decide
  have h3 : isdigit ';' = false := by decide
  unfold lexList
  simp only [List.dropWhile_cons, h1, h2, h3, Bool.false_eq_true, if_false]
  rfl

theorem lexList_plus (rest : List Char) :
    lexList ('+' :: rest) = (.ok ⟨.OP, "+"⟩, rest) := by
  have h1 : isspace '+' = false := by decide
  have h2 : (isalpha '+' || decide ('+' = '_')) = false := by decide
  have h3 : isdigit '+' = false := by decide
  unfold lexList
  simp only [List.dropWhile_cons, h1, h2, h3, Bool.false_eq_true, if_false]
  rfl

theorem lexList_star (rest : List Char) :
    lexList ('*' :: rest) = (.ok ⟨.OP, "*"⟩, rest) := by
  have h1 : isspace '*' = false := by decide
  have h2 : (isalpha '*' || decide ('*' = '_')) = false := by decide
  have h3 : isdigit '*' = false := by decide
  unfold lexList
  simp only [List.dropWhile_cons, h1, h2, h3, Bool.false_eq_true, if_false]
  rfl

theorem lexList_nil : lexList [] = (.ok ⟨.END, ""⟩, []) := rfl

theorem sumProductText_eq (a b c : String) :
    sumProductText a b c = 'x' :: ' ' :: '=' :: ' ' :: (a.data ++ ' ' :: '+' :: ' ' ::
      (b.data ++ ' ' :: '*' :: ' ' :: (c.data ++ [';']))) := by
  simp [sumProductText]

theorem lexesList_sumProduct (a b c : String) (ha : IsLiteral a) (hb : IsLiteral b)
    (hc : IsLiteral c) :
    lexesList (sumProductText a b c) (progToks [sumProductStmt a b c] ++ [⟨.END, ""⟩])
      = some [] := by
  have hsp : isspace ' ' = true := by decide
  have la := lexList_literal a (' ' :: '+' :: ' ' ::
    (b.data ++ ' ' :: '*' :: ' ' :: (c.data ++ [';']))) ha
    (by simp only [List.headD_cons]; decide)
  have lb := lexList_literal b (' ' :: '*' :: ' ' :: (c.data ++ [';'])) hb
    (by simp only [List.headD_cons]; decide)
  have lc := lexList_literal c [';'] hc (by decide)
  rw [sumProductText_eq]
  simp only [progToks, Stmt.toks, sumProductStmt, Tree.toks, List.cons_append, List.nil_append,
    List.append_nil, lexesList, lexList_x, lexList_space _ _ hsp, lexList_assign,
    la, lexList_plus, lb, lexList_star, lc, lexList_semicolon, lexList_nil, if_true]



theorem single_stmt_output (input : List Char) (st : Stmt)
    (hlex : (lexes ⟨input, 0⟩ (progToks [st] ++ [⟨.END, ""⟩])).isSome = true)
    (hg : st.rhs.grammatical = true) (hs : st.rhs.Scoped [])
    (ho : st.rhs.NoOverflow emptyEnv) :
    execute input = .returned [reportLine (st.name, st.rhs.eval emptyEnv)] := by
  obtain ⟨lx', hlx⟩ := Option.isSome_iff_exists.mp hlex
  obtain ⟨s1, s', h1, h2, h3⟩ := lexes_feeds (progToks [st]) ⟨.END, ""⟩
    (Interpreter.new input) lx' hlx
  have ha : Agree s1 emptyEnv [] := fun x hx => absurd hx (List.not_mem_nil x)
  obtain ⟨n, sF, hn, hsF, _⟩ := stmts_sound [st] emptyEnv [] s1 s' h2 (by rw [h3]) ha
    (fun x hx => by rw [List.mem_singleton.mp hx]; exact hg) ⟨hs, trivial⟩ ⟨ho, trivial⟩
  have hrun : run n (Interpreter.new input) = .ok () sF := by
    unfold run
    rw [h1, Res.bind_ok, hn]
  rw [execute_of_run_ok hrun, hsF, (next_store h1).1, (next_store h1).2]
  rfl

/-- The output of `execute` on a valid program is the report of the store the
reference semantics computes. -/
theorem execute_valid (input : List Char) (prog : List Stmt)
    (hlex : (lexes ⟨input, 0⟩ (progToks prog ++ [⟨.END, ""⟩])).isSome = true)
    (hg : Grammatical prog) (hs : WellScoped [] prog) (ho : NoOverflow emptyEnv prog) :
    execute input = .returned ((storeAfter prog emptyEnv ([], [])).1.map reportLine) := by
  obtain ⟨lx', hlx⟩ := Option.isSome_iff_exists.mp hlex
  obtain ⟨s1, s', h1, h2, h3⟩ := lexes_feeds (progToks prog) ⟨.END, ""⟩
    (Interpreter.new input) lx' hlx
  have ha : Agree s1 emptyEnv [] := fun x hx => absurd hx (List.not_mem_nil x)
  obtain ⟨n, sF, hn, hsF, _⟩ := stmts_sound prog emptyEnv [] s1 s' h2 (by rw [h3]) ha hg hs ho
  have hrun : run n (Interpreter.new input) = .ok () sF := by
    unfold run
    rw [h1, Res.bind_ok, hn]
  rw [execute_of_run_ok hrun, hsF, (next_store h1).1, (next_store h1).2]
  rfl

/-! ## The store invariant -/

theorem find_eq_none_iff {V : Type} (m : List (String × V)) (x : String) :
    find m x = none ↔ x ∉ keys m := by
  induction m with
  | nil => simp [find, keys]
  | cons p m ih =>
    obtain ⟨k, v⟩ := p
    simp only [find, keys, List.map_cons, List.mem_cons, not_or]
    by_cases h : k = x
    · simp [h]
    · simp only [if_neg h]
      rw [ih]
      exact ⟨fun hm => ⟨fun c => h c.symm, hm⟩, fun hm => hm.2⟩

theorem find_isSome_iff {V : Type} (m : List (String × V)) (x : String) :
    (∃ v, find m x = some v) ↔ x ∈ keys m := by
  rw [← not_iff_not, ← find_eq_none_iff]
  cases find m x <;> simp

theorem StoreInv.transfer {s s' : Interpreter} (h : StoreInv s) (hv : s'.vars = s.vars)
    (hi : s'.initialized = s.initialized) : StoreInv s' := by
  unfold StoreInv
  rw [hv, hi]
  exact h

theorem readVar_eq_ok {s s' : Interpreter} {v : Int} (hinv : StoreInv s)
    (h : readVar s = .ok v s') :
    next s = .ok () s' ∧ find s.initialized s.current.value = some true ∧
      find s.vars s.current.value = some v := by
  unfold readVar index at h
  cases hi : find s.initialized s.current.value with
  | none => simp [hi] at h
  | some b =>
    cases b with
    | false => simp [hi] at h
    | true =>
      obtain ⟨w, hw⟩ := (find_isSome_iff s.vars s.current.value).mpr ((hinv.2 _).mp hi)
      simp only [hi, hw, Bool.not_true, Bool.false_eq_true, if_false] at h
      obtain ⟨_, s1, h1, h2⟩ := Res.bind_eq_ok h
      simp only [Res.ok.injEq] at h2
      rw [← h2.1, ← h2.2]
      exact ⟨h1, rfl, hw⟩

/-- A successful expression evaluation leaves both maps as they were. -/
theorem frame_ok (n : Nat) :
    (∀ s v s', StoreInv s → parseFact n s = .ok v s' →
      s'.vars = s.vars ∧ s'.initialized = s.initialized) ∧
    (∀ r s v s', StoreInv s → termLoop n r s = .ok v s' →
      s'.vars = s.vars ∧ s'.initialized = s.initialized) ∧
    (∀ s v s', StoreInv s → parseTerm n s = .ok v s' →
      s'.vars = s.vars ∧ s'.initialized = s.initialized) ∧
    (∀ r s v s', StoreInv s → expLoop n r s = .ok v s' →
      s'.vars = s.vars ∧ s'.initialized = s.initialized) ∧
    (∀ s v s', StoreInv s → parseExp n s = .ok v s' →
      s'.vars = s.vars ∧ s'.initialized = s.initialized) := by
  induction n with
  | zero =>
    refine ⟨?_, ?_, ?_, ?_, ?_⟩ <;> intros
    · simp_all [parseFact_zero]
    · simp_all [termLoop_zero]
    · simp_all [parseTerm_zero]
    · simp_all [expLoop_zero]
    · simp_all [parseExp_zero]
  | succ n ih =>
    obtain ⟨hF, hTL, hT, hEL, hE⟩ := ih
    refine ⟨?_, ?_, ?_, ?_, ?_⟩
    · intro s v s' hinv h
      rcases parseFact_branches s with c | c | c | c | ⟨c1, c2, c3, c4⟩
      · rw [parseFact_sign n s c] at h
        obtain ⟨_, s1, h1, h2⟩ := Res.bind_eq_ok h
        obtain ⟨_, s2, h3, h4⟩ := Res.bind_eq_ok h2
        simp only [Res.ok.injEq] at h4
        have a := next_store h1
        have b := hF _ _ _ (hinv.transfer a.1 a.2) h3
        rw [← h4.2]
        exact ⟨b.1.trans a.1, b.2.trans a.2⟩
      · rw [parseFact_num n s c] at h
        split at h
        · simp at h
        · obtain ⟨_, s1, h1, h2⟩ := Res.bind_eq_ok h
          simp only [Res.ok.injEq] at h2
          rw [← h2.2]
          exact next_store h1
      · rw [parseFact_id n s c] at h
        exact next_store (readVar_eq_ok hinv h).1
      · rw [parseFact_lparen n s c] at h
        obtain ⟨_, s1, h1, h2⟩ := Res.bind_eq_ok h
        obtain ⟨_, s2, h3, h4⟩ := Res.bind_eq_ok h2
        obtain ⟨_, s3, h5, h6⟩ := Res.bind_eq_ok h4
        obtain ⟨_, s4, h7, h8⟩ := Res.bind_eq_ok h6
        simp only [Res.ok.injEq] at h8
        have a := next_store h1
        have b := hE _ _ _ (hinv.transfer a.1 a.2) h3
        have c5 := (expect_eq_ok h5).1
        have d := next_store h7
        rw [c5] at d
        rw [← h8.2]
        exact ⟨d.1.trans (b.1.trans a.1), d.2.trans (b.2.trans a.2)⟩
      · rw [parseFact_other n s c1 c2 c3 c4] at h
        simp at h
    · intro r s v s' hinv h
      by_cases c : s.current.type = .OP ∧ s.current.value = "*"
      · rw [termLoop_star n r s c] at h
        obtain ⟨_, s1, h1, h2⟩ := Res.bind_eq_ok h
        obtain ⟨_, s2, h3, h4⟩ := Res.bind_eq_ok h2
        have a := next_store h1
        have b := hF _ _ _ (hinv.transfer a.1 a.2) h3
        have c6 := hTL _ _ _ _ (hinv.transfer (b.1.trans a.1) (b.2.trans a.2)) h4
        exact ⟨c6.1.trans (b.1.trans a.1), c6.2.trans (b.2.trans a.2)⟩
      · rw [termLoop_exit n r s c] at h
        simp only [Res.ok.injEq] at h
        rw [← h.2]
        exact ⟨rfl, rfl⟩
    · intro s v s' hinv h
      rw [parseTerm_succ] at h
      obtain ⟨_, s1, h1, h2⟩ := Res.bind_eq_ok h
      have a := hF _ _ _ hinv h1
      have b := hTL _ _ _ _ (hinv.transfer a.1 a.2) h2
      exact ⟨b.1.trans a.1, b.2.trans a.2⟩
    · intro r s v s' hinv h
      by_cases c : s.current.isSign
      · rw [expLoop_sign n r s c] at h
        obtain ⟨_, s1, h1, h2⟩ := Res.bind_eq_ok h
        obtain ⟨_, s2, h3, h4⟩ := Res.bind_eq_ok h2
        have a := next_store h1
        have b := hT _ _ _ (hinv.transfer a.1 a.2) h3
        have c6 := hEL _ _ _ _ (hinv.transfer (b.1.trans a.1) (b.2.trans a.2)) h4
        exact ⟨c6.1.trans (b.1.trans a.1), c6.2.trans (b.2.trans a.2)⟩
      · rw [expLoop_exit n r s c] at h
        simp only [Res.ok.injEq] at h
        rw [← h.2]
        exact ⟨rfl, rfl⟩
    · intro s v s' hinv h
      rw [parseExp_succ] at h
      obtain ⟨_, s1, h1, h2⟩ := Res.bind_eq_ok h
      have a := hT _ _ _ hinv h1
      have b := hEL _ _ _ _ (hinv.transfer a.1 a.2) h2
      exact ⟨b.1.trans a.1, b.2.trans a.2⟩

theorem keys_assign {V : Type} (m : List (String × V)) (k : String) (v : V) :
    keys (assign m k v) = if k ∈ keys m then keys m else keys m ++ [k] := by
  induction m with
  | nil => simp [assign, keys]
  | cons p m ih =>
    obtain ⟨k', v'⟩ := p
    simp only [assign]
    by_cases h : k' = k
    · subst h
      simp [keys]
    · simp only [if_neg h]
      have ih' : List.map Prod.fst (assign m k v) =
          if k ∈ List.map Prod.fst m then List.map Prod.fst m
          else List.map Prod.fst m ++ [k] := ih
      simp only [keys, List.map_cons, List.mem_cons, ih']
      have hk : ¬ k = k' := fun c => h c.symm
      simp only [hk, false_or]
      split_ifs <;> simp

theorem keys_assign_nodup {V : Type} (m : List (String × V)) (k : String) (v : V)
    (h : (keys m).Nodup) : (keys (assign m k v)).Nodup := by
  rw [keys_assign]
  split_ifs with hk
  · exact h
  · rw [List.nodup_append]
    refine ⟨h, List.nodup_singleton k, ?_⟩
    intro a ha hb
    rw [List.mem_singleton] at hb
    exact hk (hb ▸ ha)

theorem mem_keys_assign {V : Type} (m : List (String × V)) (k : String) (v : V) (x : String) :
    x ∈ keys (assign m k v) ↔ x = k ∨ x ∈ keys m := by
  rw [keys_assign]
  split_ifs with hk
  · exact ⟨Or.inr, fun h => h.elim (fun e => e ▸ hk) id⟩
  · simp only [List.mem_append, List.mem_singleton]
    exact or_comm

theorem StoreInv.assign_preserves {s : Interpreter} (h : StoreInv s) (x : String) (v : Int) :
    StoreInv (withStore s (assign s.vars x v) (assign s.initialized x true)) := by
  refine ⟨keys_assign_nodup _ _ _ h.1, fun y => ?_⟩
  simp only [withStore, find_assign, mem_keys_assign]
  by_cases hxy : x = y
  · simp [hxy]
  · rw [if_neg hxy, h.2 y]
    exact ⟨Or.inr, fun c => c.elim (fun e => absurd e.symm hxy) id⟩

/-- A successful assignment statement preserves the invariant of the store. -/
theorem parseAssignment_inv {n : Nat} {s s' : Interpreter} {u : Unit} (hinv : StoreInv s)
    (h : parseAssignment n s = .ok u s') : StoreInv s' := by
  obtain ⟨s2, s4, v, s5, s7, _, h2, _, h4, h5, _, h7, hs⟩ := parseAssignment_eq_ok h
  have a := next_store h2
  have b := next_store h4
  have i4 : StoreInv s4 := (hinv.transfer a.1 a.2).transfer b.1 b.2
  have c := (frame_ok n).2.2.2.2 _ _ _ i4 h5
  have d := next_store h7
  have i7 : StoreInv s7 := (i4.transfer c.1 c.2).transfer d.1 d.2
  rw [hs]
  exact i7.assign_preserves _ _

theorem stmtLoop_inv (n : Nat) : ∀ {s s' : Interpreter} {u : Unit}, StoreInv s →
    stmtLoop n s = .ok u s' → StoreInv s' := by
  induction n with
  | zero => intro s s' u _ h; simp [stmtLoop_zero] at h
  | succ n ih =>
    intro s s' u hinv h
    rw [stmtLoop_succ] at h
    split_ifs at h with c
    · obtain ⟨_, s1, h1, h2⟩ := Res.bind_eq_ok h
      exact ih (parseAssignment_inv hinv h1) h2
    · simp only [Res.ok.injEq] at h
      rw [← h.2]
      exact hinv

theorem StoreInv.initial (input : List Char) : StoreInv (Interpreter.new input) :=
  ⟨List.nodup_nil, fun x => by simp [Interpreter.new, find, keys]⟩

/-- Every run that ends without error ends in a store with the invariant. -/
theorem run_inv {input : List Char} {k : Nat} {u : Unit} {sF : Interpreter}
    (h : run k (Interpreter.new input) = .ok u sF) : StoreInv sF := by
  unfold run at h
  obtain ⟨_, s1, h1, h2⟩ := Res.bind_eq_ok h
  have a := next_store h1
  exact stmtLoop_inv k ((StoreInv.initial input).transfer a.1 a.2) h2

theorem find_of_mem {V : Type} (m : List (String × V)) (h : (keys m).Nodup) (x : String)
    (v : V) (hm : (x, v) ∈ m) : find m x = some v := by
  induction m with
  | nil => simp at hm
  | cons p m ih =>
    obtain ⟨k, w⟩ := p
    simp only [keys, List.map_cons, List.nodup_cons] at h
    rcases List.mem_cons.mp hm with e | e
    · simp only [Prod.mk.injEq] at e
      simp [find, e.1, e.2]
    · have hk : k ≠ x := by
        intro c
        apply h.1
        rw [c]
        exact List.mem_map_of_mem Prod.fst e
      simp only [find, if_neg hk]
      exact ih h.2 e

theorem filter_key_eq (m : List (String × Int)) (h : (keys m).Nodup) (x : String) (v : Int)
    (hf : find m x = some v) : m.filter (fun p => p.1 = x) = [(x, v)] := by
  induction m with
  | nil => simp [find] at hf
  | cons p m ih =>
    obtain ⟨k, w⟩ := p
    simp only [keys, List.map_cons, List.nodup_cons] at h
    by_cases hk : k = x
    · subst hk
      simp only [find, if_true, Option.some.injEq] at hf
      subst hf
      have : m.filter (fun p => decide (p.1 = k)) = [] := by
        rw [List.filter_eq_nil_iff]
        intro p hp
        simp only [decide_eq_true_eq]
        intro c
        exact h.1 (c ▸ List.mem_map_of_mem Prod.fst hp)
      simp [List.filter_cons, this]
    · simp only [find, if_neg hk] at hf
      simp only [List.filter_cons, hk, decide_False, Bool.false_eq_true, if_false]
      exact ih h.2 hf

theorem lexList_spaces (ws : List Char) (h : ∀ c ∈ ws, isspace c = true) :
    lexList ws = (.ok ⟨.END, ""⟩, []) := by
  have : ws.dropWhile isspace = [] := by
    rw [List.dropWhile_eq_nil_iff]
    exact h
  unfold lexList
  rw [this]

theorem execute_spaces (ws : List Char) (h : ∀ c ∈ ws, isspace c = true) :
    execute ws = .returned [] := by
  have hn : next (Interpreter.new ws) =
      .ok () { Interpreter.new ws with lexer := ⟨ws, ws.length⟩, current := ⟨.END, ""⟩ } := by
    have := nextToken_append [] ws
    simp only [List.nil_append, List.length_nil, lexList_spaces ws h, Nat.sub_zero] at this
    unfold next
    simp only [Interpreter.new]
    rw [this]
  have hr : run 1 (Interpreter.new ws) =
      .ok () { Interpreter.new ws with lexer := ⟨ws, ws.length⟩, current := ⟨.END, ""⟩ } := by
    unfold run
    rw [hn, Res.bind_ok, stmtLoop_succ, if_neg (by simp)]
  rw [execute_of_run_ok hr]
  rfl

theorem map_keys_find (m : List (String × Int)) (h : (keys m).Nodup) :
    m.map reportLine = (keys m).map fun x => reportLine (x, (find m x).getD 0) := by
  unfold keys
  rw [List.map_map]
  apply List.map_congr_left
  intro p hp
  obtain ⟨x, v⟩ := p
  simp only [Function.comp, find_of_mem m h x v hp, Option.getD_some]

/-! ## Exceptions raised inside an expression -/

theorem signTok_isSign (m : Bool) : (signTok m).isSign := by
  cases m
  · exact ⟨rfl, Or.inl rfl⟩
  · exact ⟨rfl, Or.inr rfl⟩

theorem signTok_not_isStar (m : Bool) : ¬ (signTok m).isStar := by
  cases m <;> exact fun c => absurd c.2 (by decide)

theorem term_of_fact_throw {s st : Interpreter} {e : Exn}
    (h : ∃ n, parseFact n s = .throw e st) : ∃ n, parseTerm n s = .throw e st := by
  obtain ⟨n, hn⟩ := h
  exact ⟨n + 1, by rw [parseTerm_succ, hn, Res.bind_throw]⟩

theorem exp_of_term_throw {s st : Interpreter} {e : Exn}
    (h : ∃ n, parseTerm n s = .throw e st) : ∃ n, parseExp n s = .throw e st := by
  obtain ⟨n, hn⟩ := h
  exact ⟨n + 1, by rw [parseExp_succ, hn, Res.bind_throw]⟩

theorem Res.throw_ne_outOfFuel {α : Type} (e : Exn) (s : Interpreter) :
    (Res.throw e s : Res α) ≠ .outOfFuel := by simp

/-- An exception raised by `parseFact` at the end of a path is the result of
the parse function entered at its start. -/
theorem path_throw (ρ : String → Int) (D : List String) (e : Exn) (sh st : Interpreter)
    (hthrow : ∃ k, parseFact k sh = .throw e st) (p : Path) :
    p.grammatical = true → p.Scoped D → p.NoOverflow ρ →
    ∀ s, Feeds s p.toks sh → CurOk s → Agree s ρ D →
      (p.isFactor = true → ∃ n, parseFact n s = .throw e st) ∧
      (p.isTerm = true → ∃ n, parseTerm n s = .throw e st) ∧
      (∃ n, parseExp n s = .throw e st) := by
  induction p with
  | hole =>
    intro _ _ _ s hf _ _
    have hf : sh = s := hf
    subst hf
    exact ⟨fun _ => hthrow, fun _ => term_of_fact_throw hthrow,
      exp_of_term_throw (term_of_fact_throw hthrow)⟩
  | sign m p ih =>
    intro hg hs ho s hf _ ha
    simp only [Path.grammatical, Bool.and_eq_true] at hg
    obtain ⟨hcur, s1, h1, h2⟩ := hf
    obtain ⟨n, hn⟩ := (ih hg.1 hs ho s1 h2 (next_curOk h1)
      (ha.of_store (next_store h1).1 (next_store h1).2)).1 hg.2
    have hF : ∃ n, parseFact n s = .throw e st :=
      ⟨n + 1, by rw [parseFact_sign n s (by rw [hcur]; exact signTok_isSign m), h1,
        Res.bind_ok, hn, Res.bind_throw]⟩
    exact ⟨fun _ => hF, fun _ => term_of_fact_throw hF,
      exp_of_term_throw (term_of_fact_throw hF)⟩
  | paren p ih =>
    intro hg hs ho s hf _ ha
    obtain ⟨hcur, s1, h1, h2⟩ := hf
    obtain ⟨n, hn⟩ := (ih hg hs ho s1 h2 (next_curOk h1)
      (ha.of_store (next_store h1).1 (next_store h1).2)).2.2
    have hF : ∃ n, parseFact n s = .throw e st :=
      ⟨n + 1, by rw [parseFact_lparen n s (by rw [hcur]), h1, Res.bind_ok, hn,
        Res.bind_throw]⟩
    exact ⟨fun _ => hF, fun _ => term_of_fact_throw hF,
      exp_of_term_throw (term_of_fact_throw hF)⟩
  | mulR t p ih =>
    intro hg hs ho s hf hc ha
    simp only [Path.grammatical, Bool.and_eq_true] at hg
    obtain ⟨s1, h1, h2⟩ := Feeds.append hf
    obtain ⟨hcur, s2, h3, h4⟩ := h2
    have ha1 : Agree s1 ρ D := ha.of_store h1.store.1 h1.store.2
    obtain ⟨n, hn⟩ := (ih hg.1.2 hs.2 ho.2 s2 h4 (next_curOk h3)
      (ha1.of_store (next_store h3).1 (next_store h3).2)).1 hg.2
    have hL : ∃ n, termLoop n (t.eval ρ) s1 = .throw e st :=
      ⟨n + 1, by rw [termLoop_star n _ s1 (by rw [hcur]; exact ⟨rfl, rfl⟩), h3, Res.bind_ok,
        hn, Res.bind_throw]⟩
    have hT : ∃ n, parseTerm n s = .throw e st :=
      (parse_sound ρ D t hg.1.1.1 hs.1 ho.1).2.1 hg.1.1.2 s s1 h1 hc ha _
        (Res.throw_ne_outOfFuel e st) hL
    exact ⟨fun h => absurd h (by simp [Path.isFactor]), fun _ => hT, exp_of_term_throw hT⟩
  | addR t m p ih =>
    intro hg hs ho s hf hc ha
    simp only [Path.grammatical, Bool.and_eq_true] at hg
    obtain ⟨s1, h1, h2⟩ := Feeds.append hf
    obtain ⟨hcur, s2, h3, h4⟩ := h2
    have ha1 : Agree s1 ρ D := ha.of_store h1.store.1 h1.store.2
    obtain ⟨n, hn⟩ := (ih hg.1.2 hs.2 ho.2 s2 h4 (next_curOk h3)
      (ha1.of_store (next_store h3).1 (next_store h3).2)).2.1 hg.2
    have hL : ∃ n, expLoop n (t.eval ρ) s1 = .throw e st :=
      ⟨n + 1, by rw [expLoop_sign n _ s1 (by rw [hcur]; exact signTok_isSign m), h3,
        Res.bind_ok, hn, Res.bind_throw]⟩
    have hE : ∃ n, parseExp n s = .throw e st :=
      (parse_sound ρ D t hg.1.1 hs.1 ho.1).2.2 s s1 h1 hc ha
        (by rw [hcur]; exact signTok_not_isStar m) _ (Res.throw_ne_outOfFuel e st) hL
    exact ⟨fun h => absurd h (by simp [Path.isFactor]),
      fun h => absurd h (by simp [Path.isTerm, Path.isFactor]), hE⟩

theorem withStore_self (s : Interpreter) : withStore s s.vars s.initialized = s := rfl

theorem withStore_withStore (s : Interpreter) (v v' : List (String × Int))
    (i i' : List (String × Bool)) : withStore (withStore s v i) v' i' = withStore s v' i' := rfl

/-- Continuation form of `stmts_sound`: after a valid statement list the
statement loop goes on from the state with the reference store. -/
theorem stmts_cont : ∀ (prog : List Stmt) (ρ : String → Int) (D : List String)
    (s s' : Interpreter), Feeds s (progToks prog) s' →
    Agree s ρ D → Grammatical prog → WellScoped D prog → NoOverflow ρ prog →
    Agree (withStore s' (storeAfter prog ρ (s.vars, s.initialized)).1
        (storeAfter prog ρ (s.vars, s.initialized)).2) (refRun prog ρ) (assigned D prog) ∧
    ∀ R : Res Unit, R ≠ .outOfFuel →
      (∃ n, stmtLoop n (withStore s' (storeAfter prog ρ (s.vars, s.initialized)).1
        (storeAfter prog ρ (s.vars, s.initialized)).2) = R) →
      ∃ n, stmtLoop n s = R := by
  intro prog
  induction prog with
  | nil =>
    intro ρ D s s' hf ha _ _ _
    have hf : s' = s := hf
    subst hf
    exact ⟨ha, fun R _ h => h⟩
  | cons st rest ih =>
    intro ρ D s s' hf ha hg hs ho
    obtain ⟨s1, h1, h2⟩ := Feeds.append hf
    obtain ⟨n1, hn1⟩ := stmt_sound h1 ha (hg st (List.mem_cons_self _ _)) hs.1 ho.1
    have hst := h1.store
    have ha1 := (ha.of_store hst.1 hst.2).after_assign st.name (st.rhs.eval ρ)
    have key := ih _ _ _ _
      (h2.with_store (assign s1.vars st.name (st.rhs.eval ρ))
        (assign s1.initialized st.name true)) ha1
      (fun x hx => hg x (List.mem_cons_of_mem _ hx)) hs.2 ho.2
    have e : withStore s' (storeAfter (st :: rest) ρ (s.vars, s.initialized)).1
        (storeAfter (st :: rest) ρ (s.vars, s.initialized)).2 =
        withStore (withStore s' (assign s1.vars st.name (st.rhs.eval ρ))
          (assign s1.initialized st.name true))
          (storeAfter rest (Function.update ρ st.name (st.rhs.eval ρ))
            ((withStore s1 (assign s1.vars st.name (st.rhs.eval ρ))
              (assign s1.initialized st.name true)).vars,
             (withStore s1 (assign s1.vars st.name (st.rhs.eval ρ))
              (assign s1.initialized st.name true)).initialized)).1
          (storeAfter rest (Function.update ρ st.name (st.rhs.eval ρ))
            ((withStore s1 (assign s1.vars st.name (st.rhs.eval ρ))
              (assign s1.initialized st.name true)).vars,
             (withStore s1 (assign s1.vars st.name (st.rhs.eval ρ))
              (assign s1.initialized st.name true)).initialized)).2 := by
      rw [storeAfter, ← hst.1, ← hst.2]
      rfl
    rw [e]
    refine ⟨key.1, fun R hR hL => ?_⟩
    obtain ⟨n2, hn2⟩ := key.2 R hR hL
    refine ⟨max n1 n2 + 1, ?_⟩
    have hne : s.current.type ≠ .END := by rw [h1.1]; simp
    rw [stmtLoop_succ, if_pos hne,
      (parseAssignment_mono (Nat.le_max_left n1 n2) s (by rw [hn1]; simp)).trans hn1,
      Res.bind_ok,
      (stmtLoop_mono (Nat.le_max_right n1 n2) _ (by rw [hn2]; exact hR)).trans hn2]

/-- An exception raised by `parseFact` inside the right-hand side of a
statement is the result of `parseAssignment`. -/
theorem stmt_throw {ρ : String → Int} {D : List String} {y : String} {p : Path}
    {s sh st : Interpreter} {e : Exn}
    (hf : Feeds s (⟨.ID, y⟩ :: ⟨.ASSIGN, "="⟩ :: p.toks) sh) (ha : Agree s ρ D)
    (hg : p.grammatical = true) (hs : p.Scoped D) (ho : p.NoOverflow ρ)
    (hthrow : ∃ k, parseFact k sh = .throw e st) :
    ∃ n, parseAssignment n s = .throw e st := by
  obtain ⟨hcur, sa, h1, h2⟩ := hf
  obtain ⟨hcura, sb, h3, h4⟩ := h2
  have hab : Agree sb ρ D :=
    (ha.of_store (next_store h1).1 (next_store h1).2).of_store (next_store h3).1
      (next_store h3).2
  obtain ⟨n, hn⟩ := (path_throw ρ D e sh st hthrow p hg hs ho sb h4 (next_curOk h3) hab).2.2
  refine ⟨n, ?_⟩
  unfold parseAssignment
  rw [expect_ok (by rw [hcur]), Res.bind_ok]
  simp only [h1, Res.bind_ok]
  rw [expect_ok (by rw [hcura]), Res.bind_ok, h3, Res.bind_ok, hn, Res.bind_throw]

/-- After a valid statement list and the start of one more statement, the
parser enters `parseFact` at the end of the path in a state with the
reference store; an exception raised there ends the run. -/
theorem reach_factor (input : List Char) (pre : List Stmt) (y : String) (p : Path)
    (t : Token)
    (hlex : (lexes ⟨input, 0⟩
      ((progToks pre ++ ⟨.ID, y⟩ :: ⟨.ASSIGN, "="⟩ :: p.toks) ++ [t])).isSome = true)
    (hg : Grammatical pre) (hs : WellScoped [] pre) (ho : NoOverflow emptyEnv pre)
    (hpg : p.grammatical = true) (hps : p.Scoped (assigned [] pre))
    (hpo : p.NoOverflow (refRun pre emptyEnv)) :
    ∃ sh, sh.current = t ∧ sh.vars = (storeAfter pre emptyEnv ([], [])).1 ∧
      sh.initialized = (storeAfter pre emptyEnv ([], [])).2 ∧
      ∀ e st, (∃ k, parseFact k sh = .throw e st) →
        ∃ n, run n (Interpreter.new input) = .throw e st := by
  obtain ⟨lx', hlx⟩ := Option.isSome_iff_exists.mp hlex
  obtain ⟨s1, s', h1, h2, h3⟩ := lexes_feeds _ t (Interpreter.new input) lx' hlx
  obtain ⟨s2, h4, h5⟩ := Feeds.append h2
  have ha : Agree s1 emptyEnv [] := fun x hx => absurd hx (List.not_mem_nil x)
  have hv1 : s1.vars = [] := (next_store h1).1
  have hi1 : s1.initialized = [] := (next_store h1).2
  obtain ⟨haF, hcont⟩ := stmts_cont pre emptyEnv [] s1 s2 h4 ha hg hs ho
  rw [hv1, hi1] at haF hcont
  have h6 := h5.with_store (storeAfter pre emptyEnv ([], [])).1
    (storeAfter pre emptyEnv ([], [])).2
  refine ⟨withStore s' (storeAfter pre emptyEnv ([], [])).1
    (storeAfter pre emptyEnv ([], [])).2, h3, rfl, rfl, fun e st hthrow => ?_⟩
  obtain ⟨n, hn⟩ := stmt_throw h6 haF hpg hps hpo hthrow
  have hne : (withStore s2 (storeAfter pre emptyEnv ([], [])).1
      (storeAfter pre emptyEnv ([], [])).2).current.type ≠ .END := by
    rw [h6.1]; simp
  obtain ⟨m, hm⟩ := hcont (.throw e st) (Res.throw_ne_outOfFuel e st)
    ⟨n + 1, by rw [stmtLoop_succ, if_pos hne, hn, Res.bind_throw]⟩
  exact ⟨m, by unfold run; rw [h1, Res.bind_ok, hm]⟩

theorem storeAfter_init (prog : List Stmt) : ∀ (ρ : String → Int)
    (m : List (String × Int) × List (String × Bool)) (x : String),
    (∀ st ∈ prog, st.name ≠ x) → find (storeAfter prog ρ m).2 x = find m.2 x := by
  induction prog with
  | nil => intro ρ m x _; rfl
  | cons st rest ih =>
    intro ρ m x h
    rw [storeAfter, ih _ _ x (fun st' hst' => h st' (List.mem_cons_of_mem _ hst'))]
    simp only [find_assign]
    rw [if_neg (h st (List.mem_cons_self _ _))]

theorem readVar_uninitialized (s : Interpreter) (h : find s.initialized s.current.value = none) :
    readVar s = .throw .UninitializedError
      { s with initialized := assign s.initialized s.current.value false } := by
  unfold readVar index
  simp only [h, Bool.not_false, if_true]

theorem index_fst {V : Type} (d : V) (m : List (String × V)) (k : String) :
    (index d m k).1 = (find m k).getD d := by
  unfold index
  cases find m k <;> rfl

theorem lookup_eq (s : Interpreter) (x : String) :
    lookup s x = ((find s.vars x).getD 0, (find s.initialized x).getD false) := by
  unfold lookup
  rw [index_fst, index_fst]

theorem lookup_flag_iff (s : Interpreter) (x : String) :
    (lookup s x).2 = true ↔ find s.initialized x = some true := by
  rw [lookup_eq]
  cases h : find s.initialized x with
  | none => simp
  | some b => simp

theorem SameStore.of_eq {s' s : Interpreter} (hv : s'.vars = s.vars)
    (hi : s'.initialized = s.initialized) : SameStore s' s := by
  refine ⟨fun x => ?_, fun _ => hv⟩
  rw [lookup_eq, lookup_eq, hv, hi]

theorem SameStore.inv {s' s : Interpreter} (h : SameStore s' s) (hinv : StoreInv s) :
    StoreInv s' := by
  have hv := h.2 hinv
  refine ⟨by rw [hv]; exact hinv.1, fun x => ?_⟩
  rw [hv, ← hinv.2 x, ← lookup_flag_iff, ← lookup_flag_iff, h.1 x]

theorem SameStore.chain {s2 s1 s : Interpreter} (h2 : SameStore s2 s1) (h1 : SameStore s1 s) :
    SameStore s2 s :=
  ⟨fun x => (h2.1 x).trans (h1.1 x), fun hinv => (h2.2 (h1.inv hinv)).trans (h1.2 hinv)⟩

theorem Res.Keeps.bind_keeps {α β : Type} {s : Interpreter} {A : Res α}
    {f : α → Interpreter → Res β} (hA : A.Keeps s)
    (hf : ∀ a s1, A = .ok a s1 → (f a s1).Keeps s1) : (A.bind f).Keeps s := by
  cases A with
  | ok a s1 =>
    have h1 : SameStore s1 s := hA
    have h2 := hf a s1 rfl
    show (f a s1).Keeps s
    cases hr : f a s1 with
    | ok b s2 => rw [hr] at h2; exact SameStore.chain h2 h1
    | throw e s2 => rw [hr] at h2; exact SameStore.chain h2 h1
    | outOfFuel => trivial
  | throw e s1 => exact hA
  | outOfFuel => trivial

theorem next_keeps (s : Interpreter) : (next s).Keeps s := by
  unfold next
  split
  · exact SameStore.of_eq rfl rfl
  · exact SameStore.of_eq rfl rfl

theorem expect_keeps (ty : TokenType) (s : Interpreter) : (expect ty s).Keeps s := by
  unfold expect
  split
  · exact SameStore.of_eq rfl rfl
  · exact SameStore.of_eq rfl rfl

theorem ok_keeps {α : Type} (a : α) (s : Interpreter) : (Res.ok a s).Keeps s :=
  SameStore.of_eq rfl rfl

theorem readVar_keeps (s : Interpreter) : (readVar s).Keeps s := by
  cases hi : find s.initialized s.current.value with
  | none =>
    have e : readVar s = .throw .UninitializedError
        { s with initialized := assign s.initialized s.current.value false } := by
      simp [readVar, index, hi]
    rw [e]
    refine ⟨fun x => ?_, fun _ => rfl⟩
    rw [lookup_eq, lookup_eq]
    dsimp only
    rw [find_assign]
    by_cases hx : s.current.value = x
    · rw [if_pos hx, ← hx, hi]; rfl
    · rw [if_neg hx]
  | some b =>
    cases b with
    | false =>
      have e : readVar s = .throw .UninitializedError s := by
        simp [readVar, index, hi]
      rw [e]
      exact SameStore.of_eq rfl rfl
    | true =>
      cases hv : find s.vars s.current.value with
      | some v =>
        have e : readVar s = (next s).bind fun _ s2 => .ok v s2 := by
          simp [readVar, index, hi, hv]
        rw [e]
        exact Res.Keeps.bind_keeps (next_keeps _) fun _ s1 _ => ok_keeps _ _
      | none =>
        have e : readVar s = (next { s with vars := assign s.vars s.current.value 0 }).bind
            fun _ s2 => .ok 0 s2 := by
          simp [readVar, index, hi, hv]
        rw [e]
        have hst : SameStore { s with vars := assign s.vars s.current.value 0 } s := by
          refine ⟨fun x => ?_, fun hinv => ?_⟩
          · rw [lookup_eq, lookup_eq]
            dsimp only
            rw [find_assign]
            by_cases hx : s.current.value = x
            · rw [if_pos hx, ← hx, hv]; rfl
            · rw [if_neg hx]
          · exfalso
            exact (find_eq_none_iff _ _).1 hv ((hinv.2 _).1 hi)
        have hb : (Res.bind (next { s with vars := assign s.vars s.current.value 0 })
            fun _ s2 => Res.ok (0 : Int) s2).Keeps
              { s with vars := assign s.vars s.current.value 0 } :=
          Res.Keeps.bind_keeps (next_keeps _) fun _ s1 _ => ok_keeps _ _
        revert hb
        generalize (Res.bind (next { s with vars := assign s.vars s.current.value 0 })
            fun _ s2 => Res.ok (0 : Int) s2) = R
        intro hb
        cases R with
        | ok a s2 => exact SameStore.chain hb hst
        | throw e s2 => exact SameStore.chain hb hst
        | outOfFuel => trivial

theorem keeps_all (n : Nat) :
    (∀ s, (parseFact n s).Keeps s) ∧ (∀ r s, (termLoop n r s).Keeps s) ∧
    (∀ s, (parseTerm n s).Keeps s) ∧ (∀ r s, (expLoop n r s).Keeps s) ∧
    (∀ s, (parseExp n s).Keeps s) := by
  induction n with
  | zero =>
    refine ⟨?_, ?_, ?_, ?_, ?_⟩ <;> intros
    · rw [parseFact_zero]; trivial
    · rw [termLoop_zero]; trivial
    · rw [parseTerm_zero]; trivial
    · rw [expLoop_zero]; trivial
    · rw [parseExp_zero]; trivial
  | succ n ih =>
    obtain ⟨hF, hTL, hT, hEL, hE⟩ := ih
    refine ⟨?_, ?_, ?_, ?_, ?_⟩
    · intro s
      rcases parseFact_branches s with c | c | c | c | ⟨c1, c2, c3, c4⟩
      · rw [parseFact_sign n s c]
        exact Res.Keeps.bind_keeps (next_keeps s) fun _ s1 _ =>
          Res.Keeps.bind_keeps (hF s1) fun _ s2 _ => ok_keeps _ _
      · rw [parseFact_num n s c]
        split
        · exact SameStore.of_eq rfl rfl
        · exact Res.Keeps.bind_keeps (next_keeps s) fun _ s1 _ => ok_keeps _ _
      · rw [parseFact_id n s c]
        exact readVar_keeps s
      · rw [parseFact_lparen n s c]
        exact Res.Keeps.bind_keeps (next_keeps s) fun _ s1 _ =>
          Res.Keeps.bind_keeps (hE s1) fun _ s2 _ =>
          Res.Keeps.bind_keeps (expect_keeps _ s2) fun _ s3 _ =>
          Res.Keeps.bind_keeps (next_keeps s3) fun _ s4 _ => ok_keeps _ _
      · rw [parseFact_other n s c1 c2 c3 c4]
        exact SameStore.of_eq rfl rfl
    · intro r s
      by_cases c : s.current.type = .OP ∧ s.current.value = "*"
      · rw [termLoop_star n r s c]
        exact Res.Keeps.bind_keeps (next_keeps s) fun _ s1 _ =>
          Res.Keeps.bind_keeps (hF s1) fun _ s2 _ => hTL _ s2
      · rw [termLoop_exit n r s c]
        exact ok_keeps _ _
    · intro s
      rw [parseTerm_succ]
      exact Res.Keeps.bind_keeps (hF s) fun _ s1 _ => hTL _ s1
    · intro r s
      by_cases c : s.current.isSign
      · rw [expLoop_sign n r s c]
        exact Res.Keeps.bind_keeps (next_keeps s) fun _ s1 _ =>
          Res.Keeps.bind_keeps (hT s1) fun _ s2 _ => hEL _ s2
      · rw [expLoop_exit n r s c]
        exact ok_keeps _ _
    · intro s
      rw [parseExp_succ]
      exact Res.Keeps.bind_keeps (hT s) fun _ s1 _ => hEL _ s1

theorem Res.Keeps.state {α : Type} {s : Interpreter} {r : Res α} (h : r.Keeps s)
    (hr : r ≠ .outOfFuel) : SameStore r.state s := by
  cases r with
  | ok a s1 => exact h
  | throw e s1 => exact h
  | outOfFuel => exact absurd rfl hr

theorem Res.bind_eq_throw {α β : Type} {A : Res α} {f : α → Interpreter → Res β} {e : Exn}
    {st : Interpreter} (h : A.bind f = .throw e st) :
    A = .throw e st ∨ ∃ a s1, A = .ok a s1 ∧ f a s1 = .throw e st := by
  cases A with
  | ok a s1 => exact Or.inr ⟨a, s1, rfl, h⟩
  | throw e1 s1 => exact Or.inl (by simpa [Res.bind] using h)
  | outOfFuel => simp [Res.bind] at h

/-- The part of `parseAssignment` before the two maps are written. -/
theorem parseAssignment_throw_keeps {n : Nat} {s st : Interpreter} {e : Exn}
    (h : parseAssignment n s = .throw e st) : SameStore st s := by
  unfold parseAssignment at h
  rcases Res.bind_eq_throw h with h | ⟨_, s1, h1, h⟩
  · have := expect_keeps .ID s; rw [h] at this; exact this
  have k1 : SameStore s1 s := by have := expect_keeps .ID s; rw [h1] at this; exact this
  rcases Res.bind_eq_throw h with h | ⟨_, s2, h2, h⟩
  · have := next_keeps s1; rw [h] at this; exact SameStore.chain this k1
  have k2 : SameStore s2 s := by
    have := next_keeps s1; rw [h2] at this; exact SameStore.chain this k1
  rcases Res.bind_eq_throw h with h | ⟨_, s3, h3, h⟩
  · have := expect_keeps .ASSIGN s2; rw [h] at this; exact SameStore.chain this k2
  have k3 : SameStore s3 s := by
    have := expect_keeps .ASSIGN s2; rw [h3] at this; exact SameStore.chain this k2
  rcases Res.bind_eq_throw h with h | ⟨_, s4, h4, h⟩
  · have := next_keeps s3; rw [h] at this; exact SameStore.chain this k3
  have k4 : SameStore s4 s := by
    have := next_keeps s3; rw [h4] at this; exact SameStore.chain this k3
  rcases Res.bind_eq_throw h with h | ⟨v, s5, h5, h⟩
  · have := (keeps_all n).2.2.2.2 s4; rw [h] at this; exact SameStore.chain this k4
  have k5 : SameStore s5 s := by
    have := (keeps_all n).2.2.2.2 s4; rw [h5] at this; exact SameStore.chain this k4
  rcases Res.bind_eq_throw h with h | ⟨_, s6, h6, h⟩
  · have := expect_keeps .SEMICOLON s5; rw [h] at this; exact SameStore.chain this k5
  have k6 : SameStore s6 s := by
    have := expect_keeps .SEMICOLON s5; rw [h6] at this; exact SameStore.chain this k5
  rcases Res.bind_eq_throw h with h | ⟨_, s7, h7, h⟩
  · have := next_keeps s6; rw [h] at this; exact SameStore.chain this k6
  simp at h

theorem parseAssignment_ok_store {n : Nat} {s s' : Interpreter} {u : Unit}
    (h : parseAssignment n s = .ok u s') :
    ∃ v s7, SameStore s7 s ∧
      s' = { s7 with vars := assign s7.vars s.current.value v,
                     initialized := assign s7.initialized s.current.value true } := by
  obtain ⟨s2, s4, v, s5, s7, _, h1, _, h2, h3, _, h4, h5⟩ := parseAssignment_eq_ok h
  refine ⟨v, s7, ?_, h5⟩
  have a := next_keeps s; rw [h1] at a
  have b := next_keeps s2; rw [h2] at b
  have c := (keeps_all n).2.2.2.2 s4; rw [h3] at c
  have d := next_keeps s5; rw [h4] at d
  exact SameStore.chain d (SameStore.chain c (SameStore.chain b a))

/-! ## Tokens required at fixed places -/

theorem expect_ne {ty : TokenType} {s : Interpreter} (h : s.current.type ≠ ty) :
    expect ty s = .throw .SyntaxError s := by
  unfold expect
  rw [if_pos h]

theorem expect_eq {ty : TokenType} {s : Interpreter} (h : s.current.type = ty) :
    expect ty s = .ok () s := by
  unfold expect
  rw [if_neg (not_not.2 h)]

theorem execute_first_token (input : List Char) (t : Token)
    (ht : (Lexer.nextToken ⟨input, 0⟩).1 = .ok t) (h1 : t.type ≠ .ID) (h2 : t.type ≠ .END) :
    execute input = .returned ["error"] := by
  have hnext : next (Interpreter.new input) =
      .ok () { (Interpreter.new input) with
        lexer := (Lexer.nextToken ⟨input, 0⟩).2, current := t } := by
    unfold next
    have e : (Interpreter.new input).lexer = ⟨input, 0⟩ := rfl
    rw [e]
    revert ht
    generalize Lexer.nextToken ⟨input, 0⟩ = R
    intro ht
    obtain ⟨a, b⟩ := R
    dsimp only at ht
    subst ht
    rfl
  have hrun : run (fuelFor input) (Interpreter.new input) =
      .throw .SyntaxError { (Interpreter.new input) with
        lexer := (Lexer.nextToken ⟨input, 0⟩).2, current := t } := by
    unfold run
    rw [hnext, Res.bind_ok]
    show stmtLoop (3 * input.length + 6 + 1) _ = _
    rw [stmtLoop_succ, if_pos h2]
    unfold parseAssignment
    rw [expect_ne h1]
    rfl
  unfold execute
  rw [hrun]
  rfl

/-! ## The lexer at an arbitrary cursor -/

theorem nextToken_at (lx : Lexer) (h : lx.pos ≤ lx.input.length) :
    lx.nextToken = ((lexList (lx.input.drop lx.pos)).1,
      ⟨lx.input, lx.input.length - (lexList (lx.input.drop lx.pos)).2.length⟩) := by
  have e := nextToken_append (lx.input.take lx.pos) (lx.input.drop lx.pos)
  rw [List.take_append_drop, List.length_take, min_eq_left h] at e
  exact e

theorem nextToken_past (lx : Lexer) (h : lx.input.length ≤ lx.pos) :
    lx.nextToken = (.ok ⟨.END, ""⟩, lx) := by
  unfold Lexer.nextToken
  have e : lx.input.length - lx.pos = 0 := by omega
  simp only [e, skipWhile]
  rw [if_pos h]

theorem nextToken_fst (lx : Lexer) :
    lx.nextToken.1 = (lexList (lx.input.drop lx.pos)).1 := by
  rcases Nat.le_total lx.pos lx.input.length with h | h
  · rw [nextToken_at lx h]
  · rw [nextToken_past lx h, List.drop_of_length_le h]
    rfl

theorem nextToken_pos_le (lx : Lexer) (h : lx.pos ≤ lx.input.length) :
    lx.nextToken.2.pos ≤ lx.input.length := by
  rw [nextToken_at lx h]
  exact Nat.sub_le _ _

theorem lexList_cons (cs : List Char) (ch : Char) (rest : List Char)
    (h : cs.dropWhile isspace = ch :: rest) :
    lexList cs =
      if isalpha ch || ch = '_' then
        (.ok ⟨.ID, ⟨(ch :: rest).takeWhile isIdChar⟩⟩, (ch :: rest).dropWhile isIdChar)
      else if isdigit ch then
        if ch = '0' && isdigit (rest.headD (Char.ofNat 0)) then (.error .SyntaxError, ch :: rest)
        else if ch = '0' then (.ok ⟨.NUM, "0"⟩, rest)
        else (.ok ⟨.NUM, ⟨(ch :: rest).takeWhile isdigit⟩⟩, (ch :: rest).dropWhile isdigit)
      else if ch = '+' || ch = '-' || ch = '*' then (.ok ⟨.OP, String.singleton ch⟩, rest)
      else if ch = '=' then (.ok ⟨.ASSIGN, "="⟩, rest)
      else if ch = ';' then (.ok ⟨.SEMICOLON, ";"⟩, rest)
      else if ch = '(' then (.ok ⟨.LPAREN, "("⟩, rest)
      else if ch = ')' then (.ok ⟨.RPAREN, ")"⟩, rest)
      else (.error .SyntaxError, ch :: rest) := by
  unfold lexList
  rw [h]

theorem lexList_empty (cs : List Char) (h : cs.dropWhile isspace = []) :
    lexList cs = (.ok ⟨.END, ""⟩, []) := by
  unfold lexList
  rw [h]

theorem dropWhile_isspace_nil_iff (cs : List Char) :
    cs.dropWhile isspace = [] ↔ ∀ c ∈ cs, isspace c = true :=
  List.dropWhile_eq_nil_iff

theorem lexList_cons_not_end (cs : List Char) (ch : Char) (rest : List Char)
    (h : cs.dropWhile isspace = ch :: rest) (t : Token) (ht : (lexList cs).1 = .ok t) :
    t.type ≠ .END := by
  rw [lexList_cons cs ch rest h] at ht
  split_ifs at ht <;> simp only [Except.ok.injEq, reduceCtorEq] at ht <;> subst ht <;> simp

theorem lexList_end_iff (cs : List Char) :
    (∃ t, (lexList cs).1 = .ok t ∧ t.type = .END) ↔ ∀ c ∈ cs, isspace c = true := by
  constructor
  · rintro ⟨t, ht, hty⟩
    rw [← dropWhile_isspace_nil_iff]
    cases hd : cs.dropWhile isspace with
    | nil => rfl
    | cons ch rest => exact absurd hty (lexList_cons_not_end cs ch rest hd t ht)
  · intro h
    rw [lexList_spaces cs h]
    exact ⟨_, rfl, rfl⟩

theorem callsAfter_end (lx : Lexer) (h : lx.nextToken = (.ok ⟨.END, ""⟩, lx)) :
    ∀ k, callsAfter k lx = lx := by
  intro k
  induction k with
  | zero => rfl
  | succ k ih =>
    show callsAfter k lx.nextToken.2 = lx
    rw [h]
    exact ih

theorem lexList_error_iff (cs : List Char) :
    (lexList cs).1 = .error .SyntaxError ↔
      ∃ ch tl, cs.dropWhile isspace = ch :: tl ∧
        ((ch = '0' ∧ ∃ d, tl.head? = some d ∧ isdigit d = true) ∨
         (isalpha ch = false ∧ ch ≠ '_' ∧ isdigit ch = false ∧
           ch ∉ ['+', '-', '*', '=', ';', '(', ')'])) := by
  cases hd : cs.dropWhile isspace with
  | nil =>
    rw [lexList_empty cs hd]
    simp
  | cons ch tl =>
    rw [lexList_cons cs ch tl hd]
    have hz : isdigit '0' = true := by decide
    have hz1 : isalpha '0' = false := by decide
    have h0 : isdigit (Char.ofNat 0) = false := by decide
    have hhd : isdigit (tl.headD (Char.ofNat 0)) = true ↔
        ∃ d, tl.head? = some d ∧ isdigit d = true := by
      cases tl with
      | nil => simp [h0]
      | cons d tl' => simp
    constructor
    · intro h
      refine ⟨ch, tl, rfl, ?_⟩
      split_ifs at h with c1 c2 c3 c4 c5 c6 c7 c8 c9 <;>
        simp only [reduceCtorEq] at h
      · left
        simp only [Bool.and_eq_true, decide_eq_true_eq] at c3
        exact ⟨c3.1, hhd.1 c3.2⟩
      · right
        simp only [Bool.or_eq_true, decide_eq_true_eq, not_or, Bool.not_eq_true] at c1 c5
        simp only [Bool.not_eq_true] at c2
        refine ⟨c1.1, c1.2, c2, ?_⟩
        simp only [List.mem_cons, List.mem_singleton, List.not_mem_nil, or_false, not_or]
        exact ⟨c5.1.1, c5.1.2, c5.2, c6, c7, c8, c9⟩
    · rintro ⟨ch', tl', he, h⟩
      simp only [List.cons.injEq] at he
      obtain ⟨rfl, rfl⟩ := he
      rcases h with ⟨rfl, hd2⟩ | ⟨a1, a2, a3, a4⟩
      · have := hhd.2 hd2
        rw [if_neg (by decide), if_pos hz, if_pos (by rw [this]; rfl)]
      · simp only [List.mem_cons, List.mem_singleton, List.not_mem_nil, or_false, not_or] at a4
        simp [a1, a2, a3, a4]

theorem lexList_error_kind (cs : List Char) (e : Exn) (h : (lexList cs).1 = .error e) :
    e = .SyntaxError := by
  cases hd : cs.dropWhile isspace with
  | nil =>
    rw [lexList_empty cs hd] at h
    simp at h
  | cons ch tl =>
    rw [lexList_cons cs ch tl hd] at h
    split_ifs at h <;> simp only [reduceCtorEq, Except.error.injEq] at h <;> exact h.symm

/-! ## Tokens at a cursor behind whitespace -/

theorem dropWhile_spaces_append (ws cs : List Char) (hws : ∀ c ∈ ws, isspace c = true) :
    (ws ++ cs).dropWhile isspace = cs.dropWhile isspace := by
  induction ws with
  | nil => rfl
  | cons c ws ih =>
    have hc : isspace c = true := hws c (List.mem_cons_self _ _)
    rw [List.cons_append, List.dropWhile_cons_of_pos hc]
    exact ih fun d hd => hws d (List.mem_cons_of_mem _ hd)

theorem lexList_spaces_append (ws cs : List Char) (hws : ∀ c ∈ ws, isspace c = true) :
    lexList (ws ++ cs) = lexList cs := by
  rw [← lexList_dropWhile (ws ++ cs), dropWhile_spaces_append ws cs hws, lexList_dropWhile]

theorem lexList_length_le (cs : List Char) : (lexList cs).2.length ≤ cs.length := by
  obtain ⟨mid, h⟩ := lexList_suffix cs
  have := congrArg List.length h
  rw [List.length_append] at this
  omega

/-- The cursor after a call, from the text left by `lexList`. -/
theorem nextToken_behind_spaces (pre ws cs : List Char) (hws : ∀ c ∈ ws, isspace c = true)
    (k : Nat) (hk : (lexList cs).2.length + k = cs.length) :
    Lexer.nextToken ⟨pre ++ (ws ++ cs), pre.length⟩ =
      ((lexList cs).1, ⟨pre ++ (ws ++ cs), pre.length + ws.length + k⟩) := by
  rw [nextToken_append, lexList_spaces_append ws cs hws]
  congr 2
  simp only [List.length_append]
  omega

theorem takeWhile_longest (p : Char → Bool) (cs pfx sfx : List Char) (h : cs = pfx ++ sfx)
    (hp : ∀ c ∈ pfx, p c = true) : pfx.length ≤ (cs.takeWhile p).length := by
  subst h
  induction pfx with
  | nil => exact Nat.zero_le _
  | cons c pfx ih =>
    have hc : p c = true := hp c (List.mem_cons_self _ _)
    rw [List.cons_append, List.takeWhile_cons_of_pos hc, List.length_cons, List.length_cons]
    exact Nat.succ_le_succ (ih fun d hd => hp d (List.mem_cons_of_mem _ hd))

theorem dropWhile_head (p : Char → Bool) (cs : List Char) (d : Char)
    (h : (cs.dropWhile p).head? = some d) : p d = false := by
  induction cs with
  | nil => simp at h
  | cons c cs ih =>
    by_cases hc : p c = true
    · rw [List.dropWhile_cons_of_pos hc] at h
      exact ih h
    · rw [List.dropWhile_cons_of_neg hc] at h
      simp only [List.head?_cons, Option.some.injEq] at h
      rw [← h]
      simpa using hc

/-- The maximal run of `p` at the head of `cs`, as a decomposition. -/
theorem run_spec (p : Char → Bool) (cs : List Char) :
    cs = cs.takeWhile p ++ cs.dropWhile p ∧ (∀ c ∈ cs.takeWhile p, p c = true) ∧
    (∀ d, (cs.dropWhile p).head? = some d → p d = false) ∧
    (∀ pfx sfx, cs = pfx ++ sfx → (∀ c ∈ pfx, p c = true) →
      pfx.length ≤ (cs.takeWhile p).length) :=
  ⟨(List.takeWhile_append_dropWhile p cs).symm, fun _ hc => List.mem_takeWhile_imp hc,
    fun d hd => dropWhile_head p cs d hd, fun pfx sfx h hp => takeWhile_longest p cs pfx sfx h hp⟩

theorem lexList_ident (ch : Char) (rest : List Char) (h : isalpha ch = true ∨ ch = '_') :
    lexList (ch :: rest) =
      (.ok ⟨.ID, ⟨(ch :: rest).takeWhile isIdChar⟩⟩, (ch :: rest).dropWhile isIdChar) := by
  have hsp : isspace ch = false := by
    rcases h with h | h
    · unfold isalpha at h
      unfold isspace
      simp only [Bool.or_eq_true, Bool.and_eq_true, decide_eq_true_eq] at h
      simp only [Bool.or_eq_false_iff, Bool.and_eq_false_iff, decide_eq_false_iff_not]
      omega
    · subst h; decide
  rw [lexList_cons (ch :: rest) ch rest (List.dropWhile_cons_of_neg (by simp [hsp]))]
  rw [if_pos]
  rcases h with h | h
  · simp [h]
  · simp [h]

theorem lexList_digits (ch : Char) (rest : List Char) (h : isdigit ch = true) (h0 : ch ≠ '0') :
    lexList (ch :: rest) =
      (.ok ⟨.NUM, ⟨(ch :: rest).takeWhile isdigit⟩⟩, (ch :: rest).dropWhile isdigit) := by
  have hsp : isspace ch = false := isdigit_not_isspace h
  rw [lexList_cons (ch :: rest) ch rest (List.dropWhile_cons_of_neg (by simp [hsp]))]
  rw [if_neg (by rw [isdigit_not_isalpha h]; decide), if_pos h, if_neg (by simp [h0]), if_neg h0]

/-! ## The programs `x = a - b - c;` and `x = a - b + c;` -/

theorem lexList_minus (rest : List Char) :
    lexList ('-' :: rest) = (.ok ⟨.OP, "-"⟩, rest) := by
  have h1 : isspace '-' = false := by decide
  have h2 : (isalpha '-' || decide ('-' = '_')) = false := by decide
  have h3 : isdigit '-' = false := by decide
  unfold lexList
  simp only [List.dropWhile_cons, h1, h2, h3, Bool.false_eq_true, if_false]
  rfl

theorem subSubText_eq (a b c : String) :
    subSubText a b c = 'x' :: ' ' :: '=' :: ' ' :: (a.data ++ ' ' :: '-' :: ' ' ::
      (b.data ++ ' ' :: '-' :: ' ' :: (c.data ++ [';']))) := by
  simp [subSubText]

theorem subAddText_eq (a b c : String) :
    subAddText a b c = 'x' :: ' ' :: '=' :: ' ' :: (a.data ++ ' ' :: '-' :: ' ' ::
      (b.data ++ ' ' :: '+' :: ' ' :: (c.data ++ [';']))) := by
  simp [subAddText]

theorem lexesList_subSub (a b c : String) (ha : IsLiteral a) (hb : IsLiteral b)
    (hc : IsLiteral c) :
    lexesList (subSubText a b c) (progToks [subSubStmt a b c] ++ [⟨.END, ""⟩])
      = some [] := by
  have hsp : isspace ' ' = true := by decide
  have la := lexList_literal a (' ' :: '-' :: ' ' ::
    (b.data ++ ' ' :: '-' :: ' ' :: (c.data ++ [';']))) ha
    (by simp only [List.headD_cons]; decide)
  have lb := lexList_literal b (' ' :: '-' :: ' ' :: (c.data ++ [';'])) hb
    (by simp only [List.headD_cons]; decide)
  have lc := lexList_literal c [';'] hc (by decide)
  rw [subSubText_eq]
  simp only [progToks, Stmt.toks, subSubStmt, Tree.toks, List.cons_append, List.nil_append,
    List.append_nil, lexesList, lexList_x, lexList_space _ _ hsp, lexList_assign,
    la, lexList_minus, lb, lc, lexList_semicolon, lexList_nil, if_true]

theorem lexesList_subAdd (a b c : String) (ha : IsLiteral a) (hb : IsLiteral b)
    (hc : IsLiteral c) :
    lexesList (subAddText a b c) (progToks [subAddStmt a b c] ++ [⟨.END, ""⟩])
      = some [] := by
  have hsp : isspace ' ' = true := by decide
  have la := lexList_literal a (' ' :: '-' :: ' ' ::
    (b.data ++ ' ' :: '+' :: ' ' :: (c.data ++ [';']))) ha
    (by simp only [List.headD_cons]; decide)
  have lb := lexList_literal b (' ' :: '+' :: ' ' :: (c.data ++ [';'])) hb
    (by simp only [List.headD_cons]; decide)
  have lc := lexList_literal c [';'] hc (by decide)
  rw [subAddText_eq]
  simp only [progToks, Stmt.toks, subAddStmt, Tree.toks, List.cons_append, List.nil_append,
    List.append_nil, lexesList, lexList_x, lexList_space _ _ hsp, lexList_assign,
    la, lexList_minus, lb, lexList_plus, lc, lexList_semicolon, lexList_nil, if_true]

theorem subSub_output (a b c : String) (ha : IsLiteral a) (hb : IsLiteral b)
    (hc : IsLiteral c) (hra : (decimal a.data : Int) ≤ INT_MAX)
    (hrb : (decimal b.data : Int) ≤ INT_MAX) (hrc : (decimal c.data : Int) ≤ INT_MAX)
    (hab : InRange ((decimal a.data : Int) - decimal b.data))
    (habc : InRange ((decimal a.data : Int) - decimal b.data - decimal c.data)) :
    execute (subSubText a b c) =
      .returned ["x = " ++ toString ((decimal a.data : Int) - decimal b.data - decimal c.data)] := by
  have hlex := lexes_of_lexesList _ [] _ _ (lexesList_subSub a b c ha hb hc)
  exact single_stmt_output (subSubText a b c) (subSubStmt a b c) hlex rfl
    (fun x hx => by simp [subSubStmt, Tree.vars] at hx)
    ⟨⟨hra, hrb, hab⟩, hrc, habc⟩

theorem subAdd_output (a b c : String) (ha : IsLiteral a) (hb : IsLiteral b)
    (hc : IsLiteral c) (hra : (decimal a.data : Int) ≤ INT_MAX)
    (hrb : (decimal b.data : Int) ≤ INT_MAX) (hrc : (decimal c.data : Int) ≤ INT_MAX)
    (hab : InRange ((decimal a.data : Int) - decimal b.data))
    (habc : InRange ((decimal a.data : Int) - decimal b.data + decimal c.data)) :
    execute (subAddText a b c) =
      .returned ["x = " ++ toString ((decimal a.data : Int) - decimal b.data + decimal c.data)] := by
  have hlex := lexes_of_lexesList _ [] _ _ (lexesList_subAdd a b c ha hb hc)
  exact single_stmt_output (subAddText a b c) (subAddStmt a b c) hlex rfl
    (fun x hx => by simp [subAddStmt, Tree.vars] at hx)
    ⟨⟨hra, hrb, hab⟩, hrc, habc⟩

/-! ## Counting tokens -/

theorem nextToken_end_pos (lx : Lexer) (t : Token) (ht : lx.nextToken.1 = .ok t)
    (hte : t.type = .END) : lx.input.length ≤ lx.nextToken.2.pos := by
  rcases Nat.le_total lx.pos lx.input.length with h | h
  · have hall : ∀ c ∈ lx.input.drop lx.pos, isspace c = true := by
      rw [nextToken_fst] at ht
      exact (lexList_end_iff _).1 ⟨t, ht, hte⟩
    rw [nextToken_at lx h, lexList_spaces _ hall]
    simp
  · rw [nextToken_past lx h]
    exact h

theorem tokensFrom_step (k : Nat) (lx : Lexer) :
    tokensFrom (k + 1) lx =
      match lx.nextToken with
      | (.ok t, lx') => if t.type = .END then 0 else tokensFrom k lx' + 1
      | (.error _, _) => 0 := rfl

theorem tokensFrom_past (k : Nat) (lx : Lexer) (h : lx.input.length ≤ lx.pos) :
    tokensFrom k lx = 0 := by
  cases k with
  | zero => rfl
  | succ k =>
    rw [tokensFrom_step]
    rw [nextToken_past lx h]
    rfl

theorem tokensFrom_succ (k : Nat) (lx : Lexer) (t : Token) (ht : lx.nextToken.1 = .ok t)
    (hne : t.type ≠ .END) : tokensFrom (k + 1) lx = tokensFrom k lx.nextToken.2 + 1 := by
  rw [tokensFrom_step]
  split
  · rename_i t1 lx1 heq
    rw [heq] at ht
    simp only [Except.ok.injEq] at ht
    rw [heq, ht, if_neg hne]
  · rename_i e1 lx1 heq
    rw [heq] at ht
    simp at ht

theorem tokensFrom_end (k : Nat) (lx : Lexer) (t : Token) (ht : lx.nextToken.1 = .ok t)
    (he : t.type = .END) : tokensFrom k lx = 0 := by
  cases k with
  | zero => rfl
  | succ k =>
    rw [tokensFrom_step]
    split
    · rename_i t1 lx1 heq
      rw [heq] at ht
      simp only [Except.ok.injEq] at ht
      rw [ht, if_pos he]
    · rfl

theorem tokensFrom_error (k : Nat) (lx : Lexer) (e : Exn) (ht : lx.nextToken.1 = .error e) :
    tokensFrom k lx = 0 := by
  cases k with
  | zero => rfl
  | succ k =>
    rw [tokensFrom_step]
    split
    · rename_i t1 lx1 heq
      rw [heq] at ht
      simp at ht
    · rfl

/-- The bound on the number of calls is immaterial once it covers the text
left. -/
theorem tokensFrom_stable : ∀ (k1 k2 : Nat) (lx : Lexer),
    lx.input.length - lx.pos ≤ k1 → lx.input.length - lx.pos ≤ k2 →
    tokensFrom k1 lx = tokensFrom k2 lx := by
  intro k1
  induction k1 with
  | zero =>
    intro k2 lx h1 _
    rw [tokensFrom_past 0 lx (by omega), tokensFrom_past k2 lx (by omega)]
  | succ k1 ih =>
    intro k2 lx h1 h2
    cases k2 with
    | zero => rw [tokensFrom_past 0 lx (by omega), tokensFrom_past _ lx (by omega)]
    | succ k2 =>
      cases ht : lx.nextToken.1 with
      | error e => rw [tokensFrom_error _ lx e ht, tokensFrom_error _ lx e ht]
      | ok t =>
        by_cases he : t.type = .END
        · rw [tokensFrom_end _ lx t ht he, tokensFrom_end _ lx t ht he]
        · rw [tokensFrom_succ _ lx t ht he, tokensFrom_succ _ lx t ht he]
          have hp := nextToken_progress lx t ht he
          have hi := nextToken_input lx
          rw [ih k2 lx.nextToken.2 (by rw [hi]; omega) (by rw [hi]; omega)]

theorem tokensFrom_le : ∀ (k : Nat) (lx : Lexer),
    tokensFrom k lx ≤ lx.input.length - lx.pos := by
  intro k
  induction k with
  | zero => intro lx; exact Nat.zero_le _
  | succ k ih =>
    intro lx
    cases ht : lx.nextToken.1 with
    | error e => rw [tokensFrom_error _ lx e ht]; exact Nat.zero_le _
    | ok t =>
      by_cases he : t.type = .END
      · rw [tokensFrom_end _ lx t ht he]; exact Nat.zero_le _
      · rw [tokensFrom_succ _ lx t ht he]
        have hp := nextToken_progress lx t ht he
        have hi := nextToken_input lx
        have := ih lx.nextToken.2
        rw [hi] at this
        omega

theorem tokenCount_le (input : List Char) : tokenCount input ≤ input.length :=
  tokensFrom_le input.length ⟨input, 0⟩

theorem tokensLeft_le_remaining (s : Interpreter) : tokensLeft s ≤ remaining s := by
  unfold tokensLeft remaining
  exact Nat.add_le_add_right (tokensFrom_le _ _) _

theorem next_tokens_le {s s' : Interpreter} {u : Unit} (h : next s = .ok u s') :
    tokensLeft s' ≤ tokensLeft s ∧ (s.current.type ≠ .END → tokensLeft s' < tokensLeft s) := by
  obtain ⟨t, ht, rfl⟩ := next_eq_ok h
  have hin := nextToken_input s.lexer
  unfold tokensLeft
  dsimp only
  by_cases hte : t.type = .END
  · have z : tokensFrom (s.lexer.nextToken.2.input.length - s.lexer.nextToken.2.pos)
        s.lexer.nextToken.2 = 0 := by
      have hq := nextToken_end_pos s.lexer t ht hte
      exact tokensFrom_past _ _ (by rw [hin]; exact hq)
    rw [z, if_pos hte]
    constructor
    · omega
    · intro hc; rw [if_neg hc]; omega
  · have hpr := nextToken_progress s.lexer t ht hte
    have e1 : s.lexer.input.length - s.lexer.pos =
        (s.lexer.input.length - s.lexer.pos - 1) + 1 := by omega
    have e2 : tokensFrom (s.lexer.input.length - s.lexer.pos) s.lexer =
        tokensFrom (s.lexer.nextToken.2.input.length - s.lexer.nextToken.2.pos)
          s.lexer.nextToken.2 + 1 := by
      rw [e1, tokensFrom_succ _ s.lexer t ht hte]
      congr 1
      exact tokensFrom_stable _ _ _ (by rw [hin]; omega) (Nat.le_refl _)
    rw [e2, if_neg hte]
    constructor
    · split_ifs <;> omega
    · intro hc; rw [if_neg hc]; omega

theorem tokensLeft_consumes : Consumes tokensLeft :=
  ⟨fun _ _ _ h => next_tokens_le h, fun _ _ _ => rfl⟩

theorem remaining_consumes : Consumes remaining :=
  ⟨fun _ _ _ h => next_remaining_le h, fun _ _ _ => rfl⟩

/-! ## Progress and budget for any measure that `next` consumes -/

theorem readVar_measure {μ : Interpreter → Nat} (hμ : Consumes μ) {s s' : Interpreter}
    {v : Int} (h : readVar s = .ok v s') (hne : s.current.type ≠ .END) : μ s' < μ s := by
  unfold readVar at h
  simp only [] at h
  split_ifs at h
  obtain ⟨_, s1, h1, h2⟩ := Res.bind_eq_ok h
  simp only [Res.ok.injEq] at h2
  rw [← h2.2]
  have := (hμ.1 _ _ _ h1).2 hne
  rw [hμ.2 s (index 0 s.vars s.current.value).2
    (index false s.initialized s.current.value).2] at this
  exact this

theorem progress_of {μ : Interpreter → Nat} (hμ : Consumes μ) (n : Nat) :
    (∀ s v s', parseFact n s = .ok v s' → μ s' < μ s) ∧
    (∀ r s v s', termLoop n r s = .ok v s' → μ s' ≤ μ s) ∧
    (∀ s v s', parseTerm n s = .ok v s' → μ s' < μ s) ∧
    (∀ r s v s', expLoop n r s = .ok v s' → μ s' ≤ μ s) ∧
    (∀ s v s', parseExp n s = .ok v s' → μ s' < μ s) := by
  induction n with
  | zero =>
    refine ⟨?_, ?_, ?_, ?_, ?_⟩ <;> intros
    · simp_all [parseFact_zero]
    · simp_all [termLoop_zero]
    · simp_all [parseTerm_zero]
    · simp_all [expLoop_zero]
    · simp_all [parseExp_zero]
  | succ n ih =>
    obtain ⟨hF, hTL, hT, hEL, hE⟩ := ih
    refine ⟨?_, ?_, ?_, ?_, ?_⟩
    · intro s v s' h
      rcases parseFact_branches s with c | c | c | c | ⟨c1, c2, c3, c4⟩
      · rw [parseFact_sign n s c] at h
        obtain ⟨_, s1, h1, h2⟩ := Res.bind_eq_ok h
        obtain ⟨_, s2, h3, h4⟩ := Res.bind_eq_ok h2
        simp only [Res.ok.injEq] at h4
        have := (hμ.1 _ _ _ h1).1
        have := hF _ _ _ h3
        rw [← h4.2]; omega
      · rw [parseFact_num n s c] at h
        split at h
        · simp at h
        · obtain ⟨_, s1, h1, h2⟩ := Res.bind_eq_ok h
          simp only [Res.ok.injEq] at h2
          rw [← h2.2]
          exact (hμ.1 _ _ _ h1).2 (by rw [c]; decide)
      · rw [parseFact_id n s c] at h
        exact readVar_measure hμ h (by rw [c]; decide)
      · rw [parseFact_lparen n s c] at h
        obtain ⟨_, s1, h1, h2⟩ := Res.bind_eq_ok h
        obtain ⟨_, s2, h3, h4⟩ := Res.bind_eq_ok h2
        obtain ⟨_, s3, h5, h6⟩ := Res.bind_eq_ok h4
        obtain ⟨_, s4, h7, h8⟩ := Res.bind_eq_ok h6
        simp only [Res.ok.injEq] at h8
        have := (hμ.1 _ _ _ h1).1
        have := hE _ _ _ h3
        have h9 := (expect_eq_ok h5).1
        have := (hμ.1 _ _ _ h7).1
        rw [h9] at this
        rw [← h8.2]; omega
      · rw [parseFact_other n s c1 c2 c3 c4] at h
        simp at h
    · intro r s v s' h
      by_cases c : s.current.type = .OP ∧ s.current.value = "*"
      · rw [termLoop_star n r s c] at h
        obtain ⟨_, s1, h1, h2⟩ := Res.bind_eq_ok h
        obtain ⟨_, s2, h3, h4⟩ := Res.bind_eq_ok h2
        have := (hμ.1 _ _ _ h1).1
        have := hF _ _ _ h3
        have := hTL _ _ _ _ h4
        omega
      · rw [termLoop_exit n r s c] at h
        simp only [Res.ok.injEq] at h
        rw [← h.2]
    · intro s v s' h
      rw [parseTerm_succ] at h
      obtain ⟨_, s1, h1, h2⟩ := Res.bind_eq_ok h
      have := hF _ _ _ h1
      have := hTL _ _ _ _ h2
      omega
    · intro r s v s' h
      by_cases c : s.current.isSign
      · rw [expLoop_sign n r s c] at h
        obtain ⟨_, s1, h1, h2⟩ := Res.bind_eq_ok h
        obtain ⟨_, s2, h3, h4⟩ := Res.bind_eq_ok h2
        have := (hμ.1 _ _ _ h1).1
        have := hT _ _ _ h3
        have := hEL _ _ _ _ h4
        omega
      · rw [expLoop_exit n r s c] at h
        simp only [Res.ok.injEq] at h
        rw [← h.2]
    · intro s v s' h
      rw [parseExp_succ] at h
      obtain ⟨_, s1, h1, h2⟩ := Res.bind_eq_ok h
      have := hT _ _ _ h1
      have := hEL _ _ _ _ h2
      omega

theorem enough_of {μ : Interpreter → Nat} (hμ : Consumes μ) (n : Nat) :
    (∀ s, 3 * μ s + 1 ≤ n → parseFact n s ≠ .outOfFuel) ∧
    (∀ r s, 3 * μ s + 1 ≤ n → termLoop n r s ≠ .outOfFuel) ∧
    (∀ s, 3 * μ s + 2 ≤ n → parseTerm n s ≠ .outOfFuel) ∧
    (∀ r s, 3 * μ s + 1 ≤ n → expLoop n r s ≠ .outOfFuel) ∧
    (∀ s, 3 * μ s + 3 ≤ n → parseExp n s ≠ .outOfFuel) := by
  induction n with
  | zero => refine ⟨?_, ?_, ?_, ?_, ?_⟩ <;> intros <;> omega
  | succ n ih =>
    obtain ⟨hF, hTL, hT, hEL, hE⟩ := ih
    refine ⟨?_, ?_, ?_, ?_, ?_⟩
    · intro s hn
      rcases parseFact_branches s with c | c | c | c | ⟨c1, c2, c3, c4⟩
      · rw [parseFact_sign n s c]
        have hpos : s.current.type ≠ .END := by rw [c.1]; decide
        refine Res.bind_ne_outOfFuel (next_ne_outOfFuel _) (fun _ s1 h1 => ?_)
        have := (hμ.1 _ _ _ h1).2 hpos
        exact Res.bind_ne_outOfFuel (hF s1 (by omega)) (fun _ _ _ => by simp)
      · rw [parseFact_num n s c]
        split
        · simp
        · exact Res.bind_ne_outOfFuel (next_ne_outOfFuel _) (fun _ _ _ => by simp)
      · rw [parseFact_id n s c]
        exact readVar_ne_outOfFuel s
      · rw [parseFact_lparen n s c]
        have hpos : s.current.type ≠ .END := by rw [c]; decide
        refine Res.bind_ne_outOfFuel (next_ne_outOfFuel _) (fun _ s1 h1 => ?_)
        have := (hμ.1 _ _ _ h1).2 hpos
        refine Res.bind_ne_outOfFuel (hE s1 (by omega)) (fun _ s2 _ => ?_)
        refine Res.bind_ne_outOfFuel (expect_ne_outOfFuel _ _) (fun _ s3 _ => ?_)
        exact Res.bind_ne_outOfFuel (next_ne_outOfFuel _) (fun _ _ _ => by simp)
      · rw [parseFact_other n s c1 c2 c3 c4]
        simp
    · intro r s hn
      by_cases c : s.current.type = .OP ∧ s.current.value = "*"
      · rw [termLoop_star n r s c]
        have hpos : s.current.type ≠ .END := by rw [c.1]; decide
        refine Res.bind_ne_outOfFuel (next_ne_outOfFuel _) (fun _ s1 h1 => ?_)
        have := (hμ.1 _ _ _ h1).2 hpos
        refine Res.bind_ne_outOfFuel (hF s1 (by omega)) (fun _ s2 h2 => ?_)
        have := (progress_of hμ n).1 _ _ _ h2
        exact hTL _ s2 (by omega)
      · rw [termLoop_exit n r s c]
        simp
    · intro s hn
      rw [parseTerm_succ]
      refine Res.bind_ne_outOfFuel (hF s (by omega)) (fun _ s1 h1 => ?_)
      have := (progress_of hμ n).1 _ _ _ h1
      exact hTL _ s1 (by omega)
    · intro r s hn
      by_cases c : s.current.isSign
      · rw [expLoop_sign n r s c]
        have hpos : s.current.type ≠ .END := by rw [c.1]; decide
        refine Res.bind_ne_outOfFuel (next_ne_outOfFuel _) (fun _ s1 h1 => ?_)
        have := (hμ.1 _ _ _ h1).2 hpos
        refine Res.bind_ne_outOfFuel (hT s1 (by omega)) (fun _ s2 h2 => ?_)
        have := (progress_of hμ n).2.2.1 _ _ _ h2
        exact hEL _ s2 (by omega)
      · rw [expLoop_exit n r s c]
        simp
    · intro s hn
      rw [parseExp_succ]
      refine Res.bind_ne_outOfFuel (hT s (by omega)) (fun _ s1 h1 => ?_)
      have := (progress_of hμ n).2.2.1 _ _ _ h1
      exact hEL _ s1 (by omega)

theorem parseAssignment_returns_of {μ : Interpreter → Nat} (hμ : Consumes μ) (n : Nat)
    (s : Interpreter)
    (hn : 3 * μ s ≤ n + 3) : parseAssignment n s ≠ .outOfFuel := by
  unfold parseAssignment
  refine Res.bind_ne_outOfFuel (expect_ne_outOfFuel _ _) (fun _ s1 h1 => ?_)
  obtain ⟨rfl, hid⟩ := expect_eq_ok h1
  refine Res.bind_ne_outOfFuel (next_ne_outOfFuel _) (fun _ s2 h2 => ?_)
  have := (hμ.1 _ _ _ h2).2 (by rw [hid]; decide)
  refine Res.bind_ne_outOfFuel (expect_ne_outOfFuel _ _) (fun _ s3 h3 => ?_)
  obtain ⟨rfl, has⟩ := expect_eq_ok h3
  refine Res.bind_ne_outOfFuel (next_ne_outOfFuel _) (fun _ s4 h4 => ?_)
  have := (hμ.1 _ _ _ h4).2 (by rw [has]; decide)
  refine Res.bind_ne_outOfFuel ((enough_of hμ n).2.2.2.2 s4 (by omega)) (fun _ s5 _ => ?_)
  refine Res.bind_ne_outOfFuel (expect_ne_outOfFuel _ _) (fun _ s6 _ => ?_)
  exact Res.bind_ne_outOfFuel (next_ne_outOfFuel _) (fun _ _ _ => by simp)

theorem parseAssignment_measure {μ : Interpreter → Nat} (hμ : Consumes μ) {n : Nat}
    {s s' : Interpreter} {u : Unit}
    (h : parseAssignment n s = .ok u s') : μ s' < μ s := by
  obtain ⟨s2, s4, v, s5, s7, _, h2, _, h4, h5, _, h7, hs⟩ := parseAssignment_eq_ok h
  have := (hμ.1 _ _ _ h2).1
  have := (hμ.1 _ _ _ h4).1
  have := (progress_of hμ n).2.2.2.2 _ _ _ h5
  have := (hμ.1 _ _ _ h7).1
  have e : μ s' = μ s7 := by rw [hs]; exact hμ.2 _ _ _
  omega

theorem stmtLoop_returns_of {μ : Interpreter → Nat} (hμ : Consumes μ) (n : Nat) :
    ∀ s, 3 * μ s + 1 ≤ n → stmtLoop n s ≠ .outOfFuel := by
  induction n with
  | zero => intros; omega
  | succ n ih =>
    intro s hn
    rw [stmtLoop_succ]
    split_ifs with c
    · refine Res.bind_ne_outOfFuel (parseAssignment_returns_of hμ n s (by omega))
        (fun _ s1 h1 => ?_)
      have := parseAssignment_measure hμ h1
      exact ih s1 (by omega)
    · simp

/-! ## Termination -/

/-- The whitespace loop stops because its condition fails, not because the
bound on its iterations is reached. -/
theorem skipWhile_exit (p : Char → Bool) (input : List Char) : ∀ (fuel pos : Nat),
    input.length - pos ≤ fuel →
    ¬ (skipWhile p input fuel pos < input.length ∧
      p (charAt input (skipWhile p input fuel pos)) = true) := by
  intro fuel
  induction fuel with
  | zero =>
    intro pos h
    simp only [skipWhile]
    intro hc
    omega
  | succ fuel ih =>
    intro pos h
    by_cases c : (decide (pos < input.length) && p (charAt input pos)) = true
    · simp only [skipWhile, c, if_true]
      exact ih (pos + 1) (by omega)
    · simp only [skipWhile, c, if_false, Bool.false_eq_true]
      intro hc
      exact c (by simp [hc.1, hc.2])

/-- The scanning loop stops because its condition fails. -/
theorem scanWhile_exit (p : Char → Bool) (input : List Char) : ∀ (fuel : Nat) (acc : String)
    (pos : Nat), input.length - pos ≤ fuel →
    ¬ ((scanWhile p input fuel acc pos).2 < input.length ∧
      p (charAt input (scanWhile p input fuel acc pos).2) = true) := by
  intro fuel
  induction fuel with
  | zero =>
    intro acc pos h
    simp only [scanWhile]
    intro hc
    omega
  | succ fuel ih =>
    intro acc pos h
    by_cases c : (decide (pos < input.length) && p (charAt input pos)) = true
    · simp only [scanWhile, c, if_true]
      exact ih _ (pos + 1) (by omega)
    · simp only [scanWhile, c, if_false, Bool.false_eq_true]
      intro hc
      exact c (by simp [hc.1, hc.2])

theorem tokensLeft_new (input : List Char) :
    tokensLeft (Interpreter.new input) = tokenCount input := rfl

theorem run_returns_of_tokens (input : List Char) (n : Nat)
    (hn : 3 * tokenCount input + 1 ≤ n) : run n (Interpreter.new input) ≠ .outOfFuel := by
  unfold run
  refine Res.bind_ne_outOfFuel (next_ne_outOfFuel _) (fun _ s1 h1 => ?_)
  have h := (next_tokens_le h1).1
  rw [tokensLeft_new] at h
  exact stmtLoop_returns_of tokensLeft_consumes n s1 (by omega)

theorem execute_ne_outOfFuel (input : List Char) : execute input ≠ .outOfFuel := by
  unfold execute
  have h := run_ne_outOfFuel input
  cases hr : run (fuelFor input) (Interpreter.new input) with
  | ok u s => simp
  | throw e s =>
    dsimp only
    split_ifs <;> simp
  | outOfFuel => exact absurd hr h

theorem parseAssignment_fails_or_consumes (n : Nat) (s : Interpreter)
    (hn : 3 * tokensLeft s ≤ n + 3) :
    (∃ e st, parseAssignment n s = .throw e st) ∨
    (∃ s', parseAssignment n s = .ok () s' ∧ tokensLeft s' < tokensLeft s) := by
  have h := parseAssignment_returns_of tokensLeft_consumes n s hn
  cases hr : parseAssignment n s with
  | ok u s' => exact Or.inr ⟨s', rfl, parseAssignment_measure tokensLeft_consumes hr⟩
  | throw e st => exact Or.inl ⟨e, st, rfl⟩
  | outOfFuel => exact absurd hr h

/-! ## Claims -/

/-- C1: for every source text whose token sequence is that of a list of
grammatical assignment statements in which every variable reference names a
variable assigned by an earlier statement and no literal or intermediate
result overflows `int`, `execute` finishes without error, printing the store,
and the value the store finally holds for a variable is the reference
evaluator's value of the right-hand side of the last assignment to it, taken
in the reference environment of that statement. -/
theorem valid_program_final_values (input : List Char) (prog : List Stmt)
    (hlex : (lexes ⟨input, 0⟩ (progToks prog ++ [⟨.END, ""⟩])).isSome = true)
    (hg : Grammatical prog) (hs : WellScoped [] prog) (ho : NoOverflow emptyEnv prog) :
    ∃ sF, run (fuelFor input) (Interpreter.new input) = .ok () sF ∧
      execute input = .returned (sF.vars.map reportLine) ∧
      ∀ pre st post, prog = pre ++ st :: post → (∀ st' ∈ post, st'.name ≠ st.name) →
        find sF.initialized st.name = some true ∧
        find sF.vars st.name = some (st.rhs.eval (refRun pre emptyEnv)) := by
  obtain ⟨lx', hlx⟩ := Option.isSome_iff_exists.mp hlex
  obtain ⟨s1, s', h1, h2, h3⟩ := lexes_feeds (progToks prog) ⟨.END, ""⟩
    (Interpreter.new input) lx' hlx
  have ha : Agree s1 emptyEnv [] := fun x hx => absurd hx (List.not_mem_nil x)
  obtain ⟨n, sF, hn, _, haF⟩ := stmts_sound prog emptyEnv [] s1 s' h2 (by rw [h3]) ha hg hs ho
  have hrun : run n (Interpreter.new input) = .ok () sF := by
    unfold run
    rw [h1, Res.bind_ok, hn]
  refine ⟨sF, run_eq_of_fuel hrun (by simp), execute_of_run_ok hrun, ?_⟩
  intro pre st post hp hpost
  have hmem : st ∈ prog := by rw [hp]; simp
  have := haF st.name (mem_assigned prog [] st hmem)
  rw [hp, refRun_append, refRun, refRun_not_assigned post _ _ hpost,
    Function.update_same] at this
  exact this

theorem valid_program_final_values_witness :
    (lexes ⟨sampleText, 0⟩ (progToks sampleProg ++ [⟨.END, ""⟩])).isSome = true ∧
    Grammatical sampleProg ∧ WellScoped [] sampleProg ∧ NoOverflow emptyEnv sampleProg ∧
    ∃ sF, run (fuelFor sampleText) (Interpreter.new sampleText) = .ok () sF ∧
      execute sampleText = .returned (sF.vars.map reportLine) ∧
      ∀ pre st post, sampleProg = pre ++ st :: post →
        (∀ st' ∈ post, st'.name ≠ st.name) →
        find sF.initialized st.name = some true ∧
        find sF.vars st.name = some (st.rhs.eval (refRun pre emptyEnv)) :=
  ⟨by decide, by decide, by decide, by decide,
    valid_program_final_values sampleText sampleProg (by decide) (by decide) (by decide)
      (by decide)⟩

/-- C2: for number literals `a`, `b`, `c` written without leading zeros, with
no overflow, the program `x = a + b * c;` prints exactly the line `x = v`
with `v = a + (b * c)`. -/
theorem product_binds_tighter (a b c : String) (ha : IsLiteral a) (hb : IsLiteral b)
    (hc : IsLiteral c) (hra : (decimal a.data : Int) ≤ INT_MAX)
    (hrb : (decimal b.data : Int) ≤ INT_MAX) (hrc : (decimal c.data : Int) ≤ INT_MAX)
    (hmul : InRange ((decimal b.data : Int) * decimal c.data))
    (hadd : InRange ((decimal a.data : Int) + decimal b.data * decimal c.data)) :
    execute (sumProductText a b c) =
      .returned ["x = " ++ toString ((decimal a.data : Int) + decimal b.data * decimal c.data)] := by
  have hlex := lexes_of_lexesList _ [] _ _ (lexesList_sumProduct a b c ha hb hc)
  exact single_stmt_output (sumProductText a b c) (sumProductStmt a b c) hlex rfl
    (fun x hx => by simp [sumProductStmt, Tree.vars] at hx)
    ⟨hra, ⟨hrb, hrc, hmul⟩, hadd⟩

theorem product_binds_tighter_witness :
    IsLiteral "2" ∧ IsLiteral "3" ∧ IsLiteral "4" ∧
    (decimal "2".data : Int) ≤ INT_MAX ∧ (decimal "3".data : Int) ≤ INT_MAX ∧
    (decimal "4".data : Int) ≤ INT_MAX ∧
    InRange ((decimal "3".data : Int) * decimal "4".data) ∧
    InRange ((decimal "2".data : Int) + decimal "3".data * decimal "4".data) ∧
    execute "x = 2 + 3 * 4;".data = .returned ["x = 14"] :=
  ⟨by decide, by decide, by decide, by decide, by decide, by decide, by decide, by decide,
    product_binds_tighter "2" "3" "4" (by decide) (by decide) (by decide) (by decide)
      (by decide) (by decide) (by decide) (by decide)⟩

/-- C3: a unary sign acts on the whole following factor.  Whenever the factor
after the sign is evaluated by `parseFact` to `v`, leaving the state `s2`,
`parseFact` on the sign returns `-v` for `-` (when `-v` is representable) and
`v` for `+`, and leaves the same state `s2`: the tokens consumed are the sign
and those of the factor.  The factor is arbitrary (parenthesised, or signed
itself).  In particular `x = -(3 - 5);` prints `x = 2`. -/
theorem unary_sign_applies_to_factor (s s1 s2 : Interpreter) (n : Nat) (v : Int)
    (hty : s.current.type = .OP) (hnext : next s = .ok () s1)
    (hF : parseFact n s1 = .ok v s2) :
    (s.current.value = "-" → InRange (-v) → parseFact (n + 1) s = .ok (-v) s2) ∧
    (s.current.value = "+" → parseFact (n + 1) s = .ok v s2) ∧
    execute "x = -(3 - 5);".data = .returned ["x = 2"] := by
  refine ⟨?_, ?_, execute_valid "x = -(3 - 5);".data negParenProg (by decide) (by decide)
    (by decide) (by decide)⟩
  · intro hval hr
    rw [parseFact_sign n s ⟨hty, Or.inr hval⟩, hnext, Res.bind_ok, hF, Res.bind_ok, hval,
      if_neg (by decide), wrap_eq hr]
  · intro hval
    rw [parseFact_sign n s ⟨hty, Or.inl hval⟩, hnext, Res.bind_ok, hF, Res.bind_ok, hval,
      if_pos rfl]

theorem unary_sign_applies_to_factor_witness :
    signState.current.type = .OP ∧
    next signState = .ok () (next signState).state ∧
    parseFact 5 (next signState).state
      = .ok (-2) (parseFact 5 (next signState).state).state ∧
    signState.current.value = "-" ∧ InRange (-(-2)) ∧
    parseFact (5 + 1) signState = .ok (-(-2)) (parseFact 5 (next signState).state).state :=
  ⟨by decide, by decide, by decide, by decide, by decide,
    (unary_sign_applies_to_factor signState (next signState).state
      (parseFact 5 (next signState).state).state 5 (-2) (by decide) (by decide)
      (by decide)).1 (by decide) (by decide)⟩

/-- C4: use of an unassigned variable is fatal and suppresses all variable
output.  For every source text that consists of a valid statement list, then
`y =` and an expression read (along any grammatical path with evaluable
operands) up to an identifier factor `x` that no earlier statement assigns
(`x` may be `y`), the run fails with `UninitializedError` at that factor, the
store still holding the values of the earlier statements, and `execute` prints
the single line `error` and no `name = value` line. -/
theorem uninitialized_use_is_fatal (input : List Char) (pre : List Stmt) (y x : String)
    (p : Path)
    (hlex : (lexes ⟨input, 0⟩
      ((progToks pre ++ ⟨.ID, y⟩ :: ⟨.ASSIGN, "="⟩ :: p.toks) ++ [⟨.ID, x⟩])).isSome = true)
    (hg : Grammatical pre) (hs : WellScoped [] pre) (ho : NoOverflow emptyEnv pre)
    (hpg : p.grammatical = true) (hps : p.Scoped (assigned [] pre))
    (hpo : p.NoOverflow (refRun pre emptyEnv))
    (hx : ∀ st ∈ pre, st.name ≠ x) :
    ∃ st, run (fuelFor input) (Interpreter.new input) = .throw .UninitializedError st ∧
      st.current = ⟨.ID, x⟩ ∧
      st.vars = (storeAfter pre emptyEnv ([], [])).1 ∧
      execute input = .returned ["error"] := by
  obtain ⟨sh, hcur, hv, hi, hrun⟩ := reach_factor input pre y p ⟨.ID, x⟩ hlex hg hs ho hpg hps hpo
  have hfind : find sh.initialized sh.current.value = none := by
    rw [hi, hcur, storeAfter_init pre emptyEnv ([], []) x hx]
    rfl
  have hthrow : parseFact 1 sh = .throw .UninitializedError
      { sh with initialized := assign sh.initialized sh.current.value false } := by
    rw [parseFact_id 0 sh (by rw [hcur]), readVar_uninitialized sh hfind]
  obtain ⟨n, hn⟩ := hrun _ _ ⟨1, hthrow⟩
  exact ⟨_, run_eq_of_fuel hn (by simp), hcur, hv, execute_of_run_throw hn⟩

theorem uninitialized_use_is_fatal_witness :
    (lexes ⟨"a = 1; y = x;".data, 0⟩
      ((progToks uninitPre ++ ⟨.ID, "y"⟩ :: ⟨.ASSIGN, "="⟩ :: Path.hole.toks)
        ++ [⟨.ID, "x"⟩])).isSome = true ∧
    Grammatical uninitPre ∧ WellScoped [] uninitPre ∧ NoOverflow emptyEnv uninitPre ∧
    (∀ st ∈ uninitPre, st.name ≠ "x") ∧
    ∃ st, run (fuelFor "a = 1; y = x;".data) (Interpreter.new "a = 1; y = x;".data)
        = .throw .UninitializedError st ∧
      st.current = ⟨.ID, "x"⟩ ∧
      st.vars = (storeAfter uninitPre emptyEnv ([], [])).1 ∧
      execute "a = 1; y = x;".data = .returned ["error"] :=
  ⟨by decide, by decide, by decide, by decide, by decide,
    uninitialized_use_is_fatal "a = 1; y = x;".data uninitPre "y" "x" .hole (by decide)
      (by decide) (by decide) (by decide) (by decide) (by decide) (by decide) (by decide)⟩

/-- C5: leading zeros are rejected.  At a cursor followed by any whitespace,
then `0`, then a digit, `nextToken` fails with `SyntaxError` and returns no
token; and executing `x = 01;` ends in the generic error with nothing
assigned. -/
theorem leading_zero_rejected (pre ws rest : List Char) (d : Char)
    (hws : ∀ c ∈ ws, isspace c = true) (hd : isdigit d = true) :
    (Lexer.nextToken ⟨pre ++ (ws ++ '0' :: d :: rest), pre.length⟩).1
      = .error .SyntaxError ∧
    execute "x = 01;".data = .returned ["error"] ∧
    run (fuelFor "x = 01;".data) (Interpreter.new "x = 01;".data)
      = .throw .SyntaxError ⟨⟨"x = 01;".data, 4⟩, ⟨.ASSIGN, "="⟩, [], []⟩ := by
  refine ⟨?_, by decide, by decide⟩
  have h0 : isspace '0' = false := by decide
  have h1 : (isalpha '0' || decide ('0' = '_')) = false := by decide
  have h2 : isdigit '0' = true := by decide
  rw [nextToken_append]
  unfold lexList
  rw [List.dropWhile_append_of_pos hws, List.dropWhile_cons, if_neg (by rw [h0]; simp)]
  simp only [h1, h2, List.headD_cons, hd, Bool.false_eq_true, if_false, if_true,
    decide_True, Bool.and_self]

theorem leading_zero_rejected_witness :
    (∀ c ∈ " \t".data, isspace c = true) ∧ isdigit '7' = true ∧
    (Lexer.nextToken
      ⟨"x =".data ++ (" \t".data ++ '0' :: '7' :: ";".data), "x =".data.length⟩).1
      = .error .SyntaxError :=
  ⟨by decide, by decide, (leading_zero_rejected "x =".data " \t".data ";".data '7'
    (by decide) (by decide)).1⟩

/-- C7: re-assignment overwrites and keeps one binding per name.  For every
store with the invariant and every successful `parseAssignment` of a name
`x`: the statement starts with the identifier `x`, `next` leads to `=` and
then to the state `s4` at the right-hand side, whose maps are those from
before the statement; `parseExp` evaluates the right-hand side from `s4` to
`v` and stops at `;`; afterwards `x` maps to `v`, its flag is true, `vars` has
exactly one binding for `x` (hence the report has exactly one line for `x`,
with that value), the other names are untouched and the invariant holds
again.  When the tokens of the statement are those of `x = E;` for a
grammatical expression `E` without overflow whose variables the store holds,
the value stored is the value of `E` in the store from before the statement,
so `E` may read the old value of `x`.  In particular `x = 1; x = x + 1;`
prints exactly `x = 2`. -/
theorem reassignment_overwrites (n : Nat) (s s' : Interpreter) (hinv : StoreInv s)
    (h : parseAssignment n s = .ok () s') :
    (∃ s2 s4 v s5 s7, s.current.type = .ID ∧ next s = .ok () s2 ∧
      s2.current.type = .ASSIGN ∧ next s2 = .ok () s4 ∧
      s4.vars = s.vars ∧ s4.initialized = s.initialized ∧
      parseExp n s4 = .ok v s5 ∧ s5.current.type = .SEMICOLON ∧ next s5 = .ok () s7 ∧
      s' = withStore s7 (assign s.vars s.current.value v)
        (assign s.initialized s.current.value true) ∧
      find s'.vars s.current.value = some v ∧
      find s'.initialized s.current.value = some true ∧
      s'.vars.filter (fun p => p.1 = s.current.value) = [(s.current.value, v)] ∧
      (s'.vars.filter (fun p => p.1 = s.current.value)).map reportLine
        = [s.current.value ++ " = " ++ toString v]) ∧
    (∀ y, y ≠ s.current.value → find s'.vars y = find s.vars y) ∧
    StoreInv s' ∧
    (∀ (ρ : String → Int) (D : List String) (st : Stmt) (sE : Interpreter),
      Feeds s st.toks sE → Agree s ρ D → st.rhs.grammatical = true → st.rhs.Scoped D →
      st.rhs.NoOverflow ρ →
      s.current.value = st.name ∧
      s' = withStore sE (assign s.vars st.name (st.rhs.eval ρ))
        (assign s.initialized st.name true) ∧
      find s'.vars st.name = some (st.rhs.eval ρ) ∧
      s'.vars.filter (fun p => p.1 = st.name) = [(st.name, st.rhs.eval ρ)]) ∧
    execute "x = 1; x = x + 1;".data = .returned ["x = 2"] := by
  have hinv' := parseAssignment_inv hinv h
  obtain ⟨s2, s4, v, s5, s7, hid, h2, has, h4, h5, hsc, h7, hs⟩ := parseAssignment_eq_ok h
  have a := next_store h2
  have b := next_store h4
  have i4 : StoreInv s4 := (hinv.transfer a.1 a.2).transfer b.1 b.2
  have c := (frame_ok n).2.2.2.2 _ _ _ i4 h5
  have d := next_store h7
  have hv7 : s7.vars = s.vars := d.1.trans (c.1.trans (b.1.trans a.1))
  have hi7 : s7.initialized = s.initialized := d.2.trans (c.2.trans (b.2.trans a.2))
  have hs2 : s' = withStore s7 (assign s.vars s.current.value v)
      (assign s.initialized s.current.value true) := by
    rw [hs, hv7, hi7]
    rfl
  have hfv : find s'.vars s.current.value = some v := by
    rw [hs]; simp [find_assign]
  have hflt := filter_key_eq s'.vars hinv'.1 _ _ hfv
  refine ⟨⟨s2, s4, v, s5, s7, hid, h2, has, h4, b.1.trans a.1, b.2.trans a.2, h5, hsc, h7, hs2,
    hfv, ?_, hflt, ?_⟩, ?_, hinv', ?_,
    execute_valid "x = 1; x = x + 1;".data incrProg (by decide) (by decide) (by decide)
      (by decide)⟩
  · rw [hs]; simp [find_assign]
  · rw [hflt]; rfl
  · intro y hy
    rw [hs]
    simp only [find_assign, hv7]
    rw [if_neg (fun e => hy e.symm)]
  · intro ρ D st sE hf ha hg hsc' ho
    obtain ⟨m, hm⟩ := stmt_sound hf ha hg hsc' ho
    have e1 := parseAssignment_mono (Nat.le_max_left n m) s (by rw [h]; simp)
    have e2 := parseAssignment_mono (Nat.le_max_right n m) s (by rw [hm]; simp)
    rw [h] at e1
    rw [hm, e1] at e2
    simp only [Res.ok.injEq, true_and] at e2
    have hname : s.current.value = st.name := by
      have := hf.1
      rw [this]
    have hst := Feeds.store hf
    rw [hst.1, hst.2] at e2
    have hval : find s'.vars st.name = some (st.rhs.eval ρ) := by
      rw [e2]
      simp [withStore, find_assign]
    exact ⟨hname, e2, hval, filter_key_eq s'.vars hinv'.1 _ _ hval⟩

/-- An instance of C7: from the state in which `x` holds 1, the statement
`x = x + 1;` stores 2, the value of `x + 1` where `x` is 1. -/
theorem reassignment_overwrites_witness :
    StoreInv incrState ∧
    parseAssignment 4 incrState = .ok () (parseAssignment 4 incrState).state ∧
    (parseAssignment 4 incrState).state.vars = [("x", 2)] ∧
    StoreInv (parseAssignment 4 incrState).state ∧
    find (parseAssignment 4 incrState).state.vars "x" = some (1 + 1) :=
  ⟨⟨by decide, fun y => by simp [incrState, find, keys, eq_comm]⟩, by decide, by decide,
    (reassignment_overwrites 4 incrState (parseAssignment 4 incrState).state
      ⟨by decide, fun y => by simp [incrState, find, keys, eq_comm]⟩ (by decide)).2.2.1,
    ((reassignment_overwrites 4 incrState (parseAssignment 4 incrState).state
      ⟨by decide, fun y => by simp [incrState, find, keys, eq_comm]⟩ (by decide)).2.2.2.1
      (fun _ => 1) ["x"] ⟨"x", .add (.var "x") (.num "1")⟩
      (next (next (next (next (next (next incrState).state).state).state).state).state).state
      ⟨rfl, _, rfl, rfl, _, rfl, rfl, _, rfl, rfl, _, rfl, rfl, _, rfl, rfl, _, rfl, rfl⟩
      (fun x hx => by
        have : x = "x" := by simpa using hx
        subst this
        exact ⟨rfl, rfl⟩)
      rfl (by decide) (by decide)).2.2.1⟩

/-- C8 (failing input): the literal of `x = 99999999999999999999;` makes
`std::stoi` throw `std::out_of_range`, which is not a `runtime_error`: the
exception leaves `execute` and no line is printed.  The same happens at the
first value above `INT_MAX`, while `INT_MAX` itself is accepted. -/
theorem stoi_out_of_range_escapes :
    execute "x = 99999999999999999999;".data = .escaped .OutOfRange ∧
    execute "x = 2147483648;".data = .escaped .OutOfRange ∧
    execute "x = 2147483647;".data = .returned ["x = 2147483647"] := by
  refine ⟨by decide, by decide, by decide⟩

/-- C9: the two error kinds are indistinguishable in the output.  Whenever the
run of one source text raises `SyntaxError` and the run of another raises
`UninitializedError`, `execute` prints for both the single line `error` and
nothing else. -/
theorem error_kinds_same_output (input1 input2 : List Char) (k1 k2 : Nat)
    (st1 st2 : Interpreter)
    (h1 : run k1 (Interpreter.new input1) = .throw .SyntaxError st1)
    (h2 : run k2 (Interpreter.new input2) = .throw .UninitializedError st2) :
    execute input1 = .returned ["error"] ∧ execute input2 = .returned ["error"] ∧
    execute input1 = execute input2 := by
  have e1 := execute_of_run_throw h1
  have e2 := execute_of_run_throw h2
  rw [e1, e2]
  exact ⟨rfl, rfl, rfl⟩

theorem error_kinds_same_output_witness :
    run 5 (Interpreter.new "x = 01;".data)
      = .throw .SyntaxError (run 5 (Interpreter.new "x = 01;".data)).state ∧
    run 5 (Interpreter.new "y = x;".data)
      = .throw .UninitializedError (run 5 (Interpreter.new "y = x;".data)).state ∧
    execute "x = 01;".data = .returned ["error"] ∧
    execute "y = x;".data = .returned ["error"] ∧
    execute "x = 01;".data = execute "y = x;".data :=
  ⟨by decide, by decide,
    error_kinds_same_output "x = 01;".data "y = x;".data 5 5
      (run 5 (Interpreter.new "x = 01;".data)).state
      (run 5 (Interpreter.new "y = x;".data)).state (by decide) (by decide)⟩

/-- C10: on a run that ends without error, the output of `execute` is the
report of `vars`; `vars` has one binding per name, and the names bound in
`vars` are exactly the names whose `initialized` flag is true; hence for any
duplicate-free enumeration of the initialized names the output is, up to the
order of lines, the list of lines `name = value` with the final values.  A
whitespace-only program prints nothing. -/
theorem report_lists_initialized (input : List Char) (k : Nat) (sF : Interpreter)
    (h : run k (Interpreter.new input) = .ok () sF) :
    execute input = .returned (sF.vars.map reportLine) ∧
    (keys sF.vars).Nodup ∧
    (∀ x, x ∈ keys sF.vars ↔ find sF.initialized x = some true) ∧
    (∀ names : List String, names.Nodup →
      (∀ x, x ∈ names ↔ find sF.initialized x = some true) →
      (sF.vars.map reportLine).Perm
        (names.map fun x => x ++ " = " ++ toString ((find sF.vars x).getD 0))) ∧
    (∀ ws : List Char, (∀ c ∈ ws, isspace c = true) → execute ws = .returned []) := by
  have hinv := run_inv h
  refine ⟨execute_of_run_ok h, hinv.1, fun x => (hinv.2 x).symm, ?_, execute_spaces⟩
  intro names hnd hmem
  rw [map_keys_find sF.vars hinv.1]
  apply List.Perm.map
  rw [List.perm_ext_iff_of_nodup hinv.1 hnd]
  intro x
  rw [hmem x, hinv.2 x]

theorem report_lists_initialized_witness :
    run 5 (Interpreter.new "x = 7;".data)
      = .ok () (run 5 (Interpreter.new "x = 7;".data)).state ∧
    execute "x = 7;".data
      = .returned ((run 5 (Interpreter.new "x = 7;".data)).state.vars.map reportLine) :=
  ⟨by decide, (report_lists_initialized "x = 7;".data 5
    (run 5 (Interpreter.new "x = 7;".data)).state (by decide)).1⟩

/-- C11: Only a successful assignment changes the variable store.  With
a recursion budget that suffices for the text left, `parseFact`, `parseTerm`
and `parseExp` return or throw, and in the state they leave every name reads
as before: `vars[x]` yields the same value and `initialized[x]` the same flag,
a missing name reading as 0 and not initialized (and under the store invariant
the value map is literally the same).  A `parseAssignment` that throws leaves
the store like that too; one that succeeds changes what is read of no name
other than its target, and its target then reads as initialized. -/
theorem only_assignment_changes_store (n : Nat) (s : Interpreter)
    (hn : 3 * remaining s + 3 ≤ n) :
    (parseFact n s ≠ .outOfFuel ∧ SameStore (parseFact n s).state s) ∧
    (parseTerm n s ≠ .outOfFuel ∧ SameStore (parseTerm n s).state s) ∧
    (parseExp n s ≠ .outOfFuel ∧ SameStore (parseExp n s).state s) ∧
    parseAssignment n s ≠ .outOfFuel ∧
    (∀ e st, parseAssignment n s = .throw e st → SameStore st s) ∧
    (∀ s', parseAssignment n s = .ok () s' →
      (∀ x, x ≠ s.current.value → lookup s' x = lookup s x) ∧
      (lookup s' s.current.value).2 = true ∧
      (StoreInv s → ∃ v, s'.vars = assign s.vars s.current.value v)) := by
  have hF := (enough n).1 s (by omega)
  have hT := (enough n).2.2.1 s (by omega)
  have hE := (enough n).2.2.2.2 s hn
  refine ⟨⟨hF, ((keeps_all n).1 s).state hF⟩, ⟨hT, ((keeps_all n).2.2.1 s).state hT⟩,
    ⟨hE, ((keeps_all n).2.2.2.2 s).state hE⟩,
    parseAssignment_ne_outOfFuel n s (by omega),
    fun e st h => parseAssignment_throw_keeps h, fun s' h => ?_⟩
  obtain ⟨v, s7, hk, hs⟩ := parseAssignment_ok_store h
  refine ⟨fun x hx => ?_, ?_, fun hinv => ⟨v, ?_⟩⟩
  · rw [← hk.1 x, lookup_eq, lookup_eq, hs]
    dsimp only
    rw [find_assign, find_assign, if_neg (Ne.symm hx), if_neg (Ne.symm hx)]
  · rw [lookup_flag_iff, hs]
    dsimp only
    rw [find_assign, if_pos rfl]
  · rw [hs]
    dsimp only
    rw [hk.2 hinv]

/-- An instance of C11: the state holding `a = 4` about to evaluate
`a * (b + 1)`, where `b` is not initialized. -/
theorem only_assignment_changes_store_witness :
    3 * remaining frameState + 3 ≤ 40 ∧
    ((parseFact 40 frameState ≠ .outOfFuel ∧
        SameStore (parseFact 40 frameState).state frameState) ∧
      (parseTerm 40 frameState ≠ .outOfFuel ∧
        SameStore (parseTerm 40 frameState).state frameState) ∧
      (parseExp 40 frameState ≠ .outOfFuel ∧
        SameStore (parseExp 40 frameState).state frameState) ∧
      parseAssignment 40 frameState ≠ .outOfFuel ∧
      (∀ e st, parseAssignment 40 frameState = .throw e st → SameStore st frameState) ∧
      (∀ s', parseAssignment 40 frameState = .ok () s' →
        (∀ x, x ≠ frameState.current.value → lookup s' x = lookup frameState x) ∧
        (lookup s' frameState.current.value).2 = true ∧
        (StoreInv frameState → ∃ v, s'.vars = assign frameState.vars frameState.current.value v))) :=
  ⟨by decide, only_assignment_changes_store 40 frameState (by decide)⟩

/-- C12: A token mismatch at a required position is a `SyntaxError`.
`parseAssignment` throws it when the current token is not an identifier (so
the statement loop, which runs it on every token other than `END`, throws it
too, and `execute` prints `error` for a text whose first token is neither an
identifier nor `END`), when the token after the identifier is not `=`, and
when the token after the evaluated right-hand side is not `;`.  `parseFact`
throws it when the token after the evaluated parenthesised expression is not
`)`.  The state left is the one at the offending token. -/
theorem token_mismatch_is_syntax_error (n : Nat) (s : Interpreter) :
    (s.current.type ≠ .ID → parseAssignment n s = .throw .SyntaxError s) ∧
    (s.current.type ≠ .ID → s.current.type ≠ .END →
      stmtLoop (n + 1) s = .throw .SyntaxError s) ∧
    (∀ input t, (Lexer.nextToken ⟨input, 0⟩).1 = .ok t → t.type ≠ .ID → t.type ≠ .END →
      execute input = .returned ["error"]) ∧
    (∀ s2, s.current.type = .ID → next s = .ok () s2 → s2.current.type ≠ .ASSIGN →
      parseAssignment n s = .throw .SyntaxError s2) ∧
    (∀ s2 s4 v s5, s.current.type = .ID → next s = .ok () s2 → s2.current.type = .ASSIGN →
      next s2 = .ok () s4 → parseExp n s4 = .ok v s5 → s5.current.type ≠ .SEMICOLON →
      parseAssignment n s = .throw .SyntaxError s5) ∧
    (∀ s1 v s2, s.current.type = .LPAREN → next s = .ok () s1 → parseExp n s1 = .ok v s2 →
      s2.current.type ≠ .RPAREN → parseFact (n + 1) s = .throw .SyntaxError s2) := by
  refine ⟨fun h => ?_, fun h1 h2 => ?_, fun input t ht h1 h2 => execute_first_token input t ht h1 h2,
    fun s2 h1 h2 h3 => ?_, fun s2 s4 v s5 h1 h2 h3 h4 h5 h6 => ?_,
    fun s1 v s2 h1 h2 h3 h4 => ?_⟩
  · unfold parseAssignment
    rw [expect_ne h]
    rfl
  · rw [stmtLoop_succ, if_pos h2]
    unfold parseAssignment
    rw [expect_ne h1]
    rfl
  · unfold parseAssignment
    rw [expect_eq h1, Res.bind_ok]
    dsimp only
    rw [h2, Res.bind_ok, expect_ne h3]
    rfl
  · unfold parseAssignment
    rw [expect_eq h1, Res.bind_ok]
    dsimp only
    rw [h2, Res.bind_ok, expect_eq h3, Res.bind_ok, h4, Res.bind_ok, h5, Res.bind_ok,
      expect_ne h6]
    rfl
  · rw [parseFact_lparen n s h1, h2, Res.bind_ok, h3, Res.bind_ok, expect_ne h4]
    rfl

/-- An instance of C12: `1 = 2;` starts with a number and prints `error`; in
`(1 2` the token after the parenthesised `1` is `2`, and `parseFact` throws
`SyntaxError` there. -/
theorem token_mismatch_is_syntax_error_witness :
    execute "1 = 2;".data = .returned ["error"] ∧
    parseFact (4 + 1) openParenState =
      .throw .SyntaxError { openParenState with
        lexer := ⟨"(1 2".data, 4⟩, current := ⟨.NUM, "2"⟩ } :=
  ⟨(token_mismatch_is_syntax_error 0 openParenState).2.2.1 "1 = 2;".data ⟨.NUM, "1"⟩
      rfl (by decide) (by decide),
    (token_mismatch_is_syntax_error 4 openParenState).2.2.2.2.2
      { openParenState with lexer := ⟨"(1 2".data, 2⟩, current := ⟨.NUM, "1"⟩ } 1
      { openParenState with lexer := ⟨"(1 2".data, 4⟩, current := ⟨.NUM, "2"⟩ }
      rfl rfl rfl (by decide)⟩

/-- C13: `nextToken` returns the `END` token exactly when every
character from the cursor to the end of the text is whitespace (an empty
remainder included).  When it has returned `END`, the cursor stands at or past
the end of the text, the lexer no longer changes, and every later call returns
the `END` token again: never another token, never an error. -/
theorem end_token_iff_only_whitespace (lx : Lexer) :
    ((∃ t, lx.nextToken.1 = .ok t ∧ t.type = .END) ↔
      ∀ c ∈ lx.input.drop lx.pos, isspace c = true) ∧
    (∀ t, lx.nextToken.1 = .ok t → t.type = .END →
      t = ⟨.END, ""⟩ ∧ lx.input.length ≤ lx.nextToken.2.pos ∧
      ∀ k, (callsAfter k lx.nextToken.2).nextToken = (.ok ⟨.END, ""⟩, lx.nextToken.2)) := by
  have hiff : (∃ t, lx.nextToken.1 = .ok t ∧ t.type = .END) ↔
      ∀ c ∈ lx.input.drop lx.pos, isspace c = true := by
    rw [nextToken_fst]
    exact lexList_end_iff _
  refine ⟨hiff, fun t ht hty => ?_⟩
  have hall := hiff.1 ⟨t, ht, hty⟩
  have hl := lexList_spaces _ hall
  have hpos : lx.input.length ≤ lx.nextToken.2.pos := by
    rcases Nat.le_total lx.pos lx.input.length with h | h
    · rw [nextToken_at lx h, hl]
      simp
    · rw [nextToken_past lx h]
      exact h
  have hfix : lx.nextToken.2.nextToken = (.ok ⟨.END, ""⟩, lx.nextToken.2) :=
    nextToken_past _ (by rw [nextToken_input]; exact hpos)
  refine ⟨?_, hpos, fun k => ?_⟩
  · rw [nextToken_fst, hl] at ht
    simp only [Except.ok.injEq] at ht
    exact ht.symm
  · rw [callsAfter_end _ hfix k]
    exact hfix

/-- An instance of C13: at cursor 6 of `x = 1; \n`, where only whitespace is
left, the call and the three calls after it return `END`; at cursor 0 the call
returns the identifier `x`. -/
theorem end_token_iff_only_whitespace_witness :
    (Lexer.nextToken ⟨"x = 1; \n".data, 6⟩).1 = .ok ⟨.END, ""⟩ ∧
    (callsAfter 3 (Lexer.nextToken ⟨"x = 1; \n".data, 6⟩).2).nextToken.1 = .ok ⟨.END, ""⟩ ∧
    ¬ ∃ t, (Lexer.nextToken ⟨"x = 1; \n".data, 0⟩).1 = .ok t ∧ t.type = .END :=
  ⟨rfl,
    congrArg Prod.fst (((end_token_iff_only_whitespace ⟨"x = 1; \n".data, 6⟩).2 ⟨.END, ""⟩
      rfl rfl).2.2 3),
    fun h => absurd ((end_token_iff_only_whitespace ⟨"x = 1; \n".data, 0⟩).1.1 h 'x'
      (by simp)) (by decide)⟩

/-- C14: `nextToken` throws `SyntaxError` if and only if the first
character at or after the cursor that is not whitespace is either a `0`
directly followed by a digit, or a character that is neither a letter, an
underscore, a digit, nor one of `+ - * = ; ( )`.  For every other remaining
text it returns a token, and it throws no other exception. -/
theorem syntax_error_iff_bad_character (lx : Lexer) :
    (lx.nextToken.1 = .error .SyntaxError ↔
      ∃ ch tl, (lx.input.drop lx.pos).dropWhile isspace = ch :: tl ∧
        ((ch = '0' ∧ ∃ d, tl.head? = some d ∧ isdigit d = true) ∨
         (isalpha ch = false ∧ ch ≠ '_' ∧ isdigit ch = false ∧
           ch ∉ ['+', '-', '*', '=', ';', '(', ')']))) ∧
    ((∃ t, lx.nextToken.1 = .ok t) ∨ lx.nextToken.1 = .error .SyntaxError) := by
  rw [nextToken_fst]
  refine ⟨lexList_error_iff _, ?_⟩
  cases h : (lexList (lx.input.drop lx.pos)).1 with
  | ok t => exact Or.inl ⟨t, rfl⟩
  | error e => rw [lexList_error_kind _ e h]; exact Or.inr rfl

/-- An instance of C14: at cursor 3 of `x = 07;` the next character that is not
whitespace is a `0` followed by `7`, and at cursor 3 of `x = #;` it is `#`;
both calls throw `SyntaxError`.  At cursor 0 the call returns a token. -/
theorem syntax_error_iff_bad_character_witness :
    (Lexer.nextToken ⟨"x = 07;".data, 3⟩).1 = .error .SyntaxError ∧
    (Lexer.nextToken ⟨"x = #;".data, 3⟩).1 = .error .SyntaxError ∧
    (Lexer.nextToken ⟨"x = #;".data, 0⟩).1 ≠ .error .SyntaxError :=
  ⟨(syntax_error_iff_bad_character ⟨"x = 07;".data, 3⟩).1.2
      ⟨'0', "7;".data, rfl, Or.inl ⟨rfl, '7', rfl, by decide⟩⟩,
    (syntax_error_iff_bad_character ⟨"x = #;".data, 3⟩).1.2
      ⟨'#', ";".data, rfl, Or.inr ⟨by decide, by decide, by decide, by decide⟩⟩,
    fun h => by
      obtain ⟨ch, tl, he, hc⟩ := (syntax_error_iff_bad_character ⟨"x = #;".data, 0⟩).1.1 h
      have e : ch = 'x' := by
        have he2 : "x = #;".data = ch :: tl := he
        exact (List.cons.inj he2).1.symm
      subst e
      rcases hc with ⟨h0, _⟩ | ⟨h1, _⟩
      · exact absurd h0 (by decide)
      · exact absurd h1 (by decide)⟩

/-- C15: Binary `+` and `-` associate to the left.  For number literals
`a`, `b`, `c` written without leading zeros, each at most `INT_MAX` and with
`a - b` representable, the program `x = a - b - c;` prints exactly the line
`x = v` with `v = (a - b) - c` when that value is representable, and the
program `x = a - b + c;` prints `x = v` with `v = (a - b) + c` when that one
is.  In particular `x = 10 - 3 - 2;` prints `x = 5`. -/
theorem minus_associates_left (a b c : String) (ha : IsLiteral a) (hb : IsLiteral b)
    (hc : IsLiteral c) (hra : (decimal a.data : Int) ≤ INT_MAX)
    (hrb : (decimal b.data : Int) ≤ INT_MAX) (hrc : (decimal c.data : Int) ≤ INT_MAX)
    (hab : InRange ((decimal a.data : Int) - decimal b.data)) :
    (InRange ((decimal a.data : Int) - decimal b.data - decimal c.data) →
      execute (subSubText a b c) =
        .returned ["x = " ++
          toString (((decimal a.data : Int) - decimal b.data) - decimal c.data)]) ∧
    (InRange ((decimal a.data : Int) - decimal b.data + decimal c.data) →
      execute (subAddText a b c) =
        .returned ["x = " ++
          toString (((decimal a.data : Int) - decimal b.data) + decimal c.data)]) ∧
    execute "x = 10 - 3 - 2;".data = .returned ["x = 5"] :=
  ⟨fun h => subSub_output a b c ha hb hc hra hrb hrc hab h,
    fun h => subAdd_output a b c ha hb hc hra hrb hrc hab h,
    subSub_output "10" "3" "2" (by decide) (by decide) (by decide) (by decide) (by decide)
      (by decide) (by decide) (by decide)⟩

/-- An instance of C15: `x = 10 - 3 - 2;` prints `x = 5` (and not `x = 9`), and
`x = 10 - 3 + 2;` prints `x = 9` (and not `x = 5`). -/
theorem minus_associates_left_witness :
    IsLiteral "10" ∧ IsLiteral "3" ∧ IsLiteral "2" ∧
    (decimal "10".data : Int) ≤ INT_MAX ∧ (decimal "3".data : Int) ≤ INT_MAX ∧
    (decimal "2".data : Int) ≤ INT_MAX ∧
    InRange ((decimal "10".data : Int) - decimal "3".data) ∧
    execute "x = 10 - 3 - 2;".data = .returned ["x = 5"] ∧
    execute "x = 10 - 3 + 2;".data = .returned ["x = 9"] :=
  ⟨by decide, by decide, by decide, by decide, by decide, by decide, by decide,
    (minus_associates_left "10" "3" "2" (by decide) (by decide) (by decide) (by decide)
      (by decide) (by decide) (by decide)).1 (by decide),
    (minus_associates_left "10" "3" "2" (by decide) (by decide) (by decide) (by decide)
      (by decide) (by decide) (by decide)).2.1 (by decide)⟩

/-- C16: A lone zero is a one-character Number token.  When, after the
whitespace at the cursor, the text continues with `0` and then either ends or
continues with a character that is not a digit, `nextToken` returns the Number
token with text `0` and leaves the cursor exactly one character past the `0`.
The look-ahead reads index `pos + 1`, which is at most the length of the text;
when the `0` is the last character that index is the length itself, where the
read yields the terminating `'\0'`, which is not a digit. -/
theorem lone_zero_is_number (pre ws rest : List Char) (hws : ∀ c ∈ ws, isspace c = true)
    (hrest : ∀ d, rest.head? = some d → isdigit d = false) :
    Lexer.nextToken ⟨pre ++ (ws ++ '0' :: rest), pre.length⟩ =
      (.ok ⟨.NUM, "0"⟩, ⟨pre ++ (ws ++ '0' :: rest), pre.length + ws.length + 1⟩) ∧
    pre.length + ws.length + 1 ≤ (pre ++ (ws ++ '0' :: rest)).length ∧
    isdigit (charAt (pre ++ (ws ++ '0' :: rest)) (pre.length + ws.length + 1)) = false ∧
    (rest = [] →
      pre.length + ws.length + 1 = (pre ++ (ws ++ '0' :: rest)).length ∧
      charAt (pre ++ (ws ++ '0' :: rest)) (pre.length + ws.length + 1) = Char.ofNat 0) := by
  have hhd : isdigit (rest.headD (Char.ofNat 0)) = false := by
    cases rest with
    | nil => decide
    | cons d tl => exact hrest d rfl
  have hch : charAt (pre ++ (ws ++ '0' :: rest)) (pre.length + ws.length + 1) =
      rest.headD (Char.ofNat 0) := by
    have e := charAt_append_succ (pre ++ ws) '0' rest
    rw [List.append_assoc, List.length_append] at e
    exact e
  have hl : lexList ('0' :: rest) = (.ok ⟨.NUM, "0"⟩, rest) := by
    rw [lexList_cons ('0' :: rest) '0' rest (List.dropWhile_cons_of_neg (by decide))]
    rw [if_neg (by decide), if_pos (by decide), if_neg (by rw [hhd]; decide), if_pos rfl]
  refine ⟨?_, by simp only [List.length_append, List.length_cons]; omega, by rw [hch, hhd],
    fun h => ?_⟩
  · have := nextToken_behind_spaces pre ws ('0' :: rest) hws 1 (by rw [hl]; rfl)
    rw [hl] at this
    exact this
  · subst h
    refine ⟨by simp only [List.length_append, List.length_cons, List.length_nil]; omega, ?_⟩
    rw [hch]
    rfl

/-- An instance of C16: the `0` that ends the text `x = 0`, and the `0` before
`;` in `x = 0;`. -/
theorem lone_zero_is_number_witness :
    (∀ c ∈ " ".data, isspace c = true) ∧
    (Lexer.nextToken ⟨"x = 0".data, 3⟩ = (.ok ⟨.NUM, "0"⟩, ⟨"x = 0".data, 5⟩) ∧
      3 + 1 + 1 ≤ "x = 0".data.length ∧
      isdigit (charAt "x = 0".data 5) = false ∧
      (([] : List Char) = [] → 3 + 1 + 1 = "x = 0".data.length ∧
        charAt "x = 0".data 5 = Char.ofNat 0)) ∧
    (Lexer.nextToken ⟨"x = 0;".data, 3⟩).1 = .ok ⟨.NUM, "0"⟩ :=
  ⟨by decide, lone_zero_is_number "x =".data " ".data [] (by decide) (by simp),
    congrArg Prod.fst (lone_zero_is_number "x =".data " ".data ";".data (by decide)
      (by simp; decide)).1⟩

/-- C17: Identifier and Number tokens are maximal.  When the first
character after the whitespace at the cursor is a letter or an underscore,
`nextToken` returns an Identifier whose text is a run of alphanumeric or
underscore characters starting there; when it is a digit other than `0`, a
Number whose text is a run of digits starting there.  In both cases the run
is the longest one: no prefix of the text made of such characters is longer,
the cursor ends right behind the run, and the character there, if any, is not
one that could extend the token. -/
theorem identifier_and_number_maximal (pre ws : List Char) (ch : Char) (rest : List Char)
    (hws : ∀ c ∈ ws, isspace c = true) :
    ((isalpha ch = true ∨ ch = '_') →
      ∃ tok tl, ch :: rest = tok ++ tl ∧ (∀ c ∈ tok, (isalnum c || c = '_') = true) ∧
        (∀ d, tl.head? = some d → (isalnum d || d = '_') = false) ∧
        (∀ pfx sfx, ch :: rest = pfx ++ sfx → (∀ c ∈ pfx, (isalnum c || c = '_') = true) →
          pfx.length ≤ tok.length) ∧
        Lexer.nextToken ⟨pre ++ (ws ++ ch :: rest), pre.length⟩ =
          (.ok ⟨.ID, ⟨tok⟩⟩, ⟨pre ++ (ws ++ ch :: rest), pre.length + ws.length + tok.length⟩)) ∧
    (isdigit ch = true → ch ≠ '0' →
      ∃ tok tl, ch :: rest = tok ++ tl ∧ (∀ c ∈ tok, isdigit c = true) ∧
        (∀ d, tl.head? = some d → isdigit d = false) ∧
        (∀ pfx sfx, ch :: rest = pfx ++ sfx → (∀ c ∈ pfx, isdigit c = true) →
          pfx.length ≤ tok.length) ∧
        Lexer.nextToken ⟨pre ++ (ws ++ ch :: rest), pre.length⟩ =
          (.ok ⟨.NUM, ⟨tok⟩⟩, ⟨pre ++ (ws ++ ch :: rest), pre.length + ws.length + tok.length⟩)) := by
  constructor
  · intro h
    obtain ⟨a, b, c, d⟩ := run_spec isIdChar (ch :: rest)
    have hl := lexList_ident ch rest h
    refine ⟨_, _, a, b, c, d, ?_⟩
    have := nextToken_behind_spaces pre ws (ch :: rest) hws
      ((ch :: rest).takeWhile isIdChar).length (by
        rw [hl]
        have := congrArg List.length a
        rw [List.length_append] at this
        dsimp only
        omega)
    rw [hl] at this
    exact this
  · intro h h0
    obtain ⟨a, b, c, d⟩ := run_spec isdigit (ch :: rest)
    have hl := lexList_digits ch rest h h0
    refine ⟨_, _, a, b, c, d, ?_⟩
    have := nextToken_behind_spaces pre ws (ch :: rest) hws
      ((ch :: rest).takeWhile isdigit).length (by
        rw [hl]
        have := congrArg List.length a
        rw [List.length_append] at this
        dsimp only
        omega)
    rw [hl] at this
    exact this

/-- An instance of C17: behind `y =` and a blank, the text `ab_1+c` starts with a
letter and the text `120*3` with a non-zero digit. -/
theorem identifier_and_number_maximal_witness :
    (∀ c ∈ " ".data, isspace c = true) ∧
    (∃ tok tl, "ab_1+c".data = tok ++ tl ∧ (∀ c ∈ tok, (isalnum c || c = '_') = true) ∧
      (∀ d, tl.head? = some d → (isalnum d || d = '_') = false) ∧
      (∀ pfx sfx, "ab_1+c".data = pfx ++ sfx → (∀ c ∈ pfx, (isalnum c || c = '_') = true) →
        pfx.length ≤ tok.length) ∧
      Lexer.nextToken ⟨"y = ab_1+c".data, 3⟩ =
        (.ok ⟨.ID, ⟨tok⟩⟩, ⟨"y = ab_1+c".data, 3 + 1 + tok.length⟩)) ∧
    (∃ tok tl, "120*3".data = tok ++ tl ∧ (∀ c ∈ tok, isdigit c = true) ∧
      (∀ d, tl.head? = some d → isdigit d = false) ∧
      (∀ pfx sfx, "120*3".data = pfx ++ sfx → (∀ c ∈ pfx, isdigit c = true) →
        pfx.length ≤ tok.length) ∧
      Lexer.nextToken ⟨"y = 120*3".data, 3⟩ =
        (.ok ⟨.NUM, ⟨tok⟩⟩, ⟨"y = 120*3".data, 3 + 1 + tok.length⟩)) :=
  ⟨by decide,
    (identifier_and_number_maximal "y =".data " ".data 'a' "b_1+c".data (by decide)).1
      (Or.inl (by decide)),
    (identifier_and_number_maximal "y =".data " ".data '1' "20*3".data (by decide)).2
      (by decide) (by decide)⟩

/-- C18: Leading whitespace is insignificant to the lexer.  For a
string `w` of whitespace characters and any text `s`, the first call of
`nextToken` on a fresh lexer over `w` followed by `s` gives the same result as
on a fresh lexer over `s` (the same token kind and text, or the same
exception), and leaves the cursor larger by exactly the length of `w`. -/
theorem leading_whitespace_insignificant (w s : List Char)
    (hw : ∀ c ∈ w, isspace c = true) :
    Lexer.nextToken ⟨w ++ s, 0⟩ =
      ((Lexer.nextToken ⟨s, 0⟩).1, ⟨w ++ s, (Lexer.nextToken ⟨s, 0⟩).2.pos + w.length⟩) := by
  have h1 := nextToken_append [] (w ++ s)
  have h2 := nextToken_append [] s
  simp only [List.nil_append, List.length_nil] at h1 h2
  rw [h1, h2, lexList_spaces_append w s hw]
  congr 2
  have := lexList_length_le s
  simp only [List.length_append]
  omega

/-- An instance of C18: `x1 = 2;` behind a blank, a tab and a newline, and the
rejected `09` behind the same whitespace. -/
theorem leading_whitespace_insignificant_witness :
    (∀ c ∈ " \t\n".data, isspace c = true) ∧
    Lexer.nextToken ⟨" \t\nx1 = 2;".data, 0⟩ = (.ok ⟨.ID, "x1"⟩, ⟨" \t\nx1 = 2;".data, 2 + 3⟩) ∧
    (Lexer.nextToken ⟨" \t\n09".data, 0⟩).1 = .error .SyntaxError :=
  ⟨by decide, leading_whitespace_insignificant " \t\n".data "x1 = 2;".data (by decide),
    congrArg Prod.fst (leading_whitespace_insignificant " \t\n".data "09".data (by decide))⟩

/-- C19: The cursor of the lexer never rewinds and stays in range.
From a cursor `pos` that is at most the length of the text, a call of
`nextToken` that returns a token leaves the text as it is and a cursor `pos'`
with `pos ≤ pos'` and `pos'` at most the length of the text; `pos < pos'`
when the token is not `END`. -/
theorem cursor_monotone_in_range (lx : Lexer) (t : Token)
    (hpos : lx.pos ≤ lx.input.length) (h : lx.nextToken.1 = .ok t) :
    lx.nextToken.2.input = lx.input ∧ lx.pos ≤ lx.nextToken.2.pos ∧
    lx.nextToken.2.pos ≤ lx.input.length ∧ (t.type ≠ .END → lx.pos < lx.nextToken.2.pos) :=
  ⟨nextToken_input lx, nextToken_pos_ge lx, nextToken_pos_le lx hpos,
    fun hne => (nextToken_progress lx t h hne).1⟩

/-- An instance of C19: the call at cursor 1 of `x = 12;` returns `=` and moves
the cursor to 3. -/
theorem cursor_monotone_in_range_witness :
    (1 : Nat) ≤ "x = 12;".data.length ∧
    (Lexer.nextToken ⟨"x = 12;".data, 1⟩).1 = .ok ⟨.ASSIGN, "="⟩ ∧
    (Lexer.nextToken ⟨"x = 12;".data, 1⟩).2.pos = 3 ∧
    ((Lexer.nextToken ⟨"x = 12;".data, 1⟩).2.input = "x = 12;".data ∧
      1 ≤ (Lexer.nextToken ⟨"x = 12;".data, 1⟩).2.pos ∧
      (Lexer.nextToken ⟨"x = 12;".data, 1⟩).2.pos ≤ "x = 12;".data.length ∧
      (TokenType.ASSIGN ≠ .END → 1 < (Lexer.nextToken ⟨"x = 12;".data, 1⟩).2.pos)) :=
  ⟨by decide, rfl, rfl,
    cursor_monotone_in_range ⟨"x = 12;".data, 1⟩ ⟨.ASSIGN, "="⟩ (by decide) rfl⟩

/-- C20: `execute` terminates on every source text.  The call returns
an outcome for every text, and a recursion budget of three per token plus one
already gives the result `execute` works with.  In `nextToken` both loops stop
because their condition fails, within the characters left.  A call of `next`
with a current token other than `END` leaves fewer tokens.  The recursive
calls of the parser (`parseFact` after a sign, `parseExp` after `(`, and the
operand of each iteration of the loops of `parseTerm` and `parseExp`) are made
on the state such a call of `next` leaves, so with fewer tokens left; on any
other token `parseFact` makes no recursive call and the loops stop.  A
successful `parseFact`, `parseTerm` or `parseExp` has consumed a token, with a
budget of three per token left plus three they return, and every iteration of
the statement loop throws or consumes a token. -/
theorem execute_terminates (input : List Char) :
    execute input ≠ .outOfFuel ∧
    tokenCount input ≤ input.length ∧
    (∀ n, 3 * tokenCount input + 1 ≤ n →
      run n (Interpreter.new input) ≠ .outOfFuel ∧
      run n (Interpreter.new input) = run (fuelFor input) (Interpreter.new input)) ∧
    (∀ p inp pos, ¬ (skipWhile p inp (inp.length - pos) pos < inp.length ∧
      p (charAt inp (skipWhile p inp (inp.length - pos) pos)) = true)) ∧
    (∀ p inp acc pos, ¬ ((scanWhile p inp (inp.length - pos) acc pos).2 < inp.length ∧
      p (charAt inp (scanWhile p inp (inp.length - pos) acc pos).2) = true)) ∧
    (∀ s s1, s.current.type ≠ .END → next s = .ok () s1 → tokensLeft s1 < tokensLeft s) ∧
    (∀ n s s1, s.current.isSign → next s = .ok () s1 →
      tokensLeft s1 < tokensLeft s ∧
      parseFact (n + 1) s = (parseFact n s1).bind fun value s2 =>
        .ok (if s.current.value = "+" then value else wrap (-value)) s2) ∧
    (∀ n s s1, s.current.type = .LPAREN → next s = .ok () s1 →
      tokensLeft s1 < tokensLeft s ∧
      parseFact (n + 1) s = (parseExp n s1).bind fun value s2 =>
        (expect .RPAREN s2).bind fun _ s3 => (next s3).bind fun _ s4 => .ok value s4) ∧
    (∀ n r s s1, (s.current.type = .OP ∧ s.current.value = "*") → next s = .ok () s1 →
      tokensLeft s1 < tokensLeft s ∧
      termLoop (n + 1) r s = (parseFact n s1).bind fun f s2 =>
        termLoop n (wrap (r * f)) s2) ∧
    (∀ n r s s1, s.current.isSign → next s = .ok () s1 →
      tokensLeft s1 < tokensLeft s ∧
      expLoop (n + 1) r s = (parseTerm n s1).bind fun term s2 =>
        expLoop n (if s.current.value = "+" then wrap (r + term) else wrap (r - term)) s2) ∧
    (∀ n r s, (¬ s.current.isSign → s.current.type ≠ .LPAREN →
        parseFact (n + 1) s = parseFact 1 s) ∧
      (¬ (s.current.type = .OP ∧ s.current.value = "*") → termLoop (n + 1) r s = .ok r s) ∧
      (¬ s.current.isSign → expLoop (n + 1) r s = .ok r s)) ∧
    (∀ n s v s', (parseFact n s = .ok v s' ∨ parseTerm n s = .ok v s' ∨
        parseExp n s = .ok v s') → tokensLeft s' < tokensLeft s) ∧
    (∀ n s, 3 * tokensLeft s + 3 ≤ n →
      parseFact n s ≠ .outOfFuel ∧ parseTerm n s ≠ .outOfFuel ∧ parseExp n s ≠ .outOfFuel) ∧
    (∀ n s, 3 * tokensLeft s ≤ n + 3 →
      (∃ e st, parseAssignment n s = .throw e st) ∨
      (∃ s', parseAssignment n s = .ok () s' ∧ tokensLeft s' < tokensLeft s)) ∧
    (∀ n s, 3 * tokensLeft s + 1 ≤ n → stmtLoop n s ≠ .outOfFuel) := by
  refine ⟨execute_ne_outOfFuel input, tokenCount_le input, fun n hn => ?_,
    fun p inp pos => skipWhile_exit p inp _ pos (Nat.le_refl _),
    fun p inp acc pos => scanWhile_exit p inp _ acc pos (Nat.le_refl _),
    fun s s1 hne h => (next_tokens_le h).2 hne, fun n s s1 c h => ?_, fun n s s1 c h => ?_,
    fun n r s s1 c h => ?_, fun n r s s1 c h => ?_, fun n r s => ⟨fun c1 c2 => ?_, ?_, ?_⟩,
    fun n s v s' h => ?_, fun n s hn => ?_,
    fun n s hn => parseAssignment_fails_or_consumes n s hn,
    fun n s hn => stmtLoop_returns_of tokensLeft_consumes n s hn⟩
  · have h := run_returns_of_tokens input n hn
    exact ⟨h, (run_eq_of_fuel rfl h).symm⟩
  · refine ⟨(next_tokens_le h).2 (by rw [c.1]; decide), ?_⟩
    rw [parseFact_sign n s c, h, Res.bind_ok]
  · refine ⟨(next_tokens_le h).2 (by rw [c]; decide), ?_⟩
    rw [parseFact_lparen n s c, h, Res.bind_ok]
  · refine ⟨(next_tokens_le h).2 (by rw [c.1]; decide), ?_⟩
    rw [termLoop_star n r s c, h, Res.bind_ok]
  · refine ⟨(next_tokens_le h).2 (by rw [c.1]; decide), ?_⟩
    rw [expLoop_sign n r s c, h, Res.bind_ok]
  · by_cases d1 : s.current.type = .NUM
    · rw [parseFact_num n s d1, parseFact_num 0 s d1]
    · by_cases d2 : s.current.type = .ID
      · rw [parseFact_id n s d2, parseFact_id 0 s d2]
      · rw [parseFact_other n s c1 d1 d2 c2, parseFact_other 0 s c1 d1 d2 c2]
  · exact fun c => termLoop_exit n r s c
  · exact fun c => expLoop_exit n r s c
  · rcases h with h | h | h
    · exact (progress_of tokensLeft_consumes n).1 _ _ _ h
    · exact (progress_of tokensLeft_consumes n).2.2.1 _ _ _ h
    · exact (progress_of tokensLeft_consumes n).2.2.2.2 _ _ _ h
  · exact ⟨(enough_of tokensLeft_consumes n).1 s (by omega),
      (enough_of tokensLeft_consumes n).2.2.1 s (by omega),
      (enough_of tokensLeft_consumes n).2.2.2.2 s hn⟩

/-- An instance of C20: `y = (1 + 2) * 3;` has 10 tokens, and with a budget of 31
the run returns the result `execute` works with; `execute` returns on the text
`((((` too. -/
theorem execute_terminates_witness :
    tokenCount "y = (1 + 2) * 3;".data = 10 ∧
    run 31 (Interpreter.new "y = (1 + 2) * 3;".data) ≠ .outOfFuel ∧
    execute "((((".data ≠ .outOfFuel :=
  ⟨by decide,
    ((execute_terminates "y = (1 + 2) * 3;".data).2.2.1 31 (by decide)).1,
    (execute_terminates "((((".data).1⟩

end Tokenizer
